import Mathlib

/-!
# BlockSci ingestion pipeline: embedding and verified properties

A shallow embedding of the parser of `pbjc/BlockSci` (`src/parser/block_processor.cpp`,
`src/parser/chain_index.cpp`) and of the parts of `src/blocksci/chain` that it meets.
Machine integers are natural numbers reduced modulo `2^w` where the source computes in a
fixed width; a function that can fail (an exception, a lookup past the end) returns `Option`.
-/

namespace BlockSci

/-! ## Data model -/

/-- One byte (`unsigned char`). -/
abbrev Byte := Fin 256

/-- A 256-bit hash (`blocksci::uint256`), as the number it encodes. -/
abbrev uint256 := Nat

/-- The hash produced by `uint256::SetNull()`: all bits zero. -/
def nullHash : uint256 := 0

/-- Modelled from the spec: the address-type enumeration `blocksci::AddressType::Enum`
(its header is not among the sources); the source names only `NULL_DATA`. -/
inductive AddressType where
  | NONSTANDARD
  | PUBKEY
  | PUBKEYHASH
  | SCRIPTHASH
  | MULTISIG
  | NULL_DATA
  | WITNESS_PUBKEYHASH
  | WITNESS_SCRIPTHASH
deriving DecidableEq, Repr

/-- Modelled from the spec: `ScriptOutputType`, the tagged union over the address-type variants
carrying the decoded script payload. `type` is the variant's tag and `fullData` its payload
(for the `NULL_DATA` variant: the member `fullData` read by `SegwitChecker`). -/
structure ScriptOutput where
  type : AddressType
  fullData : List Byte
deriving DecidableEq, Repr

/-- The pair `(txHash, outputIndex)` naming an output (`RawOutputPointer`). -/
structure RawOutputPointer where
  hash : uint256
  outputNum : Nat
deriving DecidableEq, Repr

/-- The mutable input record of stage 1 (`RawInput`). -/
structure RawInput where
  rawOutputPointer : RawOutputPointer
  script : List Byte
  sequenceNum : Nat
  addressType : AddressType
  linkedTxNum : Nat
deriving DecidableEq, Repr

/-- The output record of stage 1 (`RawOutput`). -/
structure RawOutput where
  value : Nat
  scriptOutput : ScriptOutput
deriving DecidableEq, Repr

/-- The mutable, pooled transaction record handed from stage to stage (`RawTransaction` of the
parser). -/
structure RawTransaction where
  txNum : Nat
  blockHeight : Nat
  sizeBytes : Nat
  locktime : Nat
  version : Nat
  isSegwit : Bool
  hash : uint256
  inputs : List RawInput
  outputs : List RawOutput
deriving DecidableEq, Repr

/-! ## Segwit detection (`block_processor.cpp`, lines 83-104) -/

/-- The value of `*reinterpret_cast<const uint32_t *>(data)` on a little-endian host: the first four
bytes of `data`, least significant first. `none` when `data` holds fewer than four bytes: the
read is then past the end of the data, which the source does not guard against. -/
def readUInt32 : List Byte → Option Nat
  | a :: b :: c :: d :: _ => some (a.val + 256 * b.val + 65536 * c.val + 16777216 * d.val)
  | _ => none

/-- `SegwitChecker::operator()`: on the `NULL_DATA` variant compare the first four bytes of
`fullData`, read as a `uint32_t`, with `0xeda921aa`; on every other variant `false`. The source
reads the four bytes without looking at the size of `fullData`: `none` when it holds fewer. -/
def SegwitChecker (output : ScriptOutput) : Option Bool :=
  match output.type with
  | .NULL_DATA =>
    match readUInt32 output.fullData with
    | some segwitMarker => some (segwitMarker == 0xeda921aa)
    | none => none
  | _ => some false

/-- The loop of `checkSegwit`: `i` is one more than the index inspected next, so the outputs are
visited from the last to the first and the first hit returns `true`; `none` when the checker
reads past the end of an output's data before that. -/
def checkSegwitLoop (outputs : List RawOutput) : Nat → Option Bool
  | 0 => some false
  | i + 1 =>
    match outputs[i]? with
    | some o =>
      match SegwitChecker o.scriptOutput with
      | none => none
      | some true => some true
      | some false => checkSegwitLoop outputs i
    | none => checkSegwitLoop outputs i

/-- `checkSegwit(tx, checker)`. -/
def checkSegwit (tx : RawTransaction) : Option Bool :=
  checkSegwitLoop tx.outputs tx.outputs.length

/-- The four bytes `AA 21 A9 ED` of the segwit commitment header. -/
def segwitMagic : List Byte := [0xAA, 0x21, 0xA9, 0xED]

/-! ## Stage 3: the UTXO resolver (`BlockProcessor::processUTXOs`, lines 319-385) -/

/-- An address: its number within the partition of its type (`blocksci::Address`). -/
structure Address where
  addressNum : Nat
  type : AddressType
deriving DecidableEq, Repr

/-- The fixed-size record of an input or an output in the tx file (`blocksci::Inout`); the address
given to the constructor is kept as `toAddressNum` and `type`. -/
structure Inout where
  linkedTxNum : Nat
  toAddressNum : Nat
  type : AddressType
  value : Nat
deriving DecidableEq, Repr

/-- The constructor `Inout{linkedTxNum, address, value}`. -/
def Inout.make (linkedTxNum : Nat) (address : Address) (value : Nat) : Inout :=
  { linkedTxNum := linkedTxNum, toAddressNum := address.addressNum, type := address.type,
    value := value }

/-- `Inout::getAddress()`. -/
def Inout.getAddress (io : Inout) : Address :=
  { addressNum := io.toAddressNum, type := io.type }

/-- `Inout::getValue()`. -/
def Inout.getValue (io : Inout) : Nat := io.value

/-- An unspent output as the UTXO stage keeps it: the output record, whose `linkedTxNum` is the
number of the producing transaction, and its address type (`UTXO`). -/
structure UTXO where
  output : Inout
  addressType : AddressType
deriving DecidableEq, Repr

/-- Modelled from the spec: `UTXOState` (utxo_state.hpp is not among the sources), the map keyed
by `(txHash, outputIndex)` of the unspent outputs, kept as an association list. -/
abbrev UTXOState := List (RawOutputPointer × UTXO)

/-- Modelled from the spec: `UTXOState::spendOutput` removes the entry at the pointer and returns
it; a missing entry is fatal (`none`). -/
def UTXOState.spendOutput (s : UTXOState) (pointer : RawOutputPointer) :
    Option (UTXO × UTXOState) :=
  match s.lookup pointer with
  | some utxo => some (utxo, s.filter (fun e => e.1 != pointer))
  | none => none

/-- Modelled from the spec: `UTXOState::addOutput` inserts the entry under the pointer; a
duplicate insert, the pointer holding an entry already, is fatal (`none`). -/
def UTXOState.addOutput (s : UTXOState) (utxo : UTXO) (pointer : RawOutputPointer) :
    Option UTXOState :=
  match s.lookup pointer with
  | some _ => none
  | none => some ((pointer, utxo) :: s)

/-- The record of a transaction in the tx file (`blocksci::RawTransaction`): the header followed by
the `Inout` records of the inputs and then of the outputs. -/
structure DiskTransaction where
  sizeBytes : Nat
  locktime : Nat
  version : Nat
  inputCount : Nat
  outputCount : Nat
  segwit : Bool
  inouts : List Inout
deriving DecidableEq, Repr

/-- Modelled from the spec: `RawTransaction::getRawTransaction()` (its definition is not among the
sources), the on-disk header of a transaction, the two counts being 16-bit fields. -/
def RawTransaction.getRawTransaction (tx : RawTransaction) : DiskTransaction :=
  { sizeBytes := tx.sizeBytes, locktime := tx.locktime, version := tx.version,
    inputCount := tx.inputs.length % 65536, outputCount := tx.outputs.length % 65536,
    segwit := tx.isSegwit, inouts := [] }

/-- `addressType(output.scriptOutput)`: the tag of the variant. -/
def addressType (scriptOutput : ScriptOutput) : AddressType := scriptOutput.type

/-- The input loop of `consume` (lines 337-346): each input spends the entry at its pointer, takes
its address type and producing transaction number, and one `Inout` is written. Returns the
updated inputs, the records written and the new UTXO state. -/
def spendInputs (utxoState : UTXOState) :
    List RawInput → Option (List RawInput × List Inout × UTXOState)
  | [] => some ([], [], utxoState)
  | input :: rest =>
    match utxoState.spendOutput input.rawOutputPointer with
    | none => none
    | some (utxo, s1) =>
      let input1 : RawInput :=
        { input with addressType := utxo.addressType, linkedTxNum := utxo.output.linkedTxNum }
      let address : Address := { addressNum := 0, type := utxo.addressType }
      let blocksciInput := Inout.make utxo.output.linkedTxNum address utxo.output.getValue
      match spendInputs s1 rest with
      | none => none
      | some (inputs, records, s2) => some (input1 :: inputs, blocksciInput :: records, s2)

/-- The output loop of `consume` (lines 348-363), `i` being the 16-bit counter: one `Inout` is
written per output, and a spendable output is added to the UTXO state under `(tx.hash, i)` with
`linkedTxNum = tx.txNum`; `none` when an insert is fatal. `isSpendable` stands for
`isSpendable(scriptType(type))`, whose definition is not among the sources. -/
def addOutputs (isSpendable : AddressType → Bool) (txNum : Nat) (hash : uint256) :
    UTXOState → List RawOutput → Nat → Option (List Inout × UTXOState)
  | utxoState, [], _ => some ([], utxoState)
  | utxoState, output :: rest, i =>
    let type := addressType output.scriptOutput
    let address : Address := { addressNum := 0, type := type }
    let blocksciOutput := Inout.make 0 address output.value
    let added :=
      if isSpendable type then
        utxoState.addOutput { output := { blocksciOutput with linkedTxNum := txNum },
                              addressType := type } { hash := hash, outputNum := i }
      else some utxoState
    match added with
    | none => none
    | some s1 =>
      match addOutputs isSpendable txNum hash s1 rest ((i + 1) % 65536) with
      | none => none
      | some r => some (blocksciOutput :: r.1, r.2)

/-- What stage 3 owns and produces: the UTXO state, the tx file (one record per index group) and
the transactions pushed to the address queue, oldest first. -/
structure UTXOStage where
  utxoState : UTXOState
  txFile : List DiskTransaction
  addressQueue : List RawTransaction
deriving DecidableEq, Repr

/-- The lambda `consume` of `processUTXOs`: write the index group and header, run the input loop
and the output loop, push the transaction (its inputs updated) to the address queue.
`optionalSave` checkpoints the state and does not change the map. -/
def processUTXOsConsume (isSpendable : AddressType → Bool) (st : UTXOStage)
    (tx : RawTransaction) : Option UTXOStage :=
  let diskTx := tx.getRawTransaction
  match spendInputs st.utxoState tx.inputs with
  | none => none
  | some (inputs, inputRecords, s1) =>
    match addOutputs isSpendable tx.txNum tx.hash s1 tx.outputs 0 with
    | none => none
    | some r =>
      some { utxoState := r.2,
             txFile := st.txFile ++ [{ diskTx with inouts := inputRecords ++ r.1 }],
             addressQueue := st.addressQueue ++ [{ tx with inputs := inputs }] }

/-- `processUTXOs`: `consume` applied to the transactions of the UTXO queue in queue order. -/
def processUTXOs (isSpendable : AddressType → Bool) :
    UTXOStage → List RawTransaction → Option UTXOStage
  | st, [] => some st
  | st, tx :: rest =>
    match processUTXOsConsume isSpendable st tx with
    | none => none
    | some st1 => processUTXOs isSpendable st1 rest

/-- The pointers referenced by the inputs of the transactions, in the order they are spent. -/
def spentPointers (txs : List RawTransaction) : List RawOutputPointer :=
  txs.flatMap (fun tx => tx.inputs.map (fun input => input.rawOutputPointer))

/-- The entries created by the outputs `outputs` of one transaction, the first one having
counter `i`: one per spendable output, keyed by the transaction hash and the 16-bit counter. -/
def createdByOutputs (isSpendable : AddressType → Bool) (txNum : Nat) (hash : uint256) :
    List RawOutput → Nat → List (RawOutputPointer × UTXO)
  | [], _ => []
  | output :: rest, i =>
    let type := addressType output.scriptOutput
    let tail := createdByOutputs isSpendable txNum hash rest ((i + 1) % 65536)
    if isSpendable type then
      ({ hash := hash, outputNum := i },
        { output := { linkedTxNum := txNum, toAddressNum := 0, type := type,
                      value := output.value },
          addressType := type }) :: tail
    else tail

/-- The spendable outputs created by the transactions, as UTXO entries, in creation order. -/
def createdEntries (isSpendable : AddressType → Bool) (txs : List RawTransaction) :
    List (RawOutputPointer × UTXO) :=
  txs.flatMap (fun tx => createdByOutputs isSpendable tx.txNum tx.hash tx.outputs 0)

/-- The UTXO conservation law as a statement about a start map `m0`, the transactions consumed,
the entries `spent` that their inputs referred to and the map `m` reached: the referenced entries
are among the entries present at the start or created by an output, and the entries of `m`
are these entries minus the referenced ones, each taken away once (as collections of entries,
whatever the order of the lists). -/
def UTXOConservation (isSpendable : AddressType → Bool) (m0 : UTXOState)
    (txs : List RawTransaction) (spent : List (RawOutputPointer × UTXO)) (m : UTXOState) : Prop :=
  (spent : Multiset (RawOutputPointer × UTXO)) ≤
      ((m0 ++ createdEntries isSpendable txs : List (RawOutputPointer × UTXO)) :
        Multiset (RawOutputPointer × UTXO)) ∧
    (m : Multiset (RawOutputPointer × UTXO)) =
      ((m0 ++ createdEntries isSpendable txs : List (RawOutputPointer × UTXO)) :
        Multiset (RawOutputPointer × UTXO)) - (spent : Multiset (RawOutputPointer × UTXO))

/-! ## The chain index (`chain_index.cpp`) -/

/-- The 80-byte block header (`CBlockHeader`). -/
structure CBlockHeader where
  nVersion : Nat
  hashPrevBlock : uint256
  hashMerkleRoot : uint256
  nTime : Nat
  nBits : Nat
  nNonce : Nat
deriving DecidableEq, Repr

/-- The record of one block kept by the chain index: the fields of `BlockInfoBase` and, as
`location`, what `BlockInfo<ParseTag>` adds to them. `height` is a C++ `int`. -/
structure BlockInfo (Location : Type) where
  hash : uint256
  header : CBlockHeader
  height : Int
  size : Nat
  nTx : Nat
  inputCount : Nat
  outputCount : Nat
  location : Location
deriving DecidableEq, Repr

/-- What `BlockInfo<FileTag>` adds: the number of the block file and the position of the block's
data in it. -/
structure FileLocation where
  nFile : Int
  nDataPos : Nat
deriving DecidableEq, Repr

/-- What `BlockInfo<RPCTag>` adds: the identifiers of the block's transactions. -/
structure RPCLocation where
  tx : List Nat
deriving DecidableEq, Repr

/-- `std::numeric_limits<int>::min()`. -/
def INT_MIN : Int := -2147483648

/-- The constructor `BlockInfoBase::BlockInfoBase`: every field from its argument, `height(-1)`. -/
def BlockInfo.new {Location : Type} (hash : uint256) (h : CBlockHeader) (size numTxes inputCount
    outputCount : Nat) (location : Location) : BlockInfo Location :=
  { hash := hash, header := h, height := -1, size := size, nTx := numTxes,
    inputCount := inputCount, outputCount := outputCount, location := location }

/-- `blockList.find(hash)`: `blockList` maps a block's hash to the block, every writer of the
source storing a block under its own hash (`blockList[block.hash] = block`); the map is kept as
the list of its blocks in iteration order, and the block of a hash is the block of the list with
that hash. -/
def findBlock {Location : Type} (blockList : List (BlockInfo Location)) (hash : uint256) :
    Option (BlockInfo Location) :=
  blockList.find? (fun b => b.hash == hash)

/-- One round of the first loop of `generateChain` (lines 231-236): the block replaces the best
one so far when its height is strictly greater. -/
def maxHeightStep {Location : Type} (acc : Option (BlockInfo Location) × Int)
    (b : BlockInfo Location) : Option (BlockInfo Location) × Int :=
  if b.height > acc.2 then (some b, b.height) else acc

/-- The first loop of `generateChain`: `maxHeightBlock`, starting from `nullptr` and `INT_MIN`. -/
def maxHeightBlock {Location : Type} (blockList : List (BlockInfo Location)) :
    Option (BlockInfo Location) :=
  (blockList.foldl maxHeightStep (none, INT_MIN)).1

/-- The `while (hash != nullHash)` loop of `generateChain` (lines 247-251): the blocks pushed, in
push order. Each round takes one unit of `fuel`; `none` when the fuel is used up or when
`blockList.find(hash)` finds no block (the source then dereferences `end()`). -/
def walkBack {Location : Type} (blockList : List (BlockInfo Location)) :
    Nat → uint256 → Option (List (BlockInfo Location))
  | fuel, hash =>
    if hash = nullHash then some []
    else
      match fuel with
      | 0 => none
      | fuel + 1 =>
        match findBlock blockList hash with
        | none => none
        | some block =>
          match walkBack blockList fuel block.header.hashPrevBlock with
          | none => none
          | some chain => some (block :: chain)

/-- The last statement of `generateChain` (lines 255-259). -/
def truncateChain {Location : Type} (chain : List (BlockInfo Location)) (maxBlockHeight : Nat) :
    List (BlockInfo Location) :=
  if maxBlockHeight = 0 ∨ maxBlockHeight > chain.length then chain
  else chain.take maxBlockHeight

/-- `ChainIndex<ParseTag>::generateChain(maxBlockHeight)`, the walk being given `fuel` rounds. -/
def generateChain {Location : Type} (blockList : List (BlockInfo Location)) (fuel : Nat)
    (maxBlockHeight : Nat) : Option (List (BlockInfo Location)) :=
  match maxHeightBlock blockList with
  | none => some []
  | some best =>
    match walkBack blockList fuel best.hash with
    | none => none
    | some chain => some (truncateChain chain.reverse maxBlockHeight)

/-- The statement that some output of the transaction is a null-data output whose data is the
four bytes `AA 21 A9 ED` followed by 32 bytes of commitment. -/
def hasSegwitCommitment (tx : RawTransaction) : Prop :=
  ∃ o ∈ tx.outputs, o.scriptOutput.type = AddressType.NULL_DATA ∧
    ∃ commitment : List Byte, commitment.length = 32 ∧
      o.scriptOutput.fullData = segwitMagic ++ commitment

/-- A null-data output carrying the bytes `data`. -/
def nullDataOutput (data : List Byte) : RawOutput :=
  { value := 0, scriptOutput := { type := AddressType.NULL_DATA, fullData := data } }

/-! ### Concrete transactions used to evaluate stage 3 -/

/-- Every address type but `NULL_DATA` is spendable. -/
def spendableUnlessNullData (type : AddressType) : Bool := type != AddressType.NULL_DATA

/-- An output paying `value` to a public key. -/
def pubkeyOutput (value : Nat) : RawOutput :=
  { value := value, scriptOutput := { type := AddressType.PUBKEY, fullData := [] } }

/-- An input spending output `outputNum` of the transaction with hash `hash`, as stage 1 leaves
it (address type and linked transaction number not yet filled in). -/
def inputSpending (hash : uint256) (outputNum : Nat) : RawInput :=
  { rawOutputPointer := { hash := hash, outputNum := outputNum }, script := [],
    sequenceNum := 4294967295, addressType := AddressType.NONSTANDARD, linkedTxNum := 0 }

/-- A transaction with the given number, hash, inputs and outputs. -/
def sampleTx (txNum : Nat) (hash : uint256) (inputs : List RawInput)
    (outputs : List RawOutput) : RawTransaction :=
  { txNum := txNum, blockHeight := 0, sizeBytes := 100, locktime := 0, version := 1,
    isSegwit := false, hash := hash, inputs := inputs, outputs := outputs }

/-- The empty store of stage 3. -/
def emptyUTXOStage : UTXOStage := { utxoState := [], txFile := [], addressQueue := [] }

/-- A coinbase paying to A, a second coinbase, and a transaction spending A's output to B. -/
def simpleSpendTxs : List RawTransaction :=
  [sampleTx 0 7 [] [pubkeyOutput 5000000000],
   sampleTx 1 8 [] [pubkeyOutput 5000000000],
   sampleTx 2 9 [inputSpending 7 0] [pubkeyOutput 4999990000]]

/-- Three transactions with the same hash `7` (identical coinbases), the output of the first
being spent before the second and the third are consumed. -/
def reusedHashTxs : List RawTransaction :=
  [sampleTx 0 7 [] [pubkeyOutput 5000000000],
   sampleTx 1 8 [inputSpending 7 0] [],
   sampleTx 2 7 [] [pubkeyOutput 5000000000],
   sampleTx 3 7 [] [pubkeyOutput 5000000000]]

/-- The first three of them: an output is created under the key `(7, 0)`, spent, and created
again under the same key. -/
def recreatedKeyTxs : List RawTransaction := reusedHashTxs.take 3

/-! ### Concrete block maps used to evaluate the chain index -/

/-- A header with the given previous-block hash. -/
def sampleHeader (hashPrevBlock : uint256) : CBlockHeader :=
  { nVersion := 1, hashPrevBlock := hashPrevBlock, hashMerkleRoot := 0, nTime := 0, nBits := 0,
    nNonce := 0 }

/-- A block of block file 0 with the given hash, previous-block hash, height and number of
transactions. -/
def sampleBlock (hash hashPrevBlock : uint256) (height : Int) (nTx : Nat) :
    BlockInfo FileLocation :=
  { hash := hash, header := sampleHeader hashPrevBlock, height := height, size := 285, nTx := nTx,
    inputCount := 0, outputCount := 1, location := { nFile := 0, nDataPos := 8 } }

/-- A chain of three blocks `11 ← 12 ← 13` and a side block `14` on `11`, in an arbitrary
iteration order, with the heights the height pass gives them. -/
def forkedBlockList : List (BlockInfo FileLocation) :=
  [sampleBlock 12 11 2 1, sampleBlock 14 11 2 1, sampleBlock 11 0 1 1, sampleBlock 13 12 3 2]

/-! ### The height-assignment pass of `ChainIndex<FileTag>::update` (lines 160-182) -/

/-- The multimap `forwardHashes`: one pair `(hashPrevBlock, hash)` per block of `blockList`, in
iteration order (lines 160-164). -/
def forwardHashes {Location : Type} (blockList : List (BlockInfo Location)) :
    List (uint256 × uint256) :=
  blockList.map (fun b => (b.header.hashPrevBlock, b.hash))

/-- `forwardHashes.equal_range(blockHash)`: the hashes stored under the key `blockHash`. -/
def equalRange (forward : List (uint256 × uint256)) (blockHash : uint256) : List uint256 :=
  (forward.filter (fun e => e.1 == blockHash)).map Prod.snd

/-- Writing through the reference `blockList.at(hash)`: the block stored under `hash` is replaced
by `block`. -/
def storeBlock {Location : Type} (block : BlockInfo Location) (hash : uint256) :
    List (BlockInfo Location) → List (BlockInfo Location)
  | [] => []
  | b :: rest => if b.hash == hash then block :: rest else b :: storeBlock block hash rest

/-- The `for` loop over `equal_range(blockHash)` (lines 177-181): each child is looked up with
`blockList.at` (which throws when the hash is absent: `none`), gets `height + 1`, and
`(block.hash, block.height)` is pushed on the queue. The queue is a vector used as a stack; it is
kept with its back at the head of the list. The `int` addition is taken without overflow. -/
def assignChildren {Location : Type} (height : Int) :
    List (BlockInfo Location) → List (uint256 × Int) → List uint256 →
      Option (List (BlockInfo Location) × List (uint256 × Int))
  | blockList, queue, [] => some (blockList, queue)
  | blockList, queue, child :: rest =>
    match findBlock blockList child with
    | none => none
    | some block =>
      let block1 : BlockInfo Location := { block with height := height + 1 }
      assignChildren height (storeBlock block1 child blockList)
        ((block1.hash, block1.height) :: queue) rest

/-- The `while (!queue.empty())` loop (lines 172-182), each round taking one unit of `fuel`:
pop the back of the queue and visit the children of the hash popped. -/
def assignHeightsLoop {Location : Type} (forward : List (uint256 × uint256)) :
    Nat → List (BlockInfo Location) → List (uint256 × Int) → Option (List (BlockInfo Location))
  | _, blockList, [] => some blockList
  | 0, _, _ :: _ => none
  | fuel + 1, blockList, (blockHash, height) :: queue =>
    match assignChildren height blockList queue (equalRange forward blockHash) with
    | none => none
    | some (blockList1, queue1) => assignHeightsLoop forward fuel blockList1 queue1

/-- The height-assignment pass: build `forwardHashes` from the block list, start the queue with
`(nullHash, 0)` and run the loop. -/
def assignHeights {Location : Type} (blockList : List (BlockInfo Location)) (fuel : Nat) :
    Option (List (BlockInfo Location)) :=
  assignHeightsLoop (forwardHashes blockList) fuel blockList [(nullHash, 0)]

/-- The hashes reachable from the null hash through prevHash links: the null hash is the root,
and the hash of a block is reachable when the block's prevHash is. -/
inductive Reachable {Location : Type} (blockList : List (BlockInfo Location)) : uint256 → Prop
  | root : Reachable blockList nullHash
  | step (b : BlockInfo Location) (hb : b ∈ blockList)
      (hp : Reachable blockList b.header.hashPrevBlock) : Reachable blockList b.hash

/-- The block list with the height of every block replaced by the value of `H` at its hash. -/
def withHeights {Location : Type} (H : uint256 → Int) (blockList : List (BlockInfo Location)) :
    List (BlockInfo Location) :=
  blockList.map (fun b => { b with height := H b.hash })

/-- A side chain `21 ← 22` whose root `20` is missing, next to the chain `11 ← 12`, as the scan
leaves the blocks (height `-1`). -/
def orphanedBlockList : List (BlockInfo FileLocation) :=
  [sampleBlock 12 11 (-1) 1, sampleBlock 22 21 (-1) 1, sampleBlock 11 0 (-1) 1,
   sampleBlock 21 20 (-1) 1]

/-- The height stored in the block list under a hash (`0` when the hash is absent). -/
def heightOf {Location : Type} (blockList : List (BlockInfo Location)) (hash : uint256) : Int :=
  match findBlock blockList hash with
  | some b => b.height
  | none => 0

/-- The invariant of the `while` loop of the height pass, for the block list `blockList` the
pass started from: `H` gives the current heights by hash, `queue` is the queue and `visited` the
set of the hashes popped so far. -/
structure HeightInv {Location : Type} (blockList : List (BlockInfo Location))
    (H : uint256 → Int) (queue : List (uint256 × Int)) (visited : Finset uint256) : Prop where
  nodup : (queue.map Prod.fst).Nodup
  disjoint : ∀ h ∈ queue.map Prod.fst, h ∉ visited
  entry : ∀ e ∈ queue, (e.1 = nullHash → e.2 = 0) ∧ (e.1 ≠ nullHash → e.2 = H e.1)
  reach : ∀ h, (h ∈ visited ∨ h ∈ queue.map Prod.fst) → Reachable blockList h
  root : nullHash ∈ visited ∨ nullHash ∈ queue.map Prod.fst
  closed : ∀ b ∈ blockList, b.header.hashPrevBlock ∈ visited →
    b.hash ∈ visited ∨ b.hash ∈ queue.map Prod.fst
  heights : ∀ b ∈ blockList, b.header.hashPrevBlock ∈ visited →
    (b.header.hashPrevBlock = nullHash → H b.hash = 0 + 1) ∧
    (b.header.hashPrevBlock ≠ nullHash → H b.hash = H b.header.hashPrevBlock + 1)
  parent : ∀ h, (h ∈ visited ∨ h ∈ queue.map Prod.fst) → h ≠ nullHash →
    ∃ p ∈ blockList, p.hash = h ∧ p.header.hashPrevBlock ∈ visited
  unchanged : ∀ b ∈ blockList, b.header.hashPrevBlock ∉ visited →
    H b.hash = heightOf blockList b.hash

/-! ## Stage 1: the raw reader (`BlockProcessor::readNewBlocks`, `block_processor.cpp`) -/

/-- The fixed-size record of the block file (`blocksci::Block`; `numTxes` is the field the spec
calls `txCount`). -/
structure Block where
  firstTxIndex : Nat
  numTxes : Nat
  height : Nat
  hash : uint256
  version : Nat
  timestamp : Nat
  bits : Nat
  nonce : Nat
  coinbaseOffset : Nat
deriving DecidableEq, Repr

/-- `getBlock(firstTxIndex, txCount, coinbasePos, block)` (lines 66-68); the height is
`static_cast<uint32_t>(block.height)`. -/
def getBlock {Location : Type} (firstTxIndex txCount coinbasePos : Nat)
    (block : BlockInfo Location) : Block :=
  { firstTxIndex := firstTxIndex, numTxes := txCount,
    height := (block.height % 4294967296).toNat, hash := block.hash,
    version := block.header.nVersion, timestamp := block.header.nTime,
    bits := block.header.nBits, nonce := block.header.nNonce, coinbaseOffset := coinbasePos }

/-- What stage 1 reads from the block files, taken as a parameter (`SafeMemReader` and the parser
of `RawTransaction::load` are not among the sources): whether the file of a number exists; the
variable-length integer read at an offset of a file, with the offset after it; the transaction
parsed at an offset of a file with a given segwit flag, with the offset after it. `none` is an
exception of the reader. -/
structure BlockFiles where
  fileExists : Int → Bool
  readVariableLengthInteger : Int → Nat → Option (Nat × Nat)
  parse : Int → Nat → Bool → Option (RawTransaction × Nat)

/-- Modelled from the spec: `RawTransaction::load(reader, txNum, blockHeight, segwit)` (its
definition is not among the sources) fills the record with the transaction parsed and with the
transaction number, block height and segwit flag it is given. -/
def RawTransaction.load (parsed : RawTransaction) (txNum blockHeight : Nat) (segwit : Bool) :
    RawTransaction :=
  { parsed with txNum := txNum, blockHeight := blockHeight, isSegwit := segwit }

/-- The state stage 1 works on: the members of `BlockProcessor` it uses, the three files it
writes, and the local variable `coinbase` of `readNewBlocks`. `files` holds, per open block file,
the value `lastTxRequired` it was opened with. `finished_transaction_queue` lists the results of
the successive calls of `pop` on that queue (`none`: the queue was empty), which depend on how far
stage 4 has got. `hash_transaction_queue` lists the transactions pushed, oldest first. -/
structure BlockProcessor where
  startingTxCount : Nat
  currentTxNum : Nat
  totalTxCount : Nat
  maxBlockHeight : Nat
  files : List (Int × Nat)
  rawDone : Bool
  finished_transaction_queue : List (Option RawTransaction)
  hash_transaction_queue : List RawTransaction
  coinbase : List Byte
  blockFile : List Block
  blockCoinbaseFile : List Byte
  sequenceFile : List (List Nat)
deriving DecidableEq, Repr

/-- The constructor `BlockProcessor::BlockProcessor` (lines 39-41), on an empty store and with the
given results of the pops of the finished queue. -/
def BlockProcessor.new (startingTxCount totalTxCount maxBlockHeight : Nat)
    (pops : List (Option RawTransaction)) : BlockProcessor :=
  { startingTxCount := startingTxCount, currentTxNum := startingTxCount,
    totalTxCount := totalTxCount, maxBlockHeight := maxBlockHeight, files := [],
    rawDone := false, finished_transaction_queue := pops, hash_transaction_queue := [],
    coinbase := [], blockFile := [], blockCoinbaseFile := [], sequenceFile := [] }

/-- `closeFinishedFiles(txNum)` (lines 72-81): erase every entry whose value is below `txNum`. -/
def closeFinishedFiles (files : List (Int × Nat)) (txNum : Nat) : List (Int × Nat) :=
  files.filter (fun f => !(decide (f.2 < txNum)))

/-- The first loop of `readNewBlocks` (lines 113-124), as far as `lastTxRequired` goes: the
running sum `firstTxNum` of the `nTx` of the blocks, a 32-bit unsigned number, is stored under the
file number of each block, a later block of the same file overwriting the value. -/
def lastTxRequired : Nat → List (BlockInfo FileLocation) → List (Int × Nat) → List (Int × Nat)
  | _, [], acc => acc
  | firstTxNum, block :: rest, acc =>
    let firstTxNum1 := (firstTxNum + block.nTx) % 4294967296
    lastTxRequired firstTxNum1 rest
      ((block.location.nFile, firstTxNum1) ::
        acc.filter (fun e => e.1 != block.location.nFile))

/-- `lastTxRequired[nFile]`: the value stored, `0` when `operator[]` creates the entry. -/
def lastTxRequiredAt (table : List (Int × Nat)) (nFile : Int) : Nat :=
  (table.lookup nFile).getD 0

/-- The pattern `if (!finished_transaction_queue.pop(tx)) tx = new RawTransaction(); else
closeFinishedFiles(tx->txNum);` of file mode. -/
def popFinished (st : BlockProcessor) : BlockProcessor :=
  match st.finished_transaction_queue with
  | [] => st
  | none :: rest => { st with finished_transaction_queue := rest }
  | some tx :: rest =>
    { st with finished_transaction_queue := rest,
              files := closeFinishedFiles st.files tx.txNum }

/-- The test `tx->inputs.size() == 1 && tx->inputs[0].rawOutputPointer.hash == nullHash`. -/
def hasNullInput (tx : RawTransaction) : Bool :=
  match tx.inputs with
  | [input] => input.rawOutputPointer.hash == nullHash
  | _ => false

/-- The segwit detection pass (lines 166-174), `count` transactions being left to load at
`offset`: load with the flag off; at the first transaction with a single null input the result
is `checkSegwit` of it; `false` when there is none. `none` is an exception of the reader, or
`checkSegwit` reading past the end of an output's data. -/
def detectSegwit (src : BlockFiles) (nFile : Int) : Nat → Nat → Option Bool
  | 0, _ => some false
  | count + 1, offset =>
    match src.parse nFile offset false with
    | none => none
    | some (parsed, offset1) =>
      let tx := parsed.load 0 0 false
      if hasNullInput tx then checkSegwit tx else detectSegwit src nFile count offset1

/-- The script bytes `[getScriptBegin(), getScriptBegin() + getScriptLength())` of the first
input. -/
def firstInputScript (tx : RawTransaction) : List Byte :=
  match tx.inputs with
  | input :: _ => input.script
  | [] => []

/-- One round of the second loop of file mode (lines 179-201) on the transaction just loaded:
write the sequence numbers as one group, capture the coinbase script and clear the inputs of a
transaction with a single null input, push the transaction, count it (32-bit), pop a buffer. -/
def emitTransaction (st : BlockProcessor) (tx : RawTransaction) : BlockProcessor :=
  let st1 := { st with sequenceFile := st.sequenceFile ++ [tx.inputs.map (fun input : RawInput => input.sequenceNum)] }
  let st2 := if hasNullInput tx then { st1 with coinbase := firstInputScript tx } else st1
  let tx2 := if hasNullInput tx then { tx with inputs := [] } else tx
  popFinished
    { st2 with hash_transaction_queue := st2.hash_transaction_queue ++ [tx2],
               currentTxNum := (st2.currentTxNum + 1) % 4294967296 }

/-- The second loop of file mode (lines 178-202), `count` transactions being left to load at
`offset` with the flag `segwit`. -/
def readTransactions (src : BlockFiles) (nFile : Int) (blockHeight : Nat) (segwit : Bool) :
    Nat → Nat → BlockProcessor → Option BlockProcessor
  | 0, _, st => some st
  | count + 1, offset, st =>
    match src.parse nFile offset segwit with
    | none => none
    | some (parsed, offset1) =>
      readTransactions src nFile blockHeight segwit count offset1
        (emitTransaction st (parsed.load st.currentTxNum blockHeight segwit))

/-- The four bytes of a 32-bit number, least significant first. -/
def uint32Bytes (n : Nat) : List Byte :=
  [Fin.ofNat n, Fin.ofNat (n / 256), Fin.ofNat (n / 65536), Fin.ofNat (n / 16777216)]

/-- Modelled from the spec: `ArbitraryFileMapper::write(begin, end)` on the coinbase file (the
file mapper is not among the sources), a record being `u32 length` followed by `length` bytes. -/
def writeCoinbase (file : List Byte) (coinbase : List Byte) : List Byte :=
  file ++ uint32Bytes (coinbase.length % 4294967296) ++ coinbase

/-- The start of the body of the block loop of file mode (lines 140-148): the block file is
looked up among the open files and opened when it is not there; `none` when it does not exist
(the loop is then left by `break`). -/
def openBlockFile (src : BlockFiles) (table : List (Int × Nat)) (st : BlockProcessor)
    (block : BlockInfo FileLocation) : Option BlockProcessor :=
  match st.files.lookup block.location.nFile with
  | some _ => some st
  | none =>
    if src.fileExists block.location.nFile then
      some { st with files := st.files ++
        [(block.location.nFile, lastTxRequiredAt table block.location.nFile)] }
    else none

/-- The `try` block of the body of the block loop of file mode (lines 152-205): read the
transaction count, pop a buffer, run the segwit detection pass and the second pass from the same
offset, write the block record and the coinbase. `none` when the reader throws. The reader of a
file is determined by the file number; the model goes on reading a file whose entry
`closeFinishedFiles` has erased. -/
def readOpenedBlock (src : BlockFiles) (st : BlockProcessor) (block : BlockInfo FileLocation) :
    Option BlockProcessor :=
  match src.readVariableLengthInteger block.location.nFile (block.location.nDataPos + 80) with
  | none => none
  | some (count, firstTxOffset) =>
    match detectSegwit src block.location.nFile (count % 4294967296) firstTxOffset with
    | none => none
    | some segwit =>
      match readTransactions src block.location.nFile (block.height % 4294967296).toNat segwit
          (count % 4294967296) firstTxOffset (popFinished st) with
      | none => none
      | some st3 =>
        some { st3 with
          blockFile := st3.blockFile ++
            [getBlock st.currentTxNum (count % 4294967296) st3.blockCoinbaseFile.length block],
          blockCoinbaseFile := writeCoinbase st3.blockCoinbaseFile st3.coinbase }

/-- The body of the block loop of file mode (lines 138-212). The result is `none` when the reader
throws, `(false, st)` when the loop is left by `break` (the block file does not exist) and
`(true, st)` when the block has been read and its record written. -/
def readBlock (src : BlockFiles) (table : List (Int × Nat)) (st : BlockProcessor)
    (block : BlockInfo FileLocation) : Option (Bool × BlockProcessor) :=
  match openBlockFile src table st block with
  | none => some (false, st)
  | some st1 =>
    match readOpenedBlock src st1 block with
    | none => none
    | some st2 => some (true, st2)

/-- The block loop of file mode (lines 137-213). -/
def readBlocks (src : BlockFiles) (table : List (Int × Nat)) :
    BlockProcessor → List (BlockInfo FileLocation) → Option BlockProcessor
  | st, [] => some st
  | st, block :: rest =>
    match readBlock src table st block with
    | none => none
    | some (false, st1) => some st1
    | some (true, st1) => readBlocks src table st1 rest

/-- `BlockProcessor::readNewBlocks(const ParserConfiguration<FileTag> &, blocksToAdd)`
(lines 106-215). -/
def readNewBlocks (src : BlockFiles) (st : BlockProcessor)
    (blocksToAdd : List (BlockInfo FileLocation)) : Option BlockProcessor :=
  match readBlocks src (lastTxRequired st.currentTxNum blocksToAdd []) { st with coinbase := [] }
      blocksToAdd with
  | none => none
  | some st1 => some { st1 with rawDone := true }

/-! ### RPC mode (`loadTxRPC` and `readNewBlocks` for `RPCTag`, lines 221-295) -/

/-- Modelled from the spec: `blocksci::HexDigit` (its table is not among the sources), the value
of a hexadecimal digit and `-1` for every other character. -/
def HexDigit (c : Char) : Int :=
  if 48 ≤ c.toNat ∧ c.toNat ≤ 57 then (c.toNat : Int) - 48
  else if 97 ≤ c.toNat ∧ c.toNat ≤ 102 then (c.toNat : Int) - 87
  else if 65 ≤ c.toNat ∧ c.toNat ≤ 70 then (c.toNat : Int) - 55
  else -1

/-- `isspace` in the C locale: space, `\t`, `\n`, `\v`, `\f`, `\r`. -/
def isspace (c : Char) : Bool :=
  c.toNat == 32 || (9 ≤ c.toNat && c.toNat ≤ 13)

/-- The loop of `ParseHex` (lines 47-60), one character at a time: `pending` is `none` while
spaces are skipped and the first digit of a byte is awaited, and `some n` with
`n = static_cast<unsigned char>(c << 4)` while the second digit is awaited. The end of the list is
the terminating NUL, which is no digit. -/
def ParseHexLoop : List Char → Option Nat → List Byte
  | [], _ => []
  | c :: rest, none =>
    if isspace c then ParseHexLoop rest none
    else if HexDigit c = -1 then []
    else ParseHexLoop rest (some (((HexDigit c).toNat * 16) % 256))
  | c :: rest, some n =>
    if HexDigit c = -1 then []
    else (Fin.ofNat (n ||| (HexDigit c).toNat)) :: ParseHexLoop rest none

/-- `ParseHex(psz)` (lines 43-62). -/
def ParseHex (psz : String) : List Byte := ParseHexLoop psz.toList none

/-- Modelled from the spec: `CScript::operator<<` on a byte vector (not among the sources), the
push of the bytes: their length, behind `OP_PUSHDATA1` (`0x4c`) from 76 bytes on and
`OP_PUSHDATA2` (`0x4d`) from 256 bytes on, then the bytes. -/
def pushData (data : List Byte) : List Byte :=
  if data.length < 76 then Fin.ofNat data.length :: data
  else if data.length < 256 then 0x4c :: Fin.ofNat data.length :: data
  else 0x4d :: Fin.ofNat data.length :: Fin.ofNat (data.length / 256) :: data

/-- The opcode `OP_CHECKSIG`. -/
def OP_CHECKSIG : Byte := 0xac

/-- The hex literal of the genesis public key in `loadTxRPC` (line 226). -/
def genesisPubKeyHex : String :=
  "040184a11fa689ad5123690c81a3a49c8f13f8d45bac857fbcbc8bc4a8ead3eb4b1ff4d4614fa18dce611aaf1f471216fe1b51851b4acf21b17fc45171ac7b13af"

/-- The script `CScript() << ParseHex("04…af") << OP_CHECKSIG` of line 226. -/
def genesisScriptPubKey : List Byte :=
  pushData (ParseHex genesisPubKeyHex) ++ [OP_CHECKSIG]

/-- What RPC mode gets from outside, taken as a parameter: `getrawtransaction` gives the
transaction of an identifier as `RawTransaction::load(txinfo, …)` reads it (`none`: the call
throws), and `scriptOutput` is the classification the `RawOutput` constructor gives a script. -/
structure BitcoinAPI where
  getrawtransaction : Nat → Option RawTransaction
  scriptOutput : List Byte → ScriptOutput

/-- The record `new RawTransaction()` yields. -/
def RawTransaction.empty : RawTransaction :=
  { txNum := 0, blockHeight := 0, sizeBytes := 0, locktime := 0, version := 0, isSegwit := false,
    hash := 0, inputs := [], outputs := [] }

/-- `loadTxRPC(tx, txNum, block, txOffset, bapi, witnessActivated)` (lines 221-237). For a block
of height 0 the outputs, hash, block height and transaction number of the buffer are set and its
other fields are left as they are; the hash `uint256S("0100…00")` is the number `2^248`. For
the other blocks `none` stands for an exception of the API and for `block.tx[txOffset]` past the
end. -/
def loadTxRPC (bapi : BitcoinAPI) (tx : RawTransaction) (txNum : Nat)
    (block : BlockInfo RPCLocation) (txOffset : Nat) (witnessActivated : Bool) :
    Option RawTransaction :=
  if block.height = 0 then
    some { tx with
      outputs := [{ value := 5000000000, scriptOutput := bapi.scriptOutput genesisScriptPubKey }],
      hash := 2 ^ 248, blockHeight := 0, txNum := 0 }
  else
    match block.location.tx[txOffset]? with
    | none => none
    | some txid =>
      match bapi.getrawtransaction txid with
      | none => none
      | some parsed =>
        some (parsed.load txNum (block.height % 4294967296).toNat witnessActivated)

/-- The pattern `if (!finished_transaction_queue.pop(tx)) tx = new RawTransaction();` of RPC
mode: the buffer obtained and the state after the pop. -/
def popBuffer (st : BlockProcessor) : RawTransaction × BlockProcessor :=
  match st.finished_transaction_queue with
  | [] => (RawTransaction.empty, st)
  | none :: rest => (RawTransaction.empty, { st with finished_transaction_queue := rest })
  | some tx :: rest => (tx, { st with finished_transaction_queue := rest })

/-- One round of the transaction loop of RPC mode (lines 272-287) on the transaction just loaded:
capture the coinbase script and clear the inputs of a transaction with a single null input, write
the sequence numbers of the inputs that are left, push the transaction, count it (32-bit). -/
def emitTransactionRPC (st : BlockProcessor) (tx : RawTransaction) : BlockProcessor :=
  let st1 := if hasNullInput tx then { st with coinbase := firstInputScript tx } else st
  let tx1 := if hasNullInput tx then { tx with inputs := [] } else tx
  { st1 with
    sequenceFile := st1.sequenceFile ++ [tx1.inputs.map (fun input : RawInput => input.sequenceNum)],
    hash_transaction_queue := st1.hash_transaction_queue ++ [tx1],
    currentTxNum := (st1.currentTxNum + 1) % 4294967296 }

/-- The transaction loop of RPC mode (lines 265-288), `count` transactions being left, the next
one at index `i` of the block. -/
def readTransactionsRPC (bapi : BitcoinAPI) (block : BlockInfo RPCLocation) (segwit : Bool) :
    Nat → Nat → BlockProcessor → Option BlockProcessor
  | 0, _, st => some st
  | count + 1, i, st =>
    let buffer := popBuffer st
    match loadTxRPC bapi buffer.1 buffer.2.currentTxNum block i segwit with
    | none => none
    | some tx => readTransactionsRPC bapi block segwit count (i + 1) (emitTransactionRPC buffer.2 tx)

/-- The body of the block loop of RPC mode (lines 256-291). -/
def readBlockRPC (bapi : BitcoinAPI) (st : BlockProcessor) (block : BlockInfo RPCLocation) :
    Option BlockProcessor :=
  let blockTxCount := block.location.tx.length % 4294967296
  let buffer := popBuffer st
  match loadTxRPC bapi buffer.1 0 block 0 false with
  | none => none
  | some tx =>
    match checkSegwit tx with
    | none => none
    | some segwit =>
      let firstTxIndex := buffer.2.currentTxNum
      match readTransactionsRPC bapi block segwit blockTxCount 0 buffer.2 with
      | none => none
      | some st1 =>
        some { st1 with
          blockFile := st1.blockFile ++
            [getBlock firstTxIndex blockTxCount st1.blockCoinbaseFile.length block],
          blockCoinbaseFile := writeCoinbase st1.blockCoinbaseFile st1.coinbase }

/-- The block loop of RPC mode (lines 255-292). -/
def readBlocksRPC (bapi : BitcoinAPI) :
    BlockProcessor → List (BlockInfo RPCLocation) → Option BlockProcessor
  | st, [] => some st
  | st, block :: rest =>
    match readBlockRPC bapi st block with
    | none => none
    | some st1 => readBlocksRPC bapi st1 rest

/-- `BlockProcessor::readNewBlocks(const ParserConfiguration<RPCTag> &, blocksToAdd)`
(lines 239-295). -/
def readNewBlocksRPC (bapi : BitcoinAPI) (st : BlockProcessor)
    (blocksToAdd : List (BlockInfo RPCLocation)) : Option BlockProcessor :=
  match readBlocksRPC bapi { st with coinbase := [] } blocksToAdd with
  | none => none
  | some st1 => some { st1 with rawDone := true }

/-! ### What a run of stage 1 leaves behind -/

/-- The transactions the segwit detection pass can parse (flag off), `count` of them at most,
from `offset` on, up to the first one the reader fails on. -/
def firstPassTransactions (src : BlockFiles) (nFile : Int) : Nat → Nat → List RawTransaction
  | 0, _ => []
  | count + 1, offset =>
    match src.parse nFile offset false with
    | none => []
    | some (parsed, offset1) =>
      parsed.load 0 0 false :: firstPassTransactions src nFile count offset1

/-- The segwit flag of a block as the claim words it: `checkSegwit` of the first transaction of
the block with a single null input, `false` when the block has none. It depends on the block
files and on the block only. Where the count cannot be read or `checkSegwit` has no result the
block is not read, and the flag is given as `false`. -/
def blockSegwitFlag (src : BlockFiles) (block : BlockInfo FileLocation) : Bool :=
  match src.readVariableLengthInteger block.location.nFile (block.location.nDataPos + 80) with
  | none => false
  | some (count, firstTxOffset) =>
    match (firstPassTransactions src block.location.nFile (count % 4294967296)
        firstTxOffset).find? hasNullInput with
    | some tx => (checkSegwit tx).getD false
    | none => false

/-- The records of the block file tile the transaction numbers from `cur` on: each record starts
at the running count, which then moves on by its `numTxes` in 32-bit arithmetic. -/
def RecordsFrom : Nat → List Block → Prop
  | _, [] => True
  | cur, b :: rest => b.firstTxIndex = cur ∧ RecordsFrom ((cur + b.numTxes) % 4294967296) rest

/-- What reading one block in file mode leaves: the record `b` written for `block` and the
transactions `group` pushed for it, `cur` being `currentTxNum` when the block is begun; and
`checkSegwit` had a result, the flag of the block, on the transaction the detection pass
stopped at. -/
def BlockRead (src : BlockFiles) (cur : Nat) (block : BlockInfo FileLocation) (b : Block)
    (group : List RawTransaction) : Prop :=
  b.firstTxIndex = cur ∧ b.height = (block.height % 4294967296).toNat ∧ b.hash = block.hash ∧
    group.length = b.numTxes ∧
    group.map (fun t => t.txNum) = (List.range b.numTxes).map (fun k => (cur + k) % 4294967296) ∧
    (∀ t ∈ group, t.isSegwit = blockSegwitFlag src block ∧ t.blockHeight = b.height) ∧
    ∃ count firstTxOffset,
      src.readVariableLengthInteger block.location.nFile (block.location.nDataPos + 80) =
        some (count, firstTxOffset) ∧ b.numTxes = count % 4294967296 ∧
      ∀ tx, (firstPassTransactions src block.location.nFile (count % 4294967296)
          firstTxOffset).find? hasNullInput = some tx →
        checkSegwit tx = some (blockSegwitFlag src block)

/-- What reading a list of blocks in file mode leaves: one record and one group of pushed
transactions per block, in order. -/
def ReadRun (src : BlockFiles) :
    Nat → List (BlockInfo FileLocation) → List Block → List (List RawTransaction) → Prop
  | _, [], [], [] => True
  | cur, block :: blocks, b :: written, group :: groups =>
    BlockRead src cur block b group ∧
      ReadRun src ((cur + b.numTxes) % 4294967296) blocks written groups
  | _, _, _, _ => False

/-- The records written tile the transaction numbers from `start` on: the first one starts at
`start`, each next one starts where the one before ends in 32-bit arithmetic, and in plain
arithmetic as long as `start` plus the transactions counted stays below `2^32`. -/
def ContiguousRecords (start : Nat) (written : List Block) : Prop :=
  (∀ b, written.head? = some b → b.firstTxIndex = start) ∧
    List.Chain' (fun b b1 => (b.firstTxIndex + b.numTxes) % 4294967296 = b1.firstTxIndex)
      written ∧
    (start + (written.map (fun b => b.numTxes)).sum < 4294967296 →
      List.Chain' (fun b b1 => b.firstTxIndex + b.numTxes = b1.firstTxIndex) written)

/-! ### Concrete block files used to evaluate stage 1 -/

/-- A coinbase as the reader parses it: one input with the null hash as previous hash and the
script `01 02 03`, a payment and, when `commit` is set, a segwit commitment output. -/
def sampleCoinbase (commit : Bool) : RawTransaction :=
  sampleTx 0 0
    [{ rawOutputPointer := { hash := nullHash, outputNum := 65535 }, script := [1, 2, 3],
       sequenceNum := 4294967295, addressType := AddressType.NONSTANDARD, linkedTxNum := 0 }]
    (if commit then
      [pubkeyOutput 5000000000, nullDataOutput (segwitMagic ++ List.replicate 32 0)]
     else [pubkeyOutput 5000000000])

/-- Block file 0 and nothing else: every block holds two transactions, a coinbase at the offset
right after the count and a spend of `(7, 0)`; the coinbase of a block placed at `1000` or beyond
carries a segwit commitment. -/
def sampleFiles : BlockFiles :=
  { fileExists := fun nFile => nFile == 0,
    readVariableLengthInteger := fun _ offset => some (2, offset + 1),
    parse := fun _ offset _ =>
      some (if offset % 1000 = 89 then sampleCoinbase (decide (1000 ≤ offset))
            else sampleTx 0 0 [inputSpending 7 0] [pubkeyOutput 4999990000], offset + 100) }

/-- A block of block file 0 whose data are at `nDataPos`. -/
def sampleBlockAt (hash hashPrevBlock : uint256) (height : Int) (nDataPos : Nat) :
    BlockInfo FileLocation :=
  { hash := hash, header := sampleHeader hashPrevBlock, height := height, size := 285, nTx := 2,
    inputCount := 1, outputCount := 2, location := { nFile := 0, nDataPos := nDataPos } }

/-- Two blocks of `sampleFiles`, the second one with a segwit commitment. -/
def sampleChain : List (BlockInfo FileLocation) :=
  [sampleBlockAt 11 0 1 8, sampleBlockAt 12 11 2 1008]

/-- The two blocks of `sampleFiles` as the scan of file mode constructs them (height -1), in an
arbitrary iteration order. -/
def scannedBlockList : List (BlockInfo FileLocation) :=
  [BlockInfo.new 12 (sampleHeader 11) 285 2 1 2 { nFile := 0, nDataPos := 1008 },
   BlockInfo.new 11 (sampleHeader 0) 285 2 1 2 { nFile := 0, nDataPos := 8 }]

/-! ## Stage 4: the address resolver (`BlockProcessor::processAddresses`, lines 387-478) -/

/-- Modelled from the spec: `RawTransaction::getInput(i)` of the on-disk record (raw_transaction.hpp
is not among the sources): the header is followed by the `Inout` records of the inputs and then of
the outputs, and input `i` is record `i`. `none` past the end of the record. -/
def DiskTransaction.getInput (d : DiskTransaction) (i : Nat) : Option Inout := d.inouts[i]?

/-- Modelled from the spec: `RawTransaction::getOutput(i)` of the on-disk record: output `i` is
record `inputCount + i`. `none` past the end of the record. -/
def DiskTransaction.getOutput (d : DiskTransaction) (i : Nat) : Option Inout :=
  d.inouts[d.inputCount + i]?

/-- A write through a reference to the `Inout` record `idx` of the transaction record `txNum` of
the mapped tx file: the record becomes `f` of what it holds. -/
def modifyInout (txFile : List DiskTransaction) (txNum idx : Nat) (f : Inout → Inout) :
    List DiskTransaction :=
  match txFile[txNum]? with
  | none => txFile
  | some d =>
    match d.inouts[idx]? with
    | none => txFile
    | some io => txFile.set txNum { d with inouts := d.inouts.set idx (f io) }

/-- Modelled from the spec: `InputInfo`, what `RawInput::getInfo(i, txNum, addressNum, isSegwit)`
hands to `processInput` (input.hpp of the parser is not among the sources). -/
structure InputInfo where
  input : RawInput
  inputNum : Nat
  txNum : Nat
  addressNum : Nat
  isSegwit : Bool
deriving DecidableEq, Repr

/-- `processInput` and `processOutput` with the address state and the address writer they work
on (`State`), taken as parameters: script_input.hpp, address_state.hpp and the address writer are
not among the sources. -/
structure AddressOps (State : Type) where
  processInput : Address → InputInfo → RawTransaction → State → List Nat × State
  processOutput : ScriptOutput → State → Address × State

/-- What stage 4 works on: the tx file mapped for reading and writing, the address state with its
writer, the list `revealed`, and the buffers it has handed back to stage 1. -/
structure AddressStage (State : Type) where
  txFile : List DiskTransaction
  addressState : State
  revealed : List Nat
  finished : List RawTransaction

/-- The input loop of `consume` (lines 414-432), `i` being the 16-bit counter: look up the spent
output in the record of `input.linkedTxNum`, copy its address number to the on-disk input `i` of
this transaction, set the spent output's `linkedTxNum` to `tx.txNum`, run `processInput` and
append what it returns to `revealed`. `none` when a record or an `Inout` looked up is not there
(the source then reads through an invalid pointer). -/
def patchInputs {State : Type} (ops : AddressOps State) (tx : RawTransaction) :
    List RawInput → Nat → AddressStage State → Option (AddressStage State)
  | [], _, st => some st
  | input :: rest, i, st =>
    match st.txFile[input.linkedTxNum]? with
    | none => none
    | some spentTx =>
      match spentTx.getOutput input.rawOutputPointer.outputNum with
      | none => none
      | some spentOutput =>
        let address := spentOutput.getAddress
        match st.txFile[tx.txNum]? with
        | none => none
        | some diskTx =>
          match diskTx.getInput i with
          | none => none
          | some _ =>
            let file1 := modifyInout st.txFile tx.txNum i
              (fun io => { io with toAddressNum := address.addressNum })
            let file2 := modifyInout file1 input.linkedTxNum
              (spentTx.inputCount + input.rawOutputPointer.outputNum)
              (fun io => { io with linkedTxNum := tx.txNum })
            let info : InputInfo :=
              { input := input, inputNum := i, txNum := tx.txNum,
                addressNum := address.addressNum, isSegwit := tx.isSegwit }
            let processed := ops.processInput address info tx st.addressState
            patchInputs ops tx rest ((i + 1) % 65536)
              { st with txFile := file2, addressState := processed.2,
                        revealed := st.revealed ++ processed.1 }

/-- The output loop of `consume` (lines 434-441): `processOutput` gives the address of each
output, whose number is written to the on-disk output `i` of this transaction. -/
def patchOutputs {State : Type} (ops : AddressOps State) (txNum : Nat) :
    List RawOutput → Nat → AddressStage State → Option (AddressStage State)
  | [], _, st => some st
  | output :: rest, i, st =>
    match st.txFile[txNum]? with
    | none => none
    | some diskTx =>
      match diskTx.getOutput i with
      | none => none
      | some _ =>
        let processed := ops.processOutput output.scriptOutput st.addressState
        patchOutputs ops txNum rest ((i + 1) % 65536)
          { st with
            txFile := modifyInout st.txFile txNum (diskTx.inputCount + i)
              (fun io => { io with toAddressNum := processed.1.addressNum }),
            addressState := processed.2 }

/-- The lambda `consume` of `processAddresses` (lines 405-459): the input loop, the output loop,
and the buffer handed back to stage 1 when the transaction has at most 800 bytes (the finished
queue being taken to have room). The progress output and `optionalSave` change nothing here. -/
def processAddressesConsume {State : Type} (ops : AddressOps State) (st : AddressStage State)
    (tx : RawTransaction) : Option (AddressStage State) :=
  match patchInputs ops tx tx.inputs 0 st with
  | none => none
  | some st1 =>
    match patchOutputs ops tx.txNum tx.outputs 0 st1 with
    | none => none
    | some st2 =>
      some (if tx.sizeBytes > 800 then st2 else { st2 with finished := st2.finished ++ [tx] })

/-- `processAddresses`: `consume` applied to the transactions of the address queue in queue
order; the list returned is the field `revealed` of the result. -/
def processAddresses {State : Type} (ops : AddressOps State) :
    AddressStage State → List RawTransaction → Option (AddressStage State)
  | st, [] => some st
  | st, tx :: rest =>
    match processAddressesConsume ops st tx with
    | none => none
    | some st1 => processAddresses ops st1 rest

/-- The on-disk output `outputNum` of transaction `txNum` is there and its `linkedTxNum` is
`value`. -/
def OutputLinkedTo (txFile : List DiskTransaction) (txNum outputNum value : Nat) : Prop :=
  ∃ d io, txFile[txNum]? = some d ∧ d.getOutput outputNum = some io ∧ io.linkedTxNum = value

/-- Address operations for evaluation: the state counts the addresses given out, every output
gets a new address, and no input reveals anything. -/
def countingAddressOps : AddressOps Nat :=
  { processInput := fun _ _ _ s => ([], s),
    processOutput := fun scriptOutput s => ({ addressNum := s + 1, type := scriptOutput.type },
      s + 1) }

/-- The spend of the simple-spend scenario as stage 3 hands it on: its input carries the address
type and the producing transaction number of the output it spends. -/
def simpleSpendResolvedTx : RawTransaction :=
  sampleTx 2 9
    [{ inputSpending 7 0 with addressType := AddressType.PUBKEY, linkedTxNum := 0 }]
    [pubkeyOutput 4999990000]

/-- The tx file stage 3 writes for the simple-spend scenario: two coinbase records with one
output each, and the record of the spend with one input and one output. -/
def simpleSpendTxFile : List DiskTransaction :=
  [{ sizeBytes := 100, locktime := 0, version := 1, inputCount := 0, outputCount := 1,
     segwit := false,
     inouts := [{ linkedTxNum := 0, toAddressNum := 0, type := AddressType.PUBKEY,
                  value := 5000000000 }] },
   { sizeBytes := 100, locktime := 0, version := 1, inputCount := 0, outputCount := 1,
     segwit := false,
     inouts := [{ linkedTxNum := 0, toAddressNum := 0, type := AddressType.PUBKEY,
                  value := 5000000000 }] },
   { sizeBytes := 100, locktime := 0, version := 1, inputCount := 1, outputCount := 1,
     segwit := false,
     inouts := [{ linkedTxNum := 0, toAddressNum := 0, type := AddressType.PUBKEY,
                  value := 5000000000 },
                { linkedTxNum := 0, toAddressNum := 0, type := AddressType.PUBKEY,
                  value := 4999990000 }] }]

/-- The store stage 3 reaches on the simple-spend scenario from the empty store. -/
def simpleSpendStage : UTXOStage :=
  { utxoState :=
      [({ hash := 9, outputNum := 0 },
        { output := { linkedTxNum := 2, toAddressNum := 0, type := AddressType.PUBKEY,
                      value := 4999990000 },
          addressType := AddressType.PUBKEY }),
       ({ hash := 8, outputNum := 0 },
        { output := { linkedTxNum := 1, toAddressNum := 0, type := AddressType.PUBKEY,
                      value := 5000000000 },
          addressType := AddressType.PUBKEY })],
    txFile := simpleSpendTxFile,
    addressQueue :=
      [sampleTx 0 7 [] [pubkeyOutput 5000000000], sampleTx 1 8 [] [pubkeyOutput 5000000000]] ++
        simpleSpendResolvedTx :: [] }

/-- The start of stage 4 over a tx file: address state 0, nothing revealed or handed back. -/
def addressStageOver (txFile : List DiskTransaction) : AddressStage Nat :=
  { txFile := txFile, addressState := 0, revealed := [], finished := [] }

/-! ### Stage 3 followed by stage 4 -/

/-- The layout of a tx file: per record, its `inputCount` and the number of `Inout` records it
holds. -/
def fileLayout (txFile : List DiskTransaction) : List (Nat × Nat) :=
  txFile.map (fun d => (d.inputCount, d.inouts.length))

/-- Every lookup stage 4 makes for the transaction succeeds in a tx file of the given layout: the
record of the transaction is there and holds its inputs and its outputs, and for every input the
record of `linkedTxNum` is there and holds the output the input names. -/
def TxResolvable (layout : List (Nat × Nat)) (tx : RawTransaction) : Prop :=
  (∃ c n, layout[tx.txNum]? = some (c, n) ∧ tx.inputs.length ≤ n ∧
    c + tx.outputs.length ≤ n) ∧
  ∀ input ∈ tx.inputs, ∃ c n, layout[input.linkedTxNum]? = some (c, n) ∧
    c + input.rawOutputPointer.outputNum < n

/-- The store of stage 3 is consistent: every entry of the UTXO state names an output that the
tx file holds in the record of its producing transaction, and every transaction of the address
queue is resolvable. -/
def StoreConsistent (st : UTXOStage) : Prop :=
  (∀ e ∈ st.utxoState, ∃ c n, (fileLayout st.txFile)[e.2.output.linkedTxNum]? = some (c, n) ∧
    c + e.1.outputNum < n) ∧
  ∀ tx ∈ st.addressQueue, TxResolvable (fileLayout st.txFile) tx

/-- The transactions are numbered consecutively from `first` on. -/
def NumberedFrom : Nat → List RawTransaction → Prop
  | _, [] => True
  | first, tx :: rest => tx.txNum = first ∧ NumberedFrom (first + 1) rest

/-! ### What stage 1 pushes, captures and writes per transaction -/

/-- The transactions the second loop of file mode loads (line 179), `count` of them at most, from
`offset` on, up to the first one the reader fails on; `cur` is `currentTxNum` when the first one
is loaded. -/
def loadedTransactions (src : BlockFiles) (nFile : Int) (blockHeight : Nat) (segwit : Bool) :
    Nat → Nat → Nat → List RawTransaction
  | 0, _, _ => []
  | count + 1, offset, cur =>
    match src.parse nFile offset segwit with
    | none => []
    | some (parsed, offset1) =>
      parsed.load cur blockHeight segwit ::
        loadedTransactions src nFile blockHeight segwit count offset1 ((cur + 1) % 4294967296)

/-- The transactions the second loop of file mode loads for a block, `cur` being `currentTxNum`
when the block is begun. -/
def blockTransactions (src : BlockFiles) (cur : Nat) (block : BlockInfo FileLocation) :
    List RawTransaction :=
  match src.readVariableLengthInteger block.location.nFile (block.location.nDataPos + 80) with
  | none => []
  | some (count, firstTxOffset) =>
    loadedTransactions src block.location.nFile (block.height % 4294967296).toNat
      (blockSegwitFlag src block) (count % 4294967296) firstTxOffset cur

/-- The transactions file mode loads for a list of blocks, one group per block. -/
def runTransactions (src : BlockFiles) :
    Nat → List (BlockInfo FileLocation) → List (List RawTransaction)
  | _, [] => []
  | cur, block :: rest =>
    blockTransactions src cur block ::
      runTransactions src ((cur + (blockTransactions src cur block).length) % 4294967296) rest

/-- The value of the local variable `coinbase` after the transactions have gone through the
transaction loop, `coinbase` being its value before: the script of the first input of the last
transaction with a single null input, and the old value when there is none. -/
def capturedCoinbase (coinbase : List Byte) : List RawTransaction → List Byte
  | [] => coinbase
  | tx :: rest => capturedCoinbase (if hasNullInput tx then firstInputScript tx else coinbase) rest

/-- The coinbase file after one record per group has been written to `file`, `coinbase` being
the value of the local variable `coinbase` before the first group. -/
def writeCoinbases : List Byte → List Byte → List (List RawTransaction) → List Byte
  | file, _, [] => file
  | file, coinbase, group :: rest =>
    writeCoinbases (writeCoinbase file (capturedCoinbase coinbase group))
      (capturedCoinbase coinbase group) rest

/-- The offsets in the coinbase file at which the records of the groups begin: the size of the
file when each block record is written. -/
def coinbaseOffsets : List Byte → List Byte → List (List RawTransaction) → List Nat
  | _, _, [] => []
  | file, coinbase, group :: rest =>
    file.length ::
      coinbaseOffsets (writeCoinbase file (capturedCoinbase coinbase group))
        (capturedCoinbase coinbase group) rest

/-- At `offset` the coinbase file holds the record of `bytes`: their 32-bit length, least
significant byte first, followed by the bytes. -/
def CoinbaseRecordAt (file : List Byte) (offset : Nat) (bytes : List Byte) : Prop :=
  ∃ before after, file = before ++ (uint32Bytes (bytes.length % 4294967296) ++ bytes) ++ after ∧
    before.length = offset

/-! ### The transaction view of the chain (`transaction.hpp`) -/

/-- The view of a transaction of the chain (`blocksci::Transaction`): the record of the tx file it
points to, its number and its block height. -/
structure Transaction where
  data : DiskTransaction
  txNum : Nat
  blockHeight : Nat
deriving DecidableEq, Repr

/-- `Transaction::inputCount()`. -/
def Transaction.inputCount (t : Transaction) : Nat := t.data.inputCount

/-- `Transaction::isCoinbase()` (lines 110-112). -/
def Transaction.isCoinbase (t : Transaction) : Bool := t.inputCount == 0

/-- A null input carrying the script `script`. -/
def nullInput (script : List Byte) : RawInput :=
  { rawOutputPointer := { hash := nullHash, outputNum := 65535 }, script := script,
    sequenceNum := 4294967295, addressType := AddressType.NONSTANDARD, linkedTxNum := 0 }

/-- Block file 0 with blocks of two transactions, both with a single null input: the first one
carries the script `01 02 03`, the second one the script `09`. -/
def twoCoinbaseFiles : BlockFiles :=
  { fileExists := fun nFile => nFile == 0,
    readVariableLengthInteger := fun _ offset => some (2, offset + 1),
    parse := fun _ offset _ =>
      some (if offset % 1000 = 89 then sampleTx 0 0 [nullInput [1, 2, 3]] [pubkeyOutput 5000000000]
            else sampleTx 0 0 [nullInput [9]] [pubkeyOutput 4999990000], offset + 100) }

/-! ## The chain reader (`ChainAccess`, `chain_access.cpp`) -/

/-- The members of `ChainAccess` that `setup`, `getBlockHeight` and `getCoinbase` use: the
mapped block file and coinbase file, the two constructor arguments, and what `setup` computes. -/
structure ChainAccess where
  blockFile : List Block
  blockCoinbaseFile : List Byte
  blocksIgnored : Nat
  errorOnReorg : Bool
  maxHeight : Nat
  lastBlockHash : uint256
  _maxLoadedTx : Nat
deriving DecidableEq, Repr

/-- `ChainAccess::setup()` (lines 28-37), in 32-bit unsigned arithmetic. `none` when
`getData(maxHeight - 1)` is past the end of the block file, which happens when `blocksIgnored`
exceeds the number of records and the subtraction wraps. -/
def ChainAccess.setup (ca : ChainAccess) : Option ChainAccess :=
  let maxHeight :=
    (ca.blockFile.length % 4294967296 + 4294967296 - ca.blocksIgnored % 4294967296) % 4294967296
  if maxHeight > 0 then
    match ca.blockFile[maxHeight - 1]? with
    | none => none
    | some maxLoadedBlock =>
      some { ca with maxHeight := maxHeight, lastBlockHash := maxLoadedBlock.hash,
                     _maxLoadedTx :=
                       (maxLoadedBlock.firstTxIndex + maxLoadedBlock.numTxes) % 4294967296 }
  else some { ca with maxHeight := maxHeight }

/-- The constructor `ChainAccess::ChainAccess` (lines 39-47): the files, the two arguments, and
`setup()`. What `setup` leaves unset on an empty range is taken as zero. -/
def ChainAccess.new (blockFile : List Block) (blockCoinbaseFile : List Byte)
    (errorOnReorg : Bool) (blocksIgnored : Nat) : Option ChainAccess :=
  ChainAccess.setup
    { blockFile := blockFile, blockCoinbaseFile := blockCoinbaseFile,
      blocksIgnored := blocksIgnored, errorOnReorg := errorOnReorg, maxHeight := 0,
      lastBlockHash := 0, _maxLoadedTx := 0 }

/-- `ChainAccess::maxLoadedTx()`. -/
def ChainAccess.maxLoadedTx (ca : ChainAccess) : Nat := ca._maxLoadedTx

/-- `std::upper_bound(first, first + len, txIndex, comp)` over the records of the block file, with
`comp(index, b) = index < b.firstTxIndex`, as the standard library computes it: a binary search
that halves `len`, each round taking one unit of `fuel`. The result is the position it stops
at. -/
def upperBound (blockFile : List Block) (txIndex : Nat) : Nat → Nat → Nat → Nat
  | 0, first, _ => first
  | fuel + 1, first, len =>
    if len = 0 then first
    else
      match blockFile[first + len / 2]? with
      | none => first
      | some b =>
        if txIndex < b.firstTxIndex then upperBound blockFile txIndex fuel first (len / 2)
        else upperBound blockFile txIndex fuel (first + len / 2 + 1) (len - len / 2 - 1)

/-- `ChainAccess::getBlockHeight(txIndex)` (lines 65-77). `none` stands for the exception thrown
when `errorOnReorg` is set and the index is out of range, for a range that is empty or reaches
past the end of the block file, and for `it--` at the beginning of the range. `reorgCheck()`
compares the hash `setup` recorded with the one in the mapped file; the file is not rewritten
between the two here, and the check is left out. -/
def ChainAccess.getBlockHeight (ca : ChainAccess) (txIndex : Nat) : Option Nat :=
  if ca.errorOnReorg && decide (txIndex ≥ ca._maxLoadedTx) then none
  else if ca.maxHeight = 0 ∨ ca.maxHeight > ca.blockFile.length then none
  else
    let it := upperBound ca.blockFile txIndex ca.maxHeight 0 ca.maxHeight
    if it = 0 then none else some ((it - 1) % 4294967296)

/-- `ChainAccess::getCoinbase(offset)` (lines 79-85): the 32-bit length read at `offset`, least
significant byte first, and the `length` bytes behind it. `none` when the record reaches past
the end of the mapped file. -/
def ChainAccess.getCoinbase (ca : ChainAccess) (offset : Nat) : Option (List Byte) :=
  let pos := ca.blockCoinbaseFile.drop offset
  match readUInt32 pos with
  | none => none
  | some length =>
    if offset + 4 + length ≤ ca.blockCoinbaseFile.length then some ((pos.drop 4).take length)
    else none

/-! ### A concrete chain used to evaluate the chain reader -/

/-- A record of the block file with the given first transaction, transaction count, height and
coinbase offset. -/
def sampleRecord (firstTxIndex numTxes height coinbaseOffset : Nat) : Block :=
  { firstTxIndex := firstTxIndex, numTxes := numTxes, height := height, hash := 100 + height,
    version := 1, timestamp := 0, bits := 0, nonce := 0, coinbaseOffset := coinbaseOffset }

/-- Four blocks with 1, 2, 3 and 1 transactions. -/
def sampleBlockFile : List Block :=
  [sampleRecord 0 1 0 0, sampleRecord 1 2 1 7, sampleRecord 3 3 2 13, sampleRecord 6 1 3 17]

/-- The coinbase file of the four blocks: the scripts `01 02 03`, `04 05`, the empty script and
`06`, each behind its 32-bit length. -/
def sampleCoinbaseFile : List Byte :=
  [3, 0, 0, 0, 1, 2, 3, 2, 0, 0, 0, 4, 5, 0, 0, 0, 0, 1, 0, 0, 0, 6]

/-- The chain reader over the four blocks, as `setup` leaves it with no block ignored. -/
def sampleAccess : ChainAccess :=
  { blockFile := sampleBlockFile, blockCoinbaseFile := sampleCoinbaseFile, blocksIgnored := 0,
    errorOnReorg := true, maxHeight := 4, lastBlockHash := 103, _maxLoadedTx := 7 }

/-- The `Inout` record `idx` of the transaction record `txNum` of the tx file. -/
def inoutAt (txFile : List DiskTransaction) (txNum idx : Nat) : Option Inout :=
  match txFile[txNum]? with
  | none => none
  | some d => d.inouts[idx]?

/-! ### The calls of `processInput` made by stage 4 -/

/-- The address operations with a log added to the address state: every call of `processInput`
appends what it was given as `info` and the list it returns; nothing else changes. -/
def AddressOps.logged {State : Type} (ops : AddressOps State) :
    AddressOps (State × List (InputInfo × List Nat)) :=
  { processInput := fun address info tx s =>
      ((ops.processInput address info tx s.1).1,
        ((ops.processInput address info tx s.1).2,
          s.2 ++ [(info, (ops.processInput address info tx s.1).1)])),
    processOutput := fun scriptOutput s =>
      ((ops.processOutput scriptOutput s.1).1, ((ops.processOutput scriptOutput s.1).2, s.2)) }

/-- The state of stage 4 with the log `log` added to the address state. -/
def AddressStage.withLog {State : Type} (st : AddressStage State)
    (log : List (InputInfo × List Nat)) : AddressStage (State × List (InputInfo × List Nat)) :=
  { txFile := st.txFile, addressState := (st.addressState, log), revealed := st.revealed,
    finished := st.finished }

/-- Address operations for evaluation: like `countingAddressOps`, but every input reveals the
address number it is given. -/
def revealingAddressOps : AddressOps Nat :=
  { processInput := fun _ info _ s => ([info.addressNum], s),
    processOutput := fun scriptOutput s => ({ addressNum := s + 1, type := scriptOutput.type },
      s + 1) }

/-- Two coinbases and a transaction spending the output of the second and then that of the
first. -/
def twoInputTxs : List RawTransaction :=
  [sampleTx 0 7 [] [pubkeyOutput 5000000000],
   sampleTx 1 8 [] [pubkeyOutput 5000000000],
   sampleTx 2 9 [inputSpending 8 0, inputSpending 7 0] [pubkeyOutput 9999990000]]

/-- The store stage 3 reaches on `twoInputTxs` from the empty store. -/
def twoInputStage : UTXOStage :=
  (processUTXOs spendableUnlessNullData emptyUTXOStage twoInputTxs).getD emptyUTXOStage

/-! ### A concrete RPC source used to evaluate RPC mode -/

/-- An RPC source: the transaction with identifier 1 is the sample coinbase, every other one is a
spend of `(7, 0)`; a script is classified as a pay-to-public-key output carrying the script. -/
def sampleAPI : BitcoinAPI :=
  { getrawtransaction := fun txid =>
      some (if txid = 1 then sampleCoinbase false
            else sampleTx 0 0 [inputSpending 7 0] [pubkeyOutput 4999990000]),
    scriptOutput := fun script => { type := AddressType.PUBKEY, fullData := script } }

/-- A block of RPC mode with the given hash, previous-block hash, height and transaction
identifiers. -/
def sampleBlockRPC (hash hashPrevBlock : uint256) (height : Int) (tx : List Nat) :
    BlockInfo RPCLocation :=
  { hash := hash, header := sampleHeader hashPrevBlock, height := height, size := 285,
    nTx := tx.length, inputCount := 0, outputCount := 1, location := { tx := tx } }

/-! ### The open block files of stage 1 -/

/-- The running 32-bit transaction count after the blocks, `cur` being the count before them:
the variable `firstTxNum` of `readNewBlocks` (lines 113-124) after the blocks have gone through
the first loop. -/
def cumulativeAfter (cur : Nat) (blocks : List (BlockInfo FileLocation)) : Nat :=
  blocks.foldl (fun firstTxNum block => (firstTxNum + block.nTx) % 4294967296) cur

/-- The statement that every buffer popped while the blocks are read carries the number of a
transaction pushed before the pop, `pops` listing the results of the pops from the first of the
blocks on and `cur` being `currentTxNum` when that block is begun. File mode pops one buffer
before it loads the first transaction of a block and one after each transaction it pushes: a
block of `nTx` transactions takes `nTx + 1` results, and result `i` of them comes when `i`
transactions of the block have been pushed. -/
def popsBehind : Nat → List (Option RawTransaction) → List (BlockInfo FileLocation) → Bool
  | _, _, [] => true
  | cur, pops, block :: rest =>
    (List.range (block.nTx + 1)).all (fun i =>
        match pops[i]? with
        | some (some t) => decide (t.txNum < cur + i)
        | _ => true) &&
      popsBehind (cur + block.nTx) (pops.drop (block.nTx + 1)) rest

/-- Block files 0 and 1, with the contents of `sampleFiles` in both. -/
def twoBlockFiles : BlockFiles :=
  { sampleFiles with fileExists := fun nFile => nFile == 0 || nFile == 1 }

/-- A block of two transactions in block file `nFile`, its data at position 8. -/
def sampleBlockIn (nFile : Int) (hash hashPrevBlock : uint256) (height : Int) :
    BlockInfo FileLocation :=
  { hash := hash, header := sampleHeader hashPrevBlock, height := height, size := 285, nTx := 2,
    inputCount := 1, outputCount := 2, location := { nFile := nFile, nDataPos := 8 } }

/-! ### The scan of file mode (`ChainIndex<FileTag>::update`, lines 111-132) -/

/-- The two counts of a transaction header that the scan reads (`TransactionHeader`, whose
definition is not among the sources). -/
structure TransactionHeader where
  inputCount : Nat
  outputCount : Nat
deriving DecidableEq, Repr

/-- The loop of lines 122-126: `inputCount += h.inputCount; outputCount += h.outputCount;` over
the headers read, both sums being 32-bit unsigned numbers. -/
def sumCounts : List TransactionHeader → Nat × Nat → Nat × Nat
  | [], counts => counts
  | h :: rest, counts =>
    sumCounts rest ((counts.1 + h.inputCount) % 4294967296,
      (counts.2 + h.outputCount) % 4294967296)

/-- The body of the scan loop for one block (lines 116-131), given what the reader yields: the
length, the offset at which the block starts, the header, the transaction count and the
transaction headers. The counts are added up from zero, `inputCount--` follows, and the
`BlockInfo` is constructed. `workHashFunction` is the hash function of the configuration. -/
def scanBlock (workHashFunction : CBlockHeader → uint256) (fileNum : Int)
    (length blockStartOffset : Nat) (header : CBlockHeader) (numTxes : Nat)
    (headers : List TransactionHeader) : BlockInfo FileLocation :=
  let counts := sumCounts headers (0, 0)
  let inputCount := (counts.1 + 4294967295) % 4294967296
  BlockInfo.new (workHashFunction header) header length (numTxes % 4294967296) inputCount
    counts.2 { nFile := fileNum, nDataPos := blockStartOffset }

/-! ## Splitting the chain into segments (`segmentChain`, `blockchain.cpp`, lines 24-49) -/

/-- Modelled from the spec: `Block::endTxIndex()` (block.hpp is not among the sources), the
index behind the last transaction of the block, a block owning the range
`[firstTxIndex, firstTxIndex + txCount)`; a 32-bit unsigned number. -/
def Block.endTxIndex (b : Block) : Nat := (b.firstTxIndex + b.numTxes) % 4294967296

/-- `std::lower_bound(first, first + len, key, comp)` over the blocks of the chain, with
`comp(block, txNum) = block.firstTxIndex() < txNum`, as the standard library computes it: a
binary search that halves `len`, each round taking one unit of `fuel`. The result is the
position it stops at. -/
def lowerBound (chain : List Block) (key : Nat) : Nat → Nat → Nat → Nat
  | 0, first, _ => first
  | fuel + 1, first, len =>
    if len = 0 then first
    else
      match chain[first + len / 2]? with
      | none => first
      | some b =>
        if b.firstTxIndex < key then
          lowerBound chain key fuel (first + len / 2 + 1) (len - len / 2 - 1)
        else lowerBound chain key fuel first (len / 2)

/-- The `while` loop of `segmentChain` (lines 36-42), each round taking one unit of `fuel`; `it`
and the result are positions in the chain. `segmentSize` is the quotient
`totalTxCount / segmentCount`, a `double` in the source, taken here as the exact quotient: the
test `lastTx - firstTxIndex > segmentSize`, its left side a 32-bit difference, is
`(lastTx - firstTxIndex) * segmentCount > totalTxCount`, and the search key
`firstTxIndex + segmentSize`, converted to `uint32_t`, is `firstTxIndex` plus the quotient
rounded down. `none` when `*it` is past the end of the chain and when the fuel is used up. -/
def segmentLoop (chain : List Block) (endBlock lastTx totalTxCount segmentCount : Nat) :
    Nat → Nat → List (List Block) → Option (Nat × List (List Block))
  | fuel, it, segments =>
    match chain[it]? with
    | none => none
    | some block =>
      if ((lastTx + 4294967296 - block.firstTxIndex) % 4294967296) * segmentCount >
          totalTxCount then
        match fuel with
        | 0 => none
        | fuel + 1 =>
          segmentLoop chain endBlock lastTx totalTxCount segmentCount fuel
            (lowerBound chain ((block.firstTxIndex + totalTxCount / segmentCount) % 4294967296)
              (endBlock - it) it (endBlock - it))
            (segments ++ [(chain.drop it).take
              (lowerBound chain
                ((block.firstTxIndex + totalTxCount / segmentCount) % 4294967296)
                (endBlock - it) it (endBlock - it) - it)])
      else some (it, segments)

/-- `segmentChain(chain, startBlock, endBlock, segmentCount)` (lines 25-49), the chain being the
list of its blocks, the two positions being taken non-negative, and the loop being given `fuel`
rounds. `none` when a block looked up is not there, when `segments.back()` is called on an empty
vector, and when the loop does not end within the fuel. -/
def segmentChain (chain : List Block) (startBlock endBlock segmentCount fuel : Nat) :
    Option (List (List Block)) :=
  if endBlock = 0 then none
  else
    match chain[endBlock - 1]?, chain[startBlock]? with
    | some last, some first =>
      match segmentLoop chain endBlock last.endTxIndex
          ((last.endTxIndex + 4294967296 - first.firstTxIndex) % 4294967296) segmentCount fuel
          startBlock [] with
      | none => none
      | some (it, segments) =>
        if segments.length = segmentCount then
          match segments.getLast? with
          | none => none
          | some back =>
            some (segments.dropLast ++ [back ++ (chain.drop it).take (endBlock - it)])
        else some (segments ++ [(chain.drop it).take (endBlock - it)])
    | _, _ => none

/-- A chain of `n` blocks of one transaction each, the first starting at transaction `first`. -/
def unitBlocks : Nat → Nat → List Block
  | 0, _ => []
  | n + 1, first => sampleRecord first 1 first 0 :: unitBlocks n (first + 1)

/-! ## Theorems -/

theorem readUInt32_eq_marker_iff (data : List Byte) :
    readUInt32 data = some 0xeda921aa ↔ data.take 4 = segwitMagic := by
  unfold segwitMagic
  match data with
  | [] => simp [readUInt32]
  | [a] => simp [readUInt32]
  | [a, b] => simp [readUInt32]
  | [a, b, c] => simp [readUInt32]
  | a :: b :: c :: d :: rest =>
    simp only [readUInt32, Option.some.injEq, List.take_succ_cons, List.take_zero,
      List.cons.injEq, and_true]
    constructor
    · intro h
      have ha := a.isLt
      have hb := b.isLt
      have hc := c.isLt
      have hd := d.isLt
      refine ⟨Fin.ext ?_, Fin.ext ?_, Fin.ext ?_, Fin.ext ?_⟩
      · show a.val = 170
        omega
      · show b.val = 33
        omega
      · show c.val = 169
        omega
      · show d.val = 237
        omega
    · rintro ⟨rfl, rfl, rfl, rfl⟩
      rfl

theorem readUInt32_eq_none_iff (data : List Byte) :
    readUInt32 data = none ↔ data.length < 4 := by
  match data with
  | [] => simp [readUInt32]
  | [a] => simp [readUInt32]
  | [a, b] => simp [readUInt32]
  | [a, b, c] => simp [readUInt32]
  | a :: b :: c :: d :: rest => simp [readUInt32]

/-! ### Segwit detection -/

theorem SegwitChecker_eq_some_true_iff (output : ScriptOutput) :
    SegwitChecker output = some true ↔
      output.type = AddressType.NULL_DATA ∧ output.fullData.take 4 = segwitMagic := by
  unfold SegwitChecker
  cases ht : output.type <;> simp
  rw [← readUInt32_eq_marker_iff]
  cases hr : readUInt32 output.fullData with
  | none => simp
  | some n => simp

theorem SegwitChecker_eq_none_iff (output : ScriptOutput) :
    SegwitChecker output = none ↔
      output.type = AddressType.NULL_DATA ∧ output.fullData.length < 4 := by
  unfold SegwitChecker
  cases ht : output.type <;> simp
  rw [← readUInt32_eq_none_iff]
  cases hr : readUInt32 output.fullData with
  | none => simp
  | some n => simp

theorem checkSegwitLoop_of_long (outputs : List RawOutput)
    (hlen : ∀ o ∈ outputs, o.scriptOutput.type = AddressType.NULL_DATA →
      4 ≤ o.scriptOutput.fullData.length) (n : Nat) :
    ∃ result, checkSegwitLoop outputs n = some result ∧
      (result = true ↔
        ∃ i, i < n ∧ ∃ o, outputs[i]? = some o ∧ SegwitChecker o.scriptOutput = some true) := by
  induction n with
  | zero => exact ⟨false, rfl, by simp⟩
  | succ n ih =>
    obtain ⟨result, hrun, hiff⟩ := ih
    simp only [checkSegwitLoop]
    cases ho : outputs[n]? with
    | none =>
      refine ⟨result, hrun, ?_⟩
      rw [hiff]
      constructor
      · rintro ⟨i, hi, hrest⟩
        exact ⟨i, by omega, hrest⟩
      · rintro ⟨i, hi, o, hoi, hc⟩
        have hne : i ≠ n := by
          intro hin
          rw [hin, ho] at hoi
          simp at hoi
        exact ⟨i, by omega, o, hoi, hc⟩
    | some o =>
      cases hc : SegwitChecker o.scriptOutput with
      | none =>
        exfalso
        obtain ⟨htype, hshort⟩ := (SegwitChecker_eq_none_iff _).mp hc
        have := hlen o (List.getElem?_mem ho) htype
        omega
      | some flag =>
        cases flag with
        | true =>
          exact ⟨true, by simp [hc], by simp only [true_iff]; exact ⟨n, by omega, o, ho, hc⟩⟩
        | false =>
          refine ⟨result, by simp [hc, hrun], ?_⟩
          rw [hiff]
          constructor
          · rintro ⟨i, hi, hrest⟩
            exact ⟨i, by omega, hrest⟩
          · rintro ⟨i, hi, o1, hoi, hc1⟩
            have hne : i ≠ n := by
              intro hin
              rw [hin, ho] at hoi
              simp only [Option.some.injEq] at hoi
              rw [← hoi, hc] at hc1
              simp at hc1
            exact ⟨i, by omega, o1, hoi, hc1⟩

theorem checkSegwit_of_long (tx : RawTransaction)
    (hlen : ∀ o ∈ tx.outputs, o.scriptOutput.type = AddressType.NULL_DATA →
      4 ≤ o.scriptOutput.fullData.length) :
    ∃ result, checkSegwit tx = some result ∧
      (result = true ↔
        ∃ o ∈ tx.outputs, o.scriptOutput.type = AddressType.NULL_DATA ∧
          o.scriptOutput.fullData.take 4 = segwitMagic) := by
  obtain ⟨result, hrun, hiff⟩ := checkSegwitLoop_of_long tx.outputs hlen tx.outputs.length
  refine ⟨result, hrun, ?_⟩
  rw [hiff]
  constructor
  · rintro ⟨i, _, o, ho, hc⟩
    exact ⟨o, List.getElem?_mem ho, (SegwitChecker_eq_some_true_iff _).mp hc⟩
  · rintro ⟨o, hmem, hc⟩
    obtain ⟨i, hi, hget⟩ := List.getElem_of_mem hmem
    exact ⟨i, hi, o, by simp [List.getElem?_eq_getElem hi, hget],
      (SegwitChecker_eq_some_true_iff _).mpr hc⟩

/-- C9 (as amended): for a transaction whose null-data outputs each carry at least four bytes of
data, `checkSegwit` returns, and it returns true exactly when some output is a null-data output
whose data begins with the four bytes `AA 21 A9 ED`, whatever follows them; the result is the
same for every reordering of the outputs; and `0xeda921aa` is the little-endian reading of those
four bytes. -/
theorem checkSegwit_iff_begins_with_marker (tx : RawTransaction)
    (hlen : ∀ o ∈ tx.outputs, o.scriptOutput.type = AddressType.NULL_DATA →
      4 ≤ o.scriptOutput.fullData.length) :
    (∃ result, checkSegwit tx = some result ∧
      (result = true ↔
        ∃ o ∈ tx.outputs, o.scriptOutput.type = AddressType.NULL_DATA ∧
          o.scriptOutput.fullData.take 4 = segwitMagic)) ∧
    (∀ outputs : List RawOutput, outputs.Perm tx.outputs →
      checkSegwit { tx with outputs := outputs } = checkSegwit tx) ∧
    readUInt32 segwitMagic = some 0xeda921aa := by
  refine ⟨checkSegwit_of_long tx hlen, ?_, by decide⟩
  intro outputs hperm
  obtain ⟨r1, hrun1, hiff1⟩ := checkSegwit_of_long tx hlen
  obtain ⟨r2, hrun2, hiff2⟩ := checkSegwit_of_long { tx with outputs := outputs }
    (fun o ho => hlen o (hperm.mem_iff.mp ho))
  rw [hrun1, hrun2, Option.some.injEq, Bool.eq_iff_iff, hiff1, hiff2]
  constructor
  · rintro ⟨o, hmem, hc⟩
    exact ⟨o, hperm.mem_iff.mp hmem, hc⟩
  · rintro ⟨o, hmem, hc⟩
    exact ⟨o, hperm.mem_iff.mpr hmem, hc⟩

/-- C9, witness: a coinbase with a payment and a 36-byte commitment output is detected, and so is
the same transaction with its two outputs exchanged. -/
theorem checkSegwit_iff_begins_with_marker_witness :
    (∀ o ∈ (sampleTx 0 7 []
        [pubkeyOutput 5000000000, nullDataOutput (segwitMagic ++ List.replicate 32 0)]).outputs,
      o.scriptOutput.type = AddressType.NULL_DATA → 4 ≤ o.scriptOutput.fullData.length) ∧
      checkSegwit (sampleTx 0 7 []
        [pubkeyOutput 5000000000, nullDataOutput (segwitMagic ++ List.replicate 32 0)]) =
          some true ∧
      checkSegwit { sampleTx 0 7 []
          [pubkeyOutput 5000000000, nullDataOutput (segwitMagic ++ List.replicate 32 0)] with
        outputs := [nullDataOutput (segwitMagic ++ List.replicate 32 0),
          pubkeyOutput 5000000000] } =
        checkSegwit (sampleTx 0 7 []
          [pubkeyOutput 5000000000, nullDataOutput (segwitMagic ++ List.replicate 32 0)]) :=
  ⟨by decide, by decide,
    (checkSegwit_iff_begins_with_marker (sampleTx 0 7 []
        [pubkeyOutput 5000000000, nullDataOutput (segwitMagic ++ List.replicate 32 0)])
      (by decide)).2.1
      [nullDataOutput (segwitMagic ++ List.replicate 32 0), pubkeyOutput 5000000000]
      (List.Perm.swap _ _ [])⟩

/-- C9, counterexample to the claim as stated: a null-data output holding the four bytes
`AA 21 A9 ED` and nothing else makes `checkSegwit` return true although no output carries the
four bytes followed by 32 bytes of commitment. -/
theorem checkSegwit_true_without_commitment :
    checkSegwit (sampleTx 0 7 [] [nullDataOutput segwitMagic]) = some true ∧
      ¬ hasSegwitCommitment (sampleTx 0 7 [] [nullDataOutput segwitMagic]) := by
  refine ⟨by decide, ?_⟩
  rintro ⟨o, hmem, _, c, hlen, hdata⟩
  simp only [sampleTx, List.mem_singleton] at hmem
  subst hmem
  have := congrArg List.length hdata
  simp [nullDataOutput, segwitMagic, hlen] at this

/-- Where a null-data output carries fewer than four bytes of data the check reads past the end of
the data when it gets to that output: with a commitment output followed by an empty null-data
output the empty one is inspected first and there is no result, and with the two exchanged the
commitment is found before the empty output is looked at. -/
theorem checkSegwit_reads_past_short_data :
    checkSegwit (sampleTx 0 7 []
        [nullDataOutput (segwitMagic ++ List.replicate 32 0), nullDataOutput []]) = none ∧
      checkSegwit (sampleTx 0 7 []
        [nullDataOutput [], nullDataOutput (segwitMagic ++ List.replicate 32 0)]) = some true ∧
      ∀ tx : RawTransaction, checkSegwit tx = none →
        ∃ o ∈ tx.outputs, o.scriptOutput.type = AddressType.NULL_DATA ∧
          o.scriptOutput.fullData.length < 4 := by
  refine ⟨by decide, by decide, ?_⟩
  intro tx hnone
  by_contra hno
  have hlen : ∀ o ∈ tx.outputs, o.scriptOutput.type = AddressType.NULL_DATA →
      4 ≤ o.scriptOutput.fullData.length := by
    intro o ho htype
    by_contra hshort
    exact hno ⟨o, ho, htype, by omega⟩
  obtain ⟨result, hrun, _⟩ := checkSegwit_of_long tx hlen
  rw [hnone] at hrun
  simp at hrun

/-! ### Stage 3: the UTXO map -/

theorem lookup_filter_ne {V : Type} (s : List (RawOutputPointer × V))
    (p k : RawOutputPointer) :
    (s.filter (fun e => e.1 != p)).lookup k = if k = p then none else s.lookup k := by
  induction s with
  | nil => simp
  | cons e rest ih =>
    obtain ⟨a, v⟩ := e
    by_cases hap : a = p
    · subst hap
      by_cases hk : k = a
      · subst hk
        simpa using ih
      · have : (k == a) = false := by simpa using hk
        simp [List.lookup_cons, this, ih, hk]
    · have hne : (a != p) = true := by simpa using hap
      rw [List.filter_cons_of_pos (by simpa using hap), List.lookup_cons, List.lookup_cons, ih]
      by_cases hk : k = a
      · subst hk
        simp [hap]
      · have : (k == a) = false := by simpa using hk
        simp [this]

theorem lookup_addOutput (s s1 : UTXOState) (utxo : UTXO) (p k : RawOutputPointer)
    (h : s.addOutput utxo p = some s1) :
    s1.lookup k = if k = p then some utxo else s.lookup k := by
  unfold UTXOState.addOutput at h
  cases hl : s.lookup p with
  | some u => simp [hl] at h
  | none =>
    simp only [hl, Option.some.injEq] at h
    subst h
    rw [List.lookup_cons]
    by_cases hk : k = p
    · subst hk
      simp
    · have : (k == p) = false := by simpa using hk
      simp [this, hk]

theorem addOutput_eq_some (s s1 : UTXOState) (utxo : UTXO) (p : RawOutputPointer)
    (h : s.addOutput utxo p = some s1) : s1 = (p, utxo) :: s ∧ s.lookup p = none := by
  unfold UTXOState.addOutput at h
  cases hl : s.lookup p with
  | some u => simp [hl] at h
  | none =>
    simp only [hl, Option.some.injEq] at h
    exact ⟨h.symm, rfl⟩

theorem lookup_eq_none_of_not_mem_keys {V : Type} (l : List (RawOutputPointer × V))
    (k : RawOutputPointer) (h : k ∉ l.map Prod.fst) : l.lookup k = none := by
  rw [List.lookup_eq_none_iff]
  intro e he
  have : k ≠ e.1 := fun hke => h (List.mem_map.mpr ⟨e, he, hke.symm⟩)
  simpa using this

theorem mem_keys_of_lookup_ne_none {V : Type} (l : List (RawOutputPointer × V))
    (k : RawOutputPointer) (h : l.lookup k ≠ none) : k ∈ l.map Prod.fst := by
  by_contra hk
  exact h (lookup_eq_none_of_not_mem_keys l k hk)

theorem not_mem_keys_of_lookup_eq_none {V : Type} (l : List (RawOutputPointer × V))
    (k : RawOutputPointer) (h : l.lookup k = none) : k ∉ l.map Prod.fst := by
  intro hk
  obtain ⟨e, he, hke⟩ := List.mem_map.mp hk
  have := List.lookup_eq_none_iff.mp h e he
  subst hke
  simp at this

theorem filter_ne_of_not_mem_keys {V : Type} (l : List (RawOutputPointer × V))
    (p : RawOutputPointer) (h : p ∉ l.map Prod.fst) : l.filter (fun e => e.1 != p) = l := by
  rw [List.filter_eq_self]
  intro e he
  have : e.1 ≠ p := fun hep => h (List.mem_map.mpr ⟨e, he, hep⟩)
  simpa using this

theorem perm_cons_filter_of_lookup {V : Type} :
    ∀ (l : List (RawOutputPointer × V)) (p : RawOutputPointer) (u : V),
      (l.map Prod.fst).Nodup → l.lookup p = some u →
      l.Perm ((p, u) :: l.filter (fun e => e.1 != p)) := by
  intro l
  induction l with
  | nil =>
    intro p u _ h
    simp at h
  | cons e rest ih =>
    intro p u hnd h
    obtain ⟨k, v⟩ := e
    rw [List.map_cons, List.nodup_cons] at hnd
    rw [List.lookup_cons] at h
    by_cases hpk : p = k
    · subst hpk
      simp only [beq_self_eq_true, Option.some.injEq] at h
      subst h
      rw [List.filter_cons_of_neg (by simp), filter_ne_of_not_mem_keys rest p hnd.1]
    · have hbeq : (p == k) = false := by simpa using hpk
      simp only [hbeq] at h
      have hkp : k ≠ p := fun e => hpk e.symm
      rw [List.filter_cons_of_pos (by simpa using hkp)]
      exact ((ih p u hnd.2 h).cons (k, v)).trans (List.Perm.swap _ _ _)

theorem nodup_keys_filter {V : Type} (l : List (RawOutputPointer × V))
    (q : RawOutputPointer × V → Bool) (h : (l.map Prod.fst).Nodup) :
    ((l.filter q).map Prod.fst).Nodup :=
  h.sublist ((List.filter_sublist l).map Prod.fst)

theorem spendInputs_lookup (s : UTXOState) (ins : List RawInput)
    (r : List RawInput × List Inout × UTXOState) (h : spendInputs s ins = some r)
    (k : RawOutputPointer) :
    r.2.2.lookup k =
      if k ∈ ins.map (fun input => input.rawOutputPointer) then none else s.lookup k := by
  induction ins generalizing s r with
  | nil =>
    simp only [spendInputs, Option.some.injEq] at h
    subst h
    simp
  | cons input rest ih =>
    simp only [spendInputs, UTXOState.spendOutput] at h
    cases hl : List.lookup input.rawOutputPointer s with
    | none => simp [hl] at h
    | some utxo =>
      simp only [hl] at h
      cases hr : spendInputs (List.filter (fun e => e.1 != input.rawOutputPointer) s) rest with
      | none => simp [hr] at h
      | some r1 =>
        simp only [hr, Option.some.injEq] at h
        subst h
        have := ih _ r1 hr
        simp only [this, lookup_filter_ne, List.map_cons, List.mem_cons]
        by_cases h1 : k = input.rawOutputPointer <;> simp [h1]

theorem spendInputs_perm (s : UTXOState) (ins : List RawInput)
    (r : List RawInput × List Inout × UTXOState) (h : spendInputs s ins = some r)
    (hnd : (s.map Prod.fst).Nodup) :
    ∃ spent : List (RawOutputPointer × UTXO),
      spent.map Prod.fst = ins.map (fun input => input.rawOutputPointer) ∧
      r.1.map (fun input => (input.rawOutputPointer, input.linkedTxNum, input.addressType)) =
        spent.map (fun e => (e.1, e.2.output.linkedTxNum, e.2.addressType)) ∧
      (r.2.2 ++ spent).Perm s ∧ (r.2.2.map Prod.fst).Nodup := by
  induction ins generalizing s r with
  | nil =>
    simp only [spendInputs, Option.some.injEq] at h
    subst h
    exact ⟨[], rfl, rfl, by simp, hnd⟩
  | cons input rest ih =>
    simp only [spendInputs, UTXOState.spendOutput] at h
    cases hl : List.lookup input.rawOutputPointer s with
    | none => simp [hl] at h
    | some utxo =>
      simp only [hl] at h
      cases hr : spendInputs (List.filter (fun e => e.1 != input.rawOutputPointer) s) rest with
      | none => simp [hr] at h
      | some r1 =>
        simp only [hr, Option.some.injEq] at h
        subst h
        obtain ⟨spent, hkeys, hres, hperm, hnd1⟩ := ih _ r1 hr (nodup_keys_filter s _ hnd)
        refine ⟨(input.rawOutputPointer, utxo) :: spent, by simp [hkeys], by simp [hres], ?_,
          hnd1⟩
        exact (List.perm_middle.trans (hperm.cons _)).trans
          (perm_cons_filter_of_lookup s _ utxo hnd hl).symm

theorem addOutputs_perm (f : AddressType → Bool) (txNum : Nat) (hash : uint256) :
    ∀ (outs : List RawOutput) (s : UTXOState) (i : Nat) (r : List Inout × UTXOState),
      addOutputs f txNum hash s outs i = some r →
      r.2.Perm (s ++ createdByOutputs f txNum hash outs i) ∧
        ((s.map Prod.fst).Nodup → (r.2.map Prod.fst).Nodup) := by
  intro outs
  induction outs with
  | nil =>
    intro s i r h
    simp only [addOutputs, Option.some.injEq] at h
    subst h
    simp [createdByOutputs]
  | cons output rest ih =>
    intro s i r h
    simp only [addOutputs, createdByOutputs, Inout.make] at h ⊢
    by_cases hsp : f (addressType output.scriptOutput) = true
    · simp only [hsp, if_true] at h ⊢
      cases ha : UTXOState.addOutput s
          { output := { linkedTxNum := txNum, toAddressNum := 0,
                        type := addressType output.scriptOutput, value := output.value },
            addressType := addressType output.scriptOutput }
          { hash := hash, outputNum := i } with
      | none => simp [ha] at h
      | some s1 =>
        simp only [ha] at h
        cases hr : addOutputs f txNum hash s1 rest ((i + 1) % 65536) with
        | none => simp [hr] at h
        | some r1 =>
          simp only [hr, Option.some.injEq] at h
          subst h
          obtain ⟨hs1, hfree⟩ := addOutput_eq_some s s1 _ _ ha
          obtain ⟨hperm, hnd⟩ := ih s1 _ r1 hr
          subst hs1
          refine ⟨hperm.trans List.perm_middle.symm, ?_⟩
          intro hs
          apply hnd
          rw [List.map_cons, List.nodup_cons]
          exact ⟨not_mem_keys_of_lookup_eq_none s _ hfree, hs⟩
    · simp only [hsp, Bool.false_eq_true, if_false] at h ⊢
      cases hr : addOutputs f txNum hash s rest ((i + 1) % 65536) with
      | none => simp [hr] at h
      | some r1 =>
        simp only [hr, Option.some.injEq] at h
        subst h
        exact ih s _ r1 hr

theorem processUTXOsConsume_perm (f : AddressType → Bool) (st st1 : UTXOStage)
    (tx : RawTransaction) (h : processUTXOsConsume f st tx = some st1)
    (hnd : (st.utxoState.map Prod.fst).Nodup) :
    ∃ (spent : List (RawOutputPointer × UTXO)) (inputs : List RawInput),
      spent.map Prod.fst = tx.inputs.map (fun input => input.rawOutputPointer) ∧
      st1.addressQueue = st.addressQueue ++ [{ tx with inputs := inputs }] ∧
      inputs.map (fun input => (input.rawOutputPointer, input.linkedTxNum, input.addressType)) =
        spent.map (fun e => (e.1, e.2.output.linkedTxNum, e.2.addressType)) ∧
      (st1.utxoState ++ spent).Perm
        (st.utxoState ++ createdByOutputs f tx.txNum tx.hash tx.outputs 0) ∧
      (st1.utxoState.map Prod.fst).Nodup := by
  unfold processUTXOsConsume at h
  cases hs : spendInputs st.utxoState tx.inputs with
  | none => simp [hs] at h
  | some r =>
    obtain ⟨inputs, records, s1⟩ := r
    simp only [hs] at h
    cases ha : addOutputs f tx.txNum tx.hash s1 tx.outputs 0 with
    | none => simp [ha] at h
    | some r2 =>
      simp only [ha, Option.some.injEq] at h
      subst h
      obtain ⟨spent, hkeys, hres, hperm, hnd1⟩ := spendInputs_perm _ _ _ hs hnd
      obtain ⟨hperm2, hnd2⟩ := addOutputs_perm f tx.txNum tx.hash tx.outputs s1 0 r2 ha
      refine ⟨spent, inputs, hkeys, rfl, hres, ?_, hnd2 hnd1⟩
      show (r2.2 ++ spent).Perm _
      have h1 : (r2.2 ++ spent).Perm
          ((s1 ++ createdByOutputs f tx.txNum tx.hash tx.outputs 0) ++ spent) :=
        hperm2.append_right spent
      have h2 : ((s1 ++ createdByOutputs f tx.txNum tx.hash tx.outputs 0) ++ spent).Perm
          ((s1 ++ spent) ++ createdByOutputs f tx.txNum tx.hash tx.outputs 0) := by
        rw [List.append_assoc, List.append_assoc]
        exact List.Perm.append_left s1 List.perm_append_comm
      exact (h1.trans h2).trans (hperm.append_right _)

theorem processUTXOs_perm (f : AddressType → Bool) (txs : List RawTransaction) :
    ∀ (st st1 : UTXOStage), processUTXOs f st txs = some st1 →
      (st.utxoState.map Prod.fst).Nodup →
      ∃ (spent : List (RawOutputPointer × UTXO)) (pushed : List RawTransaction),
        spent.map Prod.fst = spentPointers txs ∧
        st1.addressQueue = st.addressQueue ++ pushed ∧
        pushed.flatMap (fun tx => tx.inputs.map (fun input =>
            (input.rawOutputPointer, input.linkedTxNum, input.addressType))) =
          spent.map (fun e => (e.1, e.2.output.linkedTxNum, e.2.addressType)) ∧
        (st1.utxoState ++ spent).Perm (st.utxoState ++ createdEntries f txs) ∧
        (st1.utxoState.map Prod.fst).Nodup := by
  induction txs with
  | nil =>
    intro st st1 h hnd
    simp only [processUTXOs, Option.some.injEq] at h
    subst h
    exact ⟨[], [], by simp [spentPointers], by simp, by simp, by simp [createdEntries], hnd⟩
  | cons tx rest ih =>
    intro st st1 h hnd
    simp only [processUTXOs] at h
    cases hc : processUTXOsConsume f st tx with
    | none => simp [hc] at h
    | some st2 =>
      simp only [hc] at h
      obtain ⟨spent1, inputs, hkeys1, hq1, hres1, hperm1, hnd1⟩ :=
        processUTXOsConsume_perm f st st2 tx hc hnd
      obtain ⟨spent2, pushed, hkeys2, hq2, hres2, hperm2, hnd2⟩ := ih st2 st1 h hnd1
      refine ⟨spent1 ++ spent2, { tx with inputs := inputs } :: pushed, ?_, ?_, ?_, ?_, hnd2⟩
      · rw [List.map_append, hkeys1, hkeys2]
        simp [spentPointers]
      · rw [hq2, hq1]
        simp
      · simp [hres1, hres2]
      · have h1 : (st1.utxoState ++ (spent1 ++ spent2)).Perm
            ((st1.utxoState ++ spent2) ++ spent1) := by
          rw [List.append_assoc]
          exact List.Perm.append_left _ List.perm_append_comm
        have h2 : ((st1.utxoState ++ spent2) ++ spent1).Perm
            ((st2.utxoState ++ createdEntries f rest) ++ spent1) := hperm2.append_right _
        have h3 : ((st2.utxoState ++ createdEntries f rest) ++ spent1).Perm
            ((st2.utxoState ++ spent1) ++ createdEntries f rest) := by
          rw [List.append_assoc, List.append_assoc]
          exact List.Perm.append_left _ List.perm_append_comm
        have h4 : ((st2.utxoState ++ spent1) ++ createdEntries f rest).Perm
            ((st.utxoState ++ createdByOutputs f tx.txNum tx.hash tx.outputs 0) ++
              createdEntries f rest) := hperm1.append_right _
        have h5 := ((h1.trans h2).trans h3).trans h4
        simpa only [createdEntries, List.flatMap_cons, List.append_assoc] using h5

theorem multiset_sub_of_append_perm {α : Type} [DecidableEq α] (m spent total : List α)
    (h : (m ++ spent).Perm total) :
    (spent : Multiset α) ≤ (total : Multiset α) ∧
      (m : Multiset α) = (total : Multiset α) - (spent : Multiset α) := by
  constructor
  · exact Multiset.coe_le.mpr ((List.sublist_append_right m spent).subperm.trans h.subperm)
  · have h1 : (total : Multiset α) = (m : Multiset α) + (spent : Multiset α) := by
      rw [Multiset.coe_add]
      exact (Multiset.coe_eq_coe.mpr h).symm
    rw [h1]
    exact (add_tsub_cancel_right _ _).symm

/-- C1: when `processUTXOs` has consumed a sequence of transactions from a UTXO map (a map: no
key twice), every input having referred to an entry present at that moment and no insert having
been a duplicate, the entries `spent` the inputs referred to, one per input in the order of the
inputs, each under the input's out-point and with the producing transaction number and address
type that the transaction handed on carries for that input, are among the entries present at
the start or created by the spendable outputs of those transactions; and the map reached holds
exactly the entries present at the start or created, minus the referenced ones, and is a map
again. An output created, spent and created again under the same key is covered. -/
theorem processUTXOs_utxo_conservation (isSpendable : AddressType → Bool)
    (st st1 : UTXOStage) (txs : List RawTransaction)
    (hrun : processUTXOs isSpendable st txs = some st1)
    (hmap : (st.utxoState.map Prod.fst).Nodup) :
    ∃ (spent : List (RawOutputPointer × UTXO)) (pushed : List RawTransaction),
      spent.map Prod.fst = spentPointers txs ∧
      st1.addressQueue = st.addressQueue ++ pushed ∧
      pushed.flatMap (fun tx => tx.inputs.map (fun input =>
          (input.rawOutputPointer, input.linkedTxNum, input.addressType))) =
        spent.map (fun e => (e.1, e.2.output.linkedTxNum, e.2.addressType)) ∧
      UTXOConservation isSpendable st.utxoState txs spent st1.utxoState ∧
      (st1.utxoState.map Prod.fst).Nodup := by
  obtain ⟨spent, pushed, hkeys, hq, hres, hperm, hnd⟩ :=
    processUTXOs_perm isSpendable txs st st1 hrun hmap
  refine ⟨spent, pushed, hkeys, hq, hres, ?_, hnd⟩
  unfold UTXOConservation
  exact multiset_sub_of_append_perm _ _ _ hperm

/-- C1, witness: an output is created under the key `(7, 0)` by transaction 0, spent by
transaction 1, and created again under the same key by transaction 2. The run from the empty
store leaves the entry of transaction 2 under that key: two entries created, minus the one
referenced. -/
theorem processUTXOs_utxo_conservation_witness :
    ∃ st1, processUTXOs spendableUnlessNullData emptyUTXOStage recreatedKeyTxs = some st1 ∧
      (emptyUTXOStage.utxoState.map Prod.fst).Nodup ∧
      st1.utxoState.map (fun e => (e.1, e.2.output.linkedTxNum)) =
        [({ hash := 7, outputNum := 0 }, 2)] ∧
      (createdEntries spendableUnlessNullData recreatedKeyTxs).map
          (fun e => (e.1, e.2.output.linkedTxNum)) =
        [({ hash := 7, outputNum := 0 }, 0), ({ hash := 7, outputNum := 0 }, 2)] ∧
      ∃ (spent : List (RawOutputPointer × UTXO)) (pushed : List RawTransaction),
        spent.map Prod.fst = spentPointers recreatedKeyTxs ∧
        st1.addressQueue = emptyUTXOStage.addressQueue ++ pushed ∧
        pushed.flatMap (fun tx => tx.inputs.map (fun input =>
            (input.rawOutputPointer, input.linkedTxNum, input.addressType))) =
          spent.map (fun e => (e.1, e.2.output.linkedTxNum, e.2.addressType)) ∧
        UTXOConservation spendableUnlessNullData emptyUTXOStage.utxoState recreatedKeyTxs spent
          st1.utxoState ∧
        (st1.utxoState.map Prod.fst).Nodup :=
  ⟨_, rfl, by decide, by decide, by decide,
    processUTXOs_utxo_conservation spendableUnlessNullData emptyUTXOStage _ recreatedKeyTxs rfl
      (by decide)⟩

/-- A duplicate insert is fatal: with a fourth transaction that creates an output under the key
`(7, 0)` while the map holds an entry there, the run has no result; and the simple spend (two
coinbases and a spend of the first) leaves the second coinbase output and the new output. -/
theorem processUTXOs_duplicate_insert_is_fatal :
    processUTXOs spendableUnlessNullData emptyUTXOStage reusedHashTxs = none ∧
      (processUTXOs spendableUnlessNullData emptyUTXOStage simpleSpendTxs).map
          (fun st1 => st1.utxoState.map Prod.fst) =
        some [{ hash := 9, outputNum := 0 }, { hash := 8, outputNum := 0 }] := by
  refine ⟨by decide, by decide⟩

/-! ### The chain index: `generateChain` -/

theorem truncateChain_zero {Location : Type} (chain : List (BlockInfo Location)) :
    truncateChain chain 0 = chain := by
  simp [truncateChain]

/-- C6: for every block map, every amount of fuel and every `maxBlockHeight`,
`generateChain(maxBlockHeight)` returns exactly when `generateChain(0)` does, and then it is the
whole chain when `maxBlockHeight` is 0 or exceeds the chain's length and its first
`maxBlockHeight` blocks otherwise: a prefix of the full chain, of length
`min(maxBlockHeight, length of the full chain)` whenever `maxBlockHeight > 0`; on the empty block
map it is the empty chain. -/
theorem generateChain_truncates_full_chain {Location : Type}
    (blockList : List (BlockInfo Location)) (fuel maxBlockHeight : Nat) :
    generateChain blockList fuel maxBlockHeight =
        (generateChain blockList fuel 0).map (fun full =>
          if maxBlockHeight = 0 ∨ maxBlockHeight > full.length then full
          else full.take maxBlockHeight) ∧
      (∀ full, generateChain blockList fuel 0 = some full →
        ∃ chain, generateChain blockList fuel maxBlockHeight = some chain ∧ chain <+: full ∧
          (0 < maxBlockHeight → chain.length = min maxBlockHeight full.length)) ∧
      generateChain ([] : List (BlockInfo Location)) fuel maxBlockHeight = some [] := by
  have key : generateChain blockList fuel maxBlockHeight =
      (generateChain blockList fuel 0).map (fun full =>
        if maxBlockHeight = 0 ∨ maxBlockHeight > full.length then full
        else full.take maxBlockHeight) := by
    unfold generateChain
    cases hm : maxHeightBlock blockList with
    | none => simp
    | some best =>
      cases hw : walkBack blockList fuel best.hash with
      | none => simp [hw]
      | some chain => simp [hw, truncateChain]
  refine ⟨key, ?_, ?_⟩
  · intro full hfull
    rw [key, hfull]
    refine ⟨_, rfl, ?_, ?_⟩
    · dsimp only [Option.map]
      split
      · exact List.prefix_refl full
      · exact List.take_prefix _ _
    · intro hpos
      dsimp only [Option.map]
      split
      · rename_i h
        rcases h with h | h
        · omega
        · omega
      · rw [List.length_take]
  · simp [generateChain, maxHeightBlock]

theorem foldl_maxHeightStep {Location : Type} (l : List (BlockInfo Location))
    (acc : Option (BlockInfo Location) × Int) :
    acc.2 ≤ (l.foldl maxHeightStep acc).2 ∧
      (∀ x ∈ l, x.height ≤ (l.foldl maxHeightStep acc).2) ∧
      (l.foldl maxHeightStep acc = acc ∨
        ∃ b ∈ l, l.foldl maxHeightStep acc = (some b, b.height)) := by
  induction l generalizing acc with
  | nil => simp
  | cons a rest ih =>
    rw [List.foldl_cons]
    obtain ⟨h1, h2, h3⟩ := ih (maxHeightStep acc a)
    have hstep : acc.2 ≤ (maxHeightStep acc a).2 ∧ a.height ≤ (maxHeightStep acc a).2 := by
      unfold maxHeightStep
      split <;> simp <;> omega
    refine ⟨le_trans hstep.1 h1, ?_, ?_⟩
    · intro x hx
      rcases List.mem_cons.mp hx with rfl | hx
      · exact le_trans hstep.2 h1
      · exact h2 x hx
    · rcases h3 with h3 | ⟨b, hb, h3⟩
      · rw [h3]
        unfold maxHeightStep
        split
        · exact Or.inr ⟨a, List.mem_cons_self _ _, rfl⟩
        · exact Or.inl rfl
      · exact Or.inr ⟨b, List.mem_cons_of_mem _ hb, h3⟩

theorem maxHeightBlock_eq_some {Location : Type} (blockList : List (BlockInfo Location))
    (best : BlockInfo Location) (h : maxHeightBlock blockList = some best) :
    best ∈ blockList ∧ ∀ x ∈ blockList, x.height ≤ best.height := by
  unfold maxHeightBlock at h
  obtain ⟨_, h2, h3⟩ := foldl_maxHeightStep blockList (none, INT_MIN)
  rcases h3 with h3 | ⟨b, hb, h3⟩
  · rw [h3] at h
    simp at h
  · rw [h3] at h h2
    simp only [Option.some.injEq] at h
    subst h
    exact ⟨hb, h2⟩

theorem maxHeightBlock_eq_none {Location : Type} (blockList : List (BlockInfo Location))
    (h : maxHeightBlock blockList = none) : ∀ x ∈ blockList, x.height ≤ INT_MIN := by
  unfold maxHeightBlock at h
  obtain ⟨_, h2, h3⟩ := foldl_maxHeightStep blockList (none, INT_MIN)
  rcases h3 with h3 | ⟨b, hb, h3⟩
  · rw [h3] at h2
    exact h2
  · rw [h3] at h
    simp at h

theorem countP_lt_countP {α : Type} (p q : α → Bool) (l : List α)
    (hpq : ∀ x, p x = true → q x = true) (a : α) (ha : a ∈ l) (hqa : q a = true)
    (hpa : p a = false) : l.countP p < l.countP q := by
  induction l with
  | nil => simp at ha
  | cons x rest ih =>
    rcases List.mem_cons.mp ha with rfl | hmem
    · have hle : rest.countP p ≤ rest.countP q := List.countP_mono_left (fun y _ => hpq y)
      rw [List.countP_cons_of_neg _ _ (by simp [hpa]), List.countP_cons_of_pos _ _ hqa]
      omega
    · have hlt := ih hmem
      by_cases hx : p x = true
      · rw [List.countP_cons_of_pos _ _ hx, List.countP_cons_of_pos _ _ (hpq x hx)]
        omega
      · rw [List.countP_cons_of_neg _ _ hx]
        by_cases hqx : q x = true
        · rw [List.countP_cons_of_pos _ _ hqx]
          omega
        · rw [List.countP_cons_of_neg _ _ hqx]
          exact hlt

theorem findBlock_of_mem {Location : Type} (blockList : List (BlockInfo Location))
    (b : BlockInfo Location) (hb : b ∈ blockList) :
    ∃ b1, findBlock blockList b.hash = some b1 ∧ b1 ∈ blockList ∧ b1.hash = b.hash := by
  unfold findBlock
  cases hf : blockList.find? (fun x => x.hash == b.hash) with
  | none =>
    rw [List.find?_eq_none] at hf
    exact absurd (by simp) (hf b hb)
  | some b1 =>
    exact ⟨b1, rfl, List.mem_of_find?_eq_some hf, by simpa using List.find?_some hf⟩

theorem findBlock_eq_self {Location : Type} (blockList : List (BlockInfo Location))
    (hkeys : (blockList.map (fun b => b.hash)).Nodup)
    (b : BlockInfo Location) (hb : b ∈ blockList) : findBlock blockList b.hash = some b := by
  obtain ⟨b1, hf, hmem, hhash⟩ := findBlock_of_mem blockList b hb
  rw [hf]
  congr 1
  exact List.inj_on_of_nodup_map hkeys hmem hb hhash

theorem no_block_below_null_hash {Location : Type} (blockList : List (BlockInfo Location))
    (rank : uint256 → Nat)
    (hlinks : ∀ b ∈ blockList, b.header.hashPrevBlock = nullHash ∨
      ∃ p ∈ blockList, p.hash = b.header.hashPrevBlock)
    (hacyclic : ∀ b ∈ blockList, ∀ p ∈ blockList,
      b.header.hashPrevBlock = p.hash → rank p.hash < rank b.hash)
    (b0 : BlockInfo Location) (hb0 : b0 ∈ blockList) (hnull : b0.hash = nullHash) :
    ∀ n, ∀ b ∈ blockList, rank b.hash ≤ n → False := by
  intro n
  induction n with
  | zero =>
    intro b hb hr
    rcases hlinks b hb with h | ⟨p, hp, h⟩
    · have := hacyclic b hb b0 hb0 (by rw [h, hnull])
      omega
    · have := hacyclic b hb p hp h.symm
      omega
  | succ n ih =>
    intro b hb hr
    rcases hlinks b hb with h | ⟨p, hp, h⟩
    · have := hacyclic b hb b0 hb0 (by rw [h, hnull])
      exact ih b0 hb0 (by omega)
    · have := hacyclic b hb p hp h.symm
      exact ih p hp (by omega)

theorem hash_ne_nullHash {Location : Type} (blockList : List (BlockInfo Location))
    (rank : uint256 → Nat)
    (hlinks : ∀ b ∈ blockList, b.header.hashPrevBlock = nullHash ∨
      ∃ p ∈ blockList, p.hash = b.header.hashPrevBlock)
    (hacyclic : ∀ b ∈ blockList, ∀ p ∈ blockList,
      b.header.hashPrevBlock = p.hash → rank p.hash < rank b.hash)
    (b : BlockInfo Location) (hb : b ∈ blockList) : b.hash ≠ nullHash := by
  intro hnull
  exact no_block_below_null_hash blockList rank hlinks hacyclic b hb hnull (rank b.hash) b hb
    (le_refl _)

theorem walkBack_succ {Location : Type} (blockList : List (BlockInfo Location)) (fuel : Nat)
    (hash : uint256) (hne : hash ≠ nullHash) :
    walkBack blockList (fuel + 1) hash =
      match findBlock blockList hash with
      | none => none
      | some block =>
        match walkBack blockList fuel block.header.hashPrevBlock with
        | none => none
        | some chain => some (block :: chain) := by
  rw [walkBack]
  simp [hne]

theorem walkBack_nullHash {Location : Type} (blockList : List (BlockInfo Location)) (fuel : Nat) :
    walkBack blockList fuel nullHash = some [] := by
  unfold walkBack
  simp

theorem walkBack_of_acyclic {Location : Type} (blockList : List (BlockInfo Location))
    (rank : uint256 → Nat)
    (hlinks : ∀ b ∈ blockList, b.header.hashPrevBlock = nullHash ∨
      ∃ p ∈ blockList, p.hash = b.header.hashPrevBlock)
    (hacyclic : ∀ b ∈ blockList, ∀ p ∈ blockList,
      b.header.hashPrevBlock = p.hash → rank p.hash < rank b.hash) :
    ∀ (fuel : Nat) (b : BlockInfo Location), b ∈ blockList →
      blockList.countP (fun x => decide (rank x.hash < rank b.hash)) < fuel →
      ∃ b1 chain, walkBack blockList fuel b.hash = some (b1 :: chain) ∧
        findBlock blockList b.hash = some b1 ∧
        (∀ x ∈ b1 :: chain, x ∈ blockList) ∧
        List.Chain' (fun x y => x.header.hashPrevBlock = y.hash) (b1 :: chain) ∧
        (∀ last, (b1 :: chain).getLast? = some last →
          last.header.hashPrevBlock = nullHash) := by
  intro fuel
  induction fuel with
  | zero => intro b _ h; omega
  | succ fuel ih =>
    intro b hb hfuel
    have hne := hash_ne_nullHash blockList rank hlinks hacyclic b hb
    obtain ⟨b1, hf, hmem1, hhash1⟩ := findBlock_of_mem blockList b hb
    rw [walkBack_succ _ _ _ hne, hf]
    dsimp only
    rcases hlinks b1 hmem1 with hprev | ⟨p, hp, hprev⟩
    · rw [hprev, walkBack_nullHash]
      refine ⟨b1, [], rfl, rfl, ?_, List.chain'_singleton _, ?_⟩
      · intro x hx
        rw [List.mem_singleton] at hx
        rw [hx]
        exact hmem1
      · intro last hlast
        simp only [List.getLast?_singleton, Option.some.injEq] at hlast
        rw [← hlast]
        exact hprev
    · have hrank : rank p.hash < rank b.hash := by
        rw [← hhash1]
        exact hacyclic b1 hmem1 p hp hprev.symm
      have hcount : blockList.countP (fun x => decide (rank x.hash < rank p.hash)) <
          blockList.countP (fun x => decide (rank x.hash < rank b.hash)) := by
        apply countP_lt_countP _ _ blockList _ p hp
        · simpa using hrank
        · simp
        · intro x hx
          simp only [decide_eq_true_eq] at hx ⊢
          omega
      obtain ⟨p1, chain, hw, hfp, hmem, hchain, hlast⟩ := ih p hp (by omega)
      rw [← hprev, hw]
      refine ⟨b1, p1 :: chain, rfl, rfl, ?_, ?_, ?_⟩
      · intro x hx
        rcases List.mem_cons.mp hx with rfl | hx
        · exact hmem1
        · exact hmem x hx
      · refine List.Chain'.cons ?_ hchain
        have := List.find?_some hfp
        simp only [beq_iff_eq] at this
        rw [this, hprev]
      · intro last hl
        apply hlast last
        simpa [List.getLast?_cons_cons] using hl

/-- C5: for every block map (unique hashes) in which each block's prevHash is the null hash or
the hash of a block of the map and the prevHash links contain no cycle (ranks decrease along
them), the heights being heights the chain index stores (`-1` from the constructor, 1 or more
from the height pass, 0 or more in RPC mode), `generateChain(0)` returns once the walk is given
as many rounds as there are blocks; the chain returned is non-empty when the map is non-empty,
its first block has the null hash as prevHash, every later block's `header.prevHash` is the hash
of the block just before it, and its last block has the greatest height of all blocks in the
map. -/
theorem generateChain_linked_to_highest_block {Location : Type}
    (blockList : List (BlockInfo Location)) (rank : uint256 → Nat) (fuel : Nat)
    (hkeys : (blockList.map (fun b => b.hash)).Nodup)
    (hlinks : ∀ b ∈ blockList, b.header.hashPrevBlock = nullHash ∨
      ∃ p ∈ blockList, p.hash = b.header.hashPrevBlock)
    (hacyclic : ∀ b ∈ blockList, ∀ p ∈ blockList,
      b.header.hashPrevBlock = p.hash → rank p.hash < rank b.hash)
    (hheights : ∀ b ∈ blockList, -1 ≤ b.height)
    (hfuel : blockList.length ≤ fuel) :
    ∃ chain, generateChain blockList fuel 0 = some chain ∧
      (blockList ≠ [] → chain ≠ []) ∧
      (∀ first, chain.head? = some first → first.header.hashPrevBlock = nullHash) ∧
      List.Chain' (fun x y => y.header.hashPrevBlock = x.hash) chain ∧
      (∀ last, chain.getLast? = some last → ∀ b ∈ blockList, b.height ≤ last.height) := by
  unfold generateChain
  cases hm : maxHeightBlock blockList with
  | none =>
    refine ⟨[], rfl, ?_, ?_, List.chain'_nil, ?_⟩
    · intro hne
      obtain ⟨b, hb⟩ := List.exists_mem_of_ne_nil blockList hne
      have h1 := maxHeightBlock_eq_none blockList hm b hb
      have h2 := hheights b hb
      simp only [INT_MIN] at h1
      omega
    · intro first h
      simp at h
    · intro last h
      simp at h
  | some best =>
    obtain ⟨hbest, hmax⟩ := maxHeightBlock_eq_some blockList best hm
    have hcount : blockList.countP (fun x => decide (rank x.hash < rank best.hash)) < fuel := by
      have : blockList.countP (fun x => decide (rank x.hash < rank best.hash)) <
          blockList.countP (fun _ => true) := by
        apply countP_lt_countP _ _ blockList _ best hbest
        · rfl
        · simp
        · intro x _
          rfl
      have hlen : blockList.countP (fun _ => true) = blockList.length := by simp
      omega
    obtain ⟨b1, chain, hw, hf, hmem, hchain, hlast⟩ :=
      walkBack_of_acyclic blockList rank hlinks hacyclic fuel best hbest hcount
    rw [findBlock_eq_self blockList hkeys best hbest] at hf
    simp only [Option.some.injEq] at hf
    subst hf
    simp only [hw, truncateChain_zero]
    refine ⟨_, rfl, ?_, ?_, ?_, ?_⟩
    · intro _
      simp
    · intro first hfirst
      rw [List.head?_reverse] at hfirst
      exact hlast first hfirst
    · rw [List.chain'_reverse]
      exact hchain
    · intro last hl
      rw [List.getLast?_reverse] at hl
      simp only [List.head?_cons, Option.some.injEq] at hl
      rw [← hl]
      exact hmax

/-- C5, witness: on the forked map `11 ← 12 ← 13`, `11 ← 14` the hypotheses hold with the hash as
rank, and the chain returned is `11, 12, 13`. -/
theorem generateChain_linked_to_highest_block_witness :
    generateChain forkedBlockList 4 0 =
        some [sampleBlock 11 0 1 1, sampleBlock 12 11 2 1, sampleBlock 13 12 3 2] ∧
      ∃ chain, generateChain forkedBlockList 4 0 = some chain ∧
        (forkedBlockList ≠ [] → chain ≠ []) ∧
        (∀ first, chain.head? = some first → first.header.hashPrevBlock = nullHash) ∧
        List.Chain' (fun x y => y.header.hashPrevBlock = x.hash) chain ∧
        (∀ last, chain.getLast? = some last →
          ∀ b ∈ forkedBlockList, b.height ≤ last.height) :=
  ⟨by decide,
    generateChain_linked_to_highest_block forkedBlockList (fun h => h) 4 (by decide) (by decide)
      (by decide) (by decide) (by decide)⟩

/-- C6, witness: on the forked map the full chain is `11, 12, 13` and `generateChain(2)` returns
its first two blocks. -/
theorem generateChain_truncates_full_chain_witness :
    generateChain forkedBlockList 4 2 = some [sampleBlock 11 0 1 1, sampleBlock 12 11 2 1] ∧
      ∃ chain, generateChain forkedBlockList 4 2 = some chain ∧
        chain <+: [sampleBlock 11 0 1 1, sampleBlock 12 11 2 1, sampleBlock 13 12 3 2] ∧
        (0 < 2 → chain.length = min 2
          [sampleBlock 11 0 1 1, sampleBlock 12 11 2 1, sampleBlock 13 12 3 2].length) :=
  ⟨by decide,
    (generateChain_truncates_full_chain forkedBlockList 4 2).2.1
      [sampleBlock 11 0 1 1, sampleBlock 12 11 2 1, sampleBlock 13 12 3 2] (by decide)⟩

/-! ### The chain index: the height-assignment pass -/

theorem map_hash_withHeights {Location : Type} (H : uint256 → Int)
    (blockList : List (BlockInfo Location)) :
    (withHeights H blockList).map (fun b => b.hash) = blockList.map (fun b => b.hash) := by
  simp [withHeights, Function.comp_def]

theorem findBlock_withHeights {Location : Type} (H : uint256 → Int)
    (blockList : List (BlockInfo Location))
    (hkeys : (blockList.map (fun b => b.hash)).Nodup)
    (b : BlockInfo Location) (hb : b ∈ blockList) :
    findBlock (withHeights H blockList) b.hash = some { b with height := H b.hash } := by
  have hmem : ({ b with height := H b.hash } : BlockInfo Location) ∈ withHeights H blockList :=
    List.mem_map.mpr ⟨b, hb, rfl⟩
  have hk : ((withHeights H blockList).map (fun b => b.hash)).Nodup := by
    rw [map_hash_withHeights]
    exact hkeys
  exact findBlock_eq_self (withHeights H blockList) hk _ hmem

theorem storeBlock_withHeights {Location : Type} (H : uint256 → Int)
    (blockList : List (BlockInfo Location))
    (hkeys : (blockList.map (fun b => b.hash)).Nodup)
    (b : BlockInfo Location) (hb : b ∈ blockList) (v : Int) :
    storeBlock { b with height := v } b.hash (withHeights H blockList) =
      withHeights (fun x => if x = b.hash then v else H x) blockList := by
  induction blockList with
  | nil => simp at hb
  | cons x rest ih =>
    rw [List.map_cons, List.nodup_cons] at hkeys
    simp only [withHeights, List.map_cons, storeBlock]
    by_cases hx : x.hash = b.hash
    · have hxb : b = x := by
        rcases List.mem_cons.mp hb with h | h
        · exact h
        · exact absurd (List.mem_map.mpr ⟨b, h, hx.symm⟩) hkeys.1
      subst hxb
      simp only [beq_self_eq_true, if_true]
      congr 1
      apply List.map_congr_left
      intro y hy
      have hne : y.hash ≠ b.hash := fun h => hkeys.1 (List.mem_map.mpr ⟨y, hy, h⟩)
      simp [hne]
    · have hbr : b ∈ rest := by
        rcases List.mem_cons.mp hb with h | h
        · exact absurd (by rw [h]) hx
        · exact h
      have hne : (x.hash == b.hash) = false := by simpa using hx
      simp only [hne, hx, if_false, Bool.false_eq_true]
      congr 1
      exact ih hkeys.2 hbr

theorem assignChildren_withHeights {Location : Type} (blockList : List (BlockInfo Location))
    (hkeys : (blockList.map (fun b => b.hash)).Nodup) (d : Int)
    (cs : List (BlockInfo Location)) (hcs : ∀ c ∈ cs, c ∈ blockList) :
    ∀ (H : uint256 → Int) (queue : List (uint256 × Int)),
      assignChildren d (withHeights H blockList) queue (cs.map (fun c => c.hash)) =
        some (withHeights (fun x => if x ∈ cs.map (fun c => c.hash) then d + 1 else H x)
            blockList,
          (cs.map (fun c => (c.hash, d + 1))).reverse ++ queue) := by
  induction cs with
  | nil =>
    intro H queue
    simp [assignChildren]
  | cons c rest ih =>
    intro H queue
    have hc : c ∈ blockList := hcs c (List.mem_cons_self _ _)
    simp only [List.map_cons, assignChildren, findBlock_withHeights H blockList hkeys c hc]
    rw [storeBlock_withHeights H blockList hkeys c hc (d + 1),
      ih (fun x hx => hcs x (List.mem_cons_of_mem _ hx))]
    simp only [List.reverse_cons, List.append_assoc, List.singleton_append, List.mem_cons]
    congr 2
    apply List.map_congr_left
    intro y _
    by_cases h1 : y.hash ∈ rest.map (fun c => c.hash)
    · simp [h1]
    · by_cases h2 : y.hash = c.hash <;> simp [h1, h2]

theorem equalRange_forwardHashes {Location : Type} (blockList : List (BlockInfo Location))
    (h : uint256) :
    equalRange (forwardHashes blockList) h =
      (blockList.filter (fun b => b.header.hashPrevBlock == h)).map (fun b => b.hash) := by
  induction blockList with
  | nil => rfl
  | cons x rest ih =>
    simp only [equalRange, forwardHashes] at ih ⊢
    by_cases hx : x.header.hashPrevBlock = h
    · simp [hx, ih]
    · have : (x.header.hashPrevBlock == h) = false := by simpa using hx
      simp [this, hx, ih]

theorem withHeights_heightOf {Location : Type} (blockList : List (BlockInfo Location))
    (hkeys : (blockList.map (fun b => b.hash)).Nodup) :
    withHeights (heightOf blockList) blockList = blockList := by
  unfold withHeights
  conv_rhs => rw [← List.map_id blockList]
  apply List.map_congr_left
  intro b hb
  simp [heightOf, findBlock_eq_self blockList hkeys b hb]

theorem Reachable.cases_hash {Location : Type} {blockList : List (BlockInfo Location)}
    {h : uint256} (hr : Reachable blockList h) :
    h = nullHash ∨ ∃ p ∈ blockList, p.hash = h ∧ Reachable blockList p.header.hashPrevBlock := by
  cases hr with
  | root => exact Or.inl rfl
  | step b hb hp => exact Or.inr ⟨b, hb, rfl, hp⟩

theorem rank_nullHash_lt_of_reachable {Location : Type} (blockList : List (BlockInfo Location))
    (rank : uint256 → Nat)
    (hacyclic : ∀ b ∈ blockList, ∀ p ∈ blockList,
      b.header.hashPrevBlock = p.hash → rank p.hash < rank b.hash)
    (a : BlockInfo Location) (ha : a ∈ blockList) (hnull : a.hash = nullHash)
    (h : uint256) (hr : Reachable blockList h) : h ≠ nullHash → rank nullHash < rank h := by
  induction hr with
  | root => intro hne; exact absurd rfl hne
  | step b hb hp ih =>
    intro _
    by_cases hprev : b.header.hashPrevBlock = nullHash
    · have := hacyclic b hb a ha (by rw [hprev, hnull])
      rw [hnull] at this
      exact this
    · have h1 := ih hprev
      rcases hp.cases_hash with h2 | ⟨p, hpm, hph, _⟩
      · exact absurd h2 hprev
      · have := hacyclic b hb p hpm hph.symm
        rw [hph] at this
        omega

theorem child_hash_ne_nullHash {Location : Type} (blockList : List (BlockInfo Location))
    (rank : uint256 → Nat)
    (hacyclic : ∀ b ∈ blockList, ∀ p ∈ blockList,
      b.header.hashPrevBlock = p.hash → rank p.hash < rank b.hash)
    (c : BlockInfo Location) (hc : c ∈ blockList)
    (hr : Reachable blockList c.header.hashPrevBlock) : c.hash ≠ nullHash := by
  intro hnull
  by_cases hprev : c.header.hashPrevBlock = nullHash
  · have := hacyclic c hc c hc (by rw [hprev, hnull])
    omega
  · have h1 := rank_nullHash_lt_of_reachable blockList rank hacyclic c hc hnull _ hr hprev
    rcases hr.cases_hash with h2 | ⟨p, hpm, hph, _⟩
    · exact absurd h2 hprev
    · have := hacyclic c hc p hpm hph.symm
      rw [hph, hnull] at this
      omega

theorem HeightInv.step {Location : Type} (blockList : List (BlockInfo Location))
    (rank : uint256 → Nat)
    (hkeys : (blockList.map (fun b => b.hash)).Nodup)
    (hacyclic : ∀ b ∈ blockList, ∀ p ∈ blockList,
      b.header.hashPrevBlock = p.hash → rank p.hash < rank b.hash)
    (H : uint256 → Int) (h : uint256) (d : Int) (tail : List (uint256 × Int))
    (V : Finset uint256) (inv : HeightInv blockList H ((h, d) :: tail) V) :
    HeightInv blockList
      (fun x =>
        if x ∈ (blockList.filter (fun b => b.header.hashPrevBlock == h)).map (fun b => b.hash)
        then d + 1 else H x)
      (((blockList.filter (fun b => b.header.hashPrevBlock == h)).map
        (fun c => (c.hash, d + 1))).reverse ++ tail)
      (insert h V) := by
  have hcs : ∀ c, c ∈ blockList.filter (fun b => b.header.hashPrevBlock == h) ↔
      c ∈ blockList ∧ c.header.hashPrevBlock = h := by
    intro c
    simp [List.mem_filter]
  have hhV : h ∉ V := inv.disjoint h (by simp)
  have hhreach : Reachable blockList h := inv.reach h (Or.inr (by simp))
  have hnd := inv.nodup
  rw [List.map_cons, List.nodup_cons] at hnd
  have hhtail : h ∉ tail.map Prod.fst := hnd.1
  have hmemcs : ∀ x, x ∈ (blockList.filter (fun b => b.header.hashPrevBlock == h)).map
      (fun b => b.hash) ↔ ∃ c ∈ blockList, c.header.hashPrevBlock = h ∧ c.hash = x := by
    intro x
    simp only [List.mem_map, hcs]
    constructor
    · rintro ⟨c, ⟨h1, h2⟩, h3⟩
      exact ⟨c, h1, h2, h3⟩
    · rintro ⟨c, h1, h2, h3⟩
      exact ⟨c, ⟨h1, h2⟩, h3⟩
  have hnonull : ∀ c ∈ blockList, c.header.hashPrevBlock = h → c.hash ≠ nullHash := by
    intro c hc hp
    exact child_hash_ne_nullHash blockList rank hacyclic c hc (hp ▸ hhreach)
  have hfresh : ∀ c ∈ blockList, c.header.hashPrevBlock = h →
      c.hash ∉ V ∧ c.hash ≠ h ∧ c.hash ∉ tail.map Prod.fst := by
    intro c hc hp
    have key : ¬ (c.hash ∈ V ∨ c.hash ∈ ((h, d) :: tail).map Prod.fst) := by
      intro hin
      obtain ⟨p, hpm, hph, hpv⟩ := inv.parent c.hash hin (hnonull c hc hp)
      have : p = c := List.inj_on_of_nodup_map hkeys hpm hc hph
      subst this
      rw [hp] at hpv
      exact hhV hpv
    refine ⟨fun h1 => key (Or.inl h1), fun h1 => key (Or.inr ?_), fun h1 => key (Or.inr ?_)⟩
    · simp [h1]
    · simp only [List.map_cons, List.mem_cons]
      exact Or.inr h1
  have hchild : ∀ b ∈ blockList,
      (b.hash ∈ (blockList.filter (fun b => b.header.hashPrevBlock == h)).map
        (fun b => b.hash) ↔ b.header.hashPrevBlock = h) := by
    intro b hb
    rw [hmemcs]
    constructor
    · rintro ⟨c, hc, hp, hh⟩
      have : c = b := List.inj_on_of_nodup_map hkeys hc hb hh
      rw [← this]
      exact hp
    · intro hp
      exact ⟨b, hb, hp, rfl⟩
  have hfst : ((((blockList.filter (fun b => b.header.hashPrevBlock == h)).map
      (fun c => (c.hash, d + 1))).reverse ++ tail).map Prod.fst) =
      ((blockList.filter (fun b => b.header.hashPrevBlock == h)).map
        (fun b => b.hash)).reverse ++ tail.map Prod.fst := by
    simp [List.map_reverse, Function.comp_def]
  have hmemq : ∀ x, x ∈ ((((blockList.filter (fun b => b.header.hashPrevBlock == h)).map
      (fun c => (c.hash, d + 1))).reverse ++ tail).map Prod.fst) ↔
      (∃ c ∈ blockList, c.header.hashPrevBlock = h ∧ c.hash = x) ∨ x ∈ tail.map Prod.fst := by
    intro x
    rw [hfst, List.mem_append, List.mem_reverse, hmemcs]
  have hentry : (h = nullHash → d = 0) ∧ (h ≠ nullHash → d = H h) :=
    inv.entry (h, d) (List.mem_cons_self _ _)
  constructor
  · -- nodup
    rw [hfst, List.nodup_append]
    refine ⟨?_, hnd.2, ?_⟩
    · rw [List.nodup_reverse]
      exact List.Nodup.sublist ((List.filter_sublist blockList).map _) hkeys
    · intro x hx1 hx2
      rw [List.mem_reverse, hmemcs] at hx1
      obtain ⟨c, hc, hp, hh⟩ := hx1
      exact (hfresh c hc hp).2.2 (hh ▸ hx2)
  · -- disjoint
    intro x hx
    rw [hmemq] at hx
    rw [Finset.mem_insert]
    rcases hx with ⟨c, hc, hp, hh⟩ | hx
    · rintro (h1 | h1)
      · exact (hfresh c hc hp).2.1 (hh.trans h1)
      · exact (hfresh c hc hp).1 (hh ▸ h1)
    · rintro (h1 | h1)
      · exact hhtail (h1 ▸ hx)
      · exact inv.disjoint x (by simp only [List.map_cons, List.mem_cons]; exact Or.inr hx) h1
  · -- entry
    intro e he
    rw [List.mem_append, List.mem_reverse, List.mem_map] at he
    rcases he with ⟨c, hc, rfl⟩ | he
    · have hc2 := (hcs c).mp hc
      refine ⟨fun h1 => absurd h1 (hnonull c hc2.1 hc2.2), fun _ => ?_⟩
      have : c.hash ∈ (blockList.filter (fun b => b.header.hashPrevBlock == h)).map
          (fun b => b.hash) := List.mem_map.mpr ⟨c, hc, rfl⟩
      simp only [this, if_true]
    · have h1 := inv.entry e (List.mem_cons_of_mem _ he)
      refine ⟨h1.1, fun hne => ?_⟩
      have hnot : e.1 ∉ (blockList.filter (fun b => b.header.hashPrevBlock == h)).map
          (fun b => b.hash) := by
        rw [hmemcs]
        rintro ⟨c, hc, hp, hh⟩
        exact (hfresh c hc hp).2.2 (hh ▸ List.mem_map.mpr ⟨e, he, rfl⟩)
      simp only [hnot, if_false]
      exact h1.2 hne
  · -- reach
    intro x hx
    rw [Finset.mem_insert, hmemq] at hx
    rcases hx with (h1 | h1) | ⟨c, hc, hp, hh⟩ | h1
    · exact h1 ▸ hhreach
    · exact inv.reach x (Or.inl h1)
    · rw [← hh]
      exact Reachable.step c hc (hp ▸ hhreach)
    · exact inv.reach x (Or.inr (by simp only [List.map_cons, List.mem_cons]; exact Or.inr h1))
  · -- root
    rw [Finset.mem_insert, hmemq]
    rcases inv.root with h1 | h1
    · exact Or.inl (Or.inr h1)
    · simp only [List.map_cons, List.mem_cons] at h1
      rcases h1 with h1 | h1
      · exact Or.inl (Or.inl h1)
      · exact Or.inr (Or.inr h1)
  · -- closed
    intro b hb hp
    rw [Finset.mem_insert] at hp ⊢
    rw [hmemq]
    rcases hp with hp | hp
    · exact Or.inr (Or.inl ⟨b, hb, hp, rfl⟩)
    · rcases inv.closed b hb hp with h1 | h1
      · exact Or.inl (Or.inr h1)
      · simp only [List.map_cons, List.mem_cons] at h1
        rcases h1 with h1 | h1
        · exact Or.inl (Or.inl h1)
        · exact Or.inr (Or.inr h1)
  · -- heights
    intro b hb hp
    rw [Finset.mem_insert] at hp
    have hhnot : h ∉ (blockList.filter (fun b => b.header.hashPrevBlock == h)).map
        (fun b => b.hash) := by
      rw [hmemcs]
      rintro ⟨c, hc, hcp, hh⟩
      exact (hfresh c hc hcp).2.1 hh
    by_cases hbp : b.header.hashPrevBlock = h
    · have hin := (hchild b hb).mpr hbp
      simp only [hin, if_true]
      refine ⟨fun hnull => ?_, fun hne => ?_⟩
      · rw [hentry.1 (hbp ▸ hnull)]
      · rw [hbp]
        simp only [hhnot, if_false]
        rw [hentry.2 (hbp ▸ hne)]
    · have hpv : b.header.hashPrevBlock ∈ V := by
        rcases hp with hp | hp
        · exact absurd hp hbp
        · exact hp
      have hnin : b.hash ∉ (blockList.filter (fun b => b.header.hashPrevBlock == h)).map
          (fun b => b.hash) := fun hin => hbp ((hchild b hb).mp hin)
      have hpnin : b.header.hashPrevBlock ∉
          (blockList.filter (fun b => b.header.hashPrevBlock == h)).map (fun b => b.hash) := by
        rw [hmemcs]
        rintro ⟨c, hc, hcp, hh⟩
        exact (hfresh c hc hcp).1 (hh ▸ hpv)
      simp only [hnin, hpnin, if_false]
      exact inv.heights b hb hpv
  · -- parent
    intro x hx hne
    rw [Finset.mem_insert, hmemq] at hx
    have lift : (∃ p ∈ blockList, p.hash = x ∧ p.header.hashPrevBlock ∈ V) →
        ∃ p ∈ blockList, p.hash = x ∧ p.header.hashPrevBlock ∈ insert h V := by
      rintro ⟨p, h1, h2, h3⟩
      exact ⟨p, h1, h2, Finset.mem_insert_of_mem h3⟩
    rcases hx with (h1 | h1) | ⟨c, hc, hp, hh⟩ | h1
    · exact lift (inv.parent x (Or.inr (by simp [h1])) hne)
    · exact lift (inv.parent x (Or.inl h1) hne)
    · exact ⟨c, hc, hh, by rw [hp]; exact Finset.mem_insert_self _ _⟩
    · exact lift (inv.parent x
        (Or.inr (by simp only [List.map_cons, List.mem_cons]; exact Or.inr h1)) hne)
  · -- unchanged
    intro b hb hp
    rw [Finset.mem_insert, not_or] at hp
    have hnin : b.hash ∉ (blockList.filter (fun b => b.header.hashPrevBlock == h)).map
        (fun b => b.hash) := fun hin => hp.1 ((hchild b hb).mp hin)
    simp only [hnin, if_false]
    exact inv.unchanged b hb hp.2

theorem assignHeightsLoop_of_inv {Location : Type} (blockList : List (BlockInfo Location))
    (rank : uint256 → Nat)
    (hkeys : (blockList.map (fun b => b.hash)).Nodup)
    (hacyclic : ∀ b ∈ blockList, ∀ p ∈ blockList,
      b.header.hashPrevBlock = p.hash → rank p.hash < rank b.hash) :
    ∀ (fuel : Nat) (H : uint256 → Int) (queue : List (uint256 × Int)) (V : Finset uint256),
      HeightInv blockList H queue V →
      ((insert nullHash (blockList.map (fun b => b.hash)).toFinset) \ V).card ≤ fuel →
      ∃ H1 V1, assignHeightsLoop (forwardHashes blockList) fuel (withHeights H blockList) queue =
          some (withHeights H1 blockList) ∧ HeightInv blockList H1 [] V1 := by
  intro fuel
  induction fuel with
  | zero =>
    intro H queue V inv hcard
    cases queue with
    | nil => exact ⟨H, V, by simp [assignHeightsLoop], inv⟩
    | cons e tail =>
      exfalso
      obtain ⟨h, d⟩ := e
      have hmem : h ∈ (insert nullHash (blockList.map (fun b => b.hash)).toFinset) \ V := by
        rw [Finset.mem_sdiff, Finset.mem_insert, List.mem_toFinset]
        refine ⟨?_, inv.disjoint h (by simp)⟩
        by_cases hn : h = nullHash
        · exact Or.inl hn
        · obtain ⟨p, hp, hph, _⟩ := inv.parent h (Or.inr (by simp)) hn
          exact Or.inr (List.mem_map.mpr ⟨p, hp, hph⟩)
      have := Finset.card_pos.mpr ⟨h, hmem⟩
      omega
  | succ fuel ih =>
    intro H queue V inv hcard
    cases queue with
    | nil => exact ⟨H, V, by simp [assignHeightsLoop], inv⟩
    | cons e tail =>
      obtain ⟨h, d⟩ := e
      have hmem : h ∈ (insert nullHash (blockList.map (fun b => b.hash)).toFinset) \ V := by
        rw [Finset.mem_sdiff, Finset.mem_insert, List.mem_toFinset]
        refine ⟨?_, inv.disjoint h (by simp)⟩
        by_cases hn : h = nullHash
        · exact Or.inl hn
        · obtain ⟨p, hp, hph, _⟩ := inv.parent h (Or.inr (by simp)) hn
          exact Or.inr (List.mem_map.mpr ⟨p, hp, hph⟩)
      have hlt : ((insert nullHash (blockList.map (fun b => b.hash)).toFinset) \
          insert h V).card <
          ((insert nullHash (blockList.map (fun b => b.hash)).toFinset) \ V).card := by
        apply Finset.card_lt_card
        rw [Finset.ssubset_iff_of_subset
          (Finset.sdiff_subset_sdiff (Finset.Subset.refl _) (Finset.subset_insert h V))]
        exact ⟨h, hmem, by simp⟩
      have hstep := HeightInv.step blockList rank hkeys hacyclic H h d tail V inv
      obtain ⟨H1, V1, hloop, hinv⟩ := ih _ _ _ hstep (by omega)
      refine ⟨H1, V1, ?_, hinv⟩
      simp only [assignHeightsLoop]
      rw [equalRange_forwardHashes,
        assignChildren_withHeights blockList hkeys d _
          (fun c hc => (List.mem_filter.mp hc).1) H tail]
      exact hloop

theorem HeightInv.init {Location : Type} (blockList : List (BlockInfo Location)) :
    HeightInv blockList (heightOf blockList) [(nullHash, 0)] ∅ where
  nodup := by simp
  disjoint := by simp
  entry := by
    intro e he
    simp only [List.mem_singleton] at he
    subst he
    simp
  reach := by
    intro h hh
    simp only [Finset.not_mem_empty, List.map_cons, List.map_nil, List.mem_singleton,
      false_or] at hh
    rw [hh]
    exact Reachable.root
  root := Or.inr (by simp)
  closed := by simp
  heights := by simp
  parent := by
    intro h hh hne
    simp only [Finset.not_mem_empty, List.map_cons, List.map_nil, List.mem_singleton,
      false_or] at hh
    exact absurd hh hne
  unchanged := by
    intro b _ _
    rfl

theorem HeightInv.visited_iff_reachable {Location : Type}
    (blockList : List (BlockInfo Location)) (H : uint256 → Int) (V : Finset uint256)
    (inv : HeightInv blockList H [] V) (h : uint256) : h ∈ V ↔ Reachable blockList h := by
  constructor
  · intro hv
    exact inv.reach h (Or.inl hv)
  · intro hr
    induction hr with
    | root =>
      rcases inv.root with h1 | h1
      · exact h1
      · simp at h1
    | step b hb _ ih =>
      rcases inv.closed b hb ih with h1 | h1
      · exact h1
      · simp at h1

/-- C7: over a block map with unique hashes whose prevHash links contain no cycle (ranks decrease
along them), the height-assignment pass terminates once it is given one round more than there are
blocks; it changes nothing but heights; every block reachable from the null hash has height 1
when its prevHash is the null hash (the root, of height 0) and otherwise the height of its parent
plus 1; every block not reachable keeps the height it had, which is -1 for a newly constructed
block. -/
theorem assignHeights_forest {Location : Type} (blockList : List (BlockInfo Location))
    (rank : uint256 → Nat) (fuel : Nat)
    (hkeys : (blockList.map (fun b => b.hash)).Nodup)
    (hacyclic : ∀ b ∈ blockList, ∀ p ∈ blockList,
      b.header.hashPrevBlock = p.hash → rank p.hash < rank b.hash)
    (hfuel : blockList.length + 1 ≤ fuel) :
    (∃ H : uint256 → Int, assignHeights blockList fuel = some (withHeights H blockList) ∧
      ∀ b ∈ blockList,
        (Reachable blockList b.header.hashPrevBlock →
          (b.header.hashPrevBlock = nullHash → H b.hash = 0 + 1) ∧
          (b.header.hashPrevBlock ≠ nullHash →
            ∀ p ∈ blockList, p.hash = b.header.hashPrevBlock → H b.hash = H p.hash + 1)) ∧
        (¬ Reachable blockList b.header.hashPrevBlock → H b.hash = b.height)) ∧
      ∀ (hash : uint256) (h : CBlockHeader) (size numTxes inputCount outputCount : Nat)
        (location : Location),
        (BlockInfo.new hash h size numTxes inputCount outputCount location).height = -1 := by
  refine ⟨?_, fun _ _ _ _ _ _ _ => rfl⟩
  have hcard : ((insert nullHash (blockList.map (fun b => b.hash)).toFinset) \ ∅).card ≤
      fuel := by
    rw [Finset.sdiff_empty]
    have h1 := Finset.card_insert_le nullHash (blockList.map (fun b => b.hash)).toFinset
    have h2 := List.toFinset_card_le (blockList.map (fun b => b.hash))
    rw [List.length_map] at h2
    omega
  obtain ⟨H1, V1, hloop, hinv⟩ := assignHeightsLoop_of_inv blockList rank hkeys hacyclic fuel
    (heightOf blockList) [(nullHash, 0)] ∅ (HeightInv.init blockList) hcard
  rw [withHeights_heightOf blockList hkeys] at hloop
  refine ⟨H1, hloop, ?_⟩
  intro b hb
  constructor
  · intro hr
    have hv := (hinv.visited_iff_reachable blockList H1 V1 _).mpr hr
    have hh := hinv.heights b hb hv
    refine ⟨hh.1, fun hne p _ hph => ?_⟩
    rw [hph]
    exact hh.2 hne
  · intro hr
    have hv : b.header.hashPrevBlock ∉ V1 :=
      fun hv => hr ((hinv.visited_iff_reachable blockList H1 V1 _).mp hv)
    rw [hinv.unchanged b hb hv]
    simp [heightOf, findBlock_eq_self blockList hkeys b hb]

/-- C7, witness: on the map `11 ← 12` with the orphaned side chain `21 ← 22` (root `20` missing),
all blocks starting at height -1, the pass gives `11` height 1 and `12` height 2 and leaves `21`
and `22` at -1. -/
theorem assignHeights_forest_witness :
    assignHeights orphanedBlockList 5 =
        some [sampleBlock 12 11 2 1, sampleBlock 22 21 (-1) 1, sampleBlock 11 0 1 1,
          sampleBlock 21 20 (-1) 1] ∧
      ((∃ H : uint256 → Int,
          assignHeights orphanedBlockList 5 = some (withHeights H orphanedBlockList) ∧
          ∀ b ∈ orphanedBlockList,
            (Reachable orphanedBlockList b.header.hashPrevBlock →
              (b.header.hashPrevBlock = nullHash → H b.hash = 0 + 1) ∧
              (b.header.hashPrevBlock ≠ nullHash →
                ∀ p ∈ orphanedBlockList, p.hash = b.header.hashPrevBlock →
                  H b.hash = H p.hash + 1)) ∧
            (¬ Reachable orphanedBlockList b.header.hashPrevBlock → H b.hash = b.height)) ∧
        ∀ (hash : uint256) (h : CBlockHeader) (size numTxes inputCount outputCount : Nat)
          (location : FileLocation),
          (BlockInfo.new hash h size numTxes inputCount outputCount location).height = -1) :=
  ⟨by decide,
    assignHeights_forest orphanedBlockList (fun h => h) 5 (by decide) (by decide) (by decide)⟩

/-- The heights the chain index stores are `-1` or more: a block is constructed with height `-1`
(`BlockInfoBase::BlockInfoBase`), and the height pass, run on blocks with such heights, leaves
every block with a height of `-1` or more (a block it reaches gets the height of its parent plus
1, the root counting as 0, and the other blocks keep theirs). -/
theorem assignHeights_heights_ge {Location : Type} (blockList : List (BlockInfo Location))
    (rank : uint256 → Nat) (fuel : Nat)
    (hkeys : (blockList.map (fun b => b.hash)).Nodup)
    (hacyclic : ∀ b ∈ blockList, ∀ p ∈ blockList,
      b.header.hashPrevBlock = p.hash → rank p.hash < rank b.hash)
    (hfuel : blockList.length + 1 ≤ fuel)
    (hheights : ∀ b ∈ blockList, -1 ≤ b.height) :
    ∃ blockList1, assignHeights blockList fuel = some blockList1 ∧
      ∀ b ∈ blockList1, -1 ≤ b.height := by
  have hcard : ((insert nullHash (blockList.map (fun b => b.hash)).toFinset) \ ∅).card ≤
      fuel := by
    rw [Finset.sdiff_empty]
    have h1 := Finset.card_insert_le nullHash (blockList.map (fun b => b.hash)).toFinset
    have h2 := List.toFinset_card_le (blockList.map (fun b => b.hash))
    rw [List.length_map] at h2
    omega
  obtain ⟨H1, V1, hloop, hinv⟩ := assignHeightsLoop_of_inv blockList rank hkeys hacyclic fuel
    (heightOf blockList) [(nullHash, 0)] ∅ (HeightInv.init blockList) hcard
  rw [withHeights_heightOf blockList hkeys] at hloop
  have hge : ∀ n, ∀ b ∈ blockList, rank b.hash < n → -1 ≤ H1 b.hash := by
    intro n
    induction n with
    | zero =>
      intro b _ h
      omega
    | succ n ih =>
      intro b hb hr
      by_cases hv : b.header.hashPrevBlock ∈ V1
      · have hh := hinv.heights b hb hv
        by_cases hnull : b.header.hashPrevBlock = nullHash
        · rw [hh.1 hnull]
          omega
        · obtain ⟨p, hp, hph, _⟩ := hinv.parent _ (Or.inl hv) hnull
          have hrank := hacyclic b hb p hp hph.symm
          have := ih p hp (by omega)
          rw [hh.2 hnull, ← hph]
          omega
      · rw [hinv.unchanged b hb hv]
        simp only [heightOf, findBlock_eq_self blockList hkeys b hb]
        exact hheights b hb
  refine ⟨withHeights H1 blockList, hloop, ?_⟩
  intro b1 hb1
  simp only [withHeights, List.mem_map] at hb1
  obtain ⟨b, hb, rfl⟩ := hb1
  exact hge (rank b.hash + 1) b hb (by omega)

/-! ### Stage 1: file mode -/

theorem popFinished_fields (st : BlockProcessor) :
    (popFinished st).currentTxNum = st.currentTxNum ∧
      (popFinished st).hash_transaction_queue = st.hash_transaction_queue ∧
      (popFinished st).blockFile = st.blockFile := by
  unfold popFinished
  split <;> simp

theorem detectSegwit_eq_find (src : BlockFiles) (nFile : Int) :
    ∀ (count offset : Nat) (flag : Bool), detectSegwit src nFile count offset = some flag →
      flag = match (firstPassTransactions src nFile count offset).find? hasNullInput with
        | some tx => (checkSegwit tx).getD false
        | none => false := by
  intro count
  induction count with
  | zero =>
    intro offset flag h
    simp only [detectSegwit, Option.some.injEq] at h
    simp [firstPassTransactions, ← h]
  | succ count ih =>
    intro offset flag h
    simp only [detectSegwit, firstPassTransactions] at h ⊢
    cases hp : src.parse nFile offset false with
    | none => simp [hp] at h
    | some r =>
      obtain ⟨parsed, offset1⟩ := r
      simp only [hp] at h ⊢
      by_cases hn : hasNullInput (parsed.load 0 0 false) = true
      · simp only [hn, if_true] at h
        simp [List.find?_cons, hn, h]
      · simp only [hn, Bool.false_eq_true, if_false] at h
        have hn2 : hasNullInput (parsed.load 0 0 false) = false := by simpa using hn
        rw [List.find?_cons, hn2]
        exact ih offset1 flag h

theorem detectSegwit_checked (src : BlockFiles) (nFile : Int) :
    ∀ (count offset : Nat) (flag : Bool), detectSegwit src nFile count offset = some flag →
      ∀ tx, (firstPassTransactions src nFile count offset).find? hasNullInput = some tx →
        checkSegwit tx = some flag := by
  intro count
  induction count with
  | zero =>
    intro offset flag _ tx htx
    simp [firstPassTransactions] at htx
  | succ count ih =>
    intro offset flag h tx htx
    simp only [detectSegwit, firstPassTransactions] at h htx
    cases hp : src.parse nFile offset false with
    | none => simp [hp] at h
    | some r =>
      obtain ⟨parsed, offset1⟩ := r
      simp only [hp] at h htx
      by_cases hn : hasNullInput (parsed.load 0 0 false) = true
      · simp only [hn, if_true] at h
        simp only [List.find?_cons, hn, Option.some.injEq] at htx
        rw [← htx]
        exact h
      · simp only [hn, Bool.false_eq_true, if_false] at h
        have hn2 : hasNullInput (parsed.load 0 0 false) = false := by simpa using hn
        rw [List.find?_cons, hn2] at htx
        exact ih offset1 flag h tx htx

theorem emitTransaction_fields (st : BlockProcessor) (tx : RawTransaction) :
    (emitTransaction st tx).currentTxNum = (st.currentTxNum + 1) % 4294967296 ∧
      (∃ tx2, (emitTransaction st tx).hash_transaction_queue =
          st.hash_transaction_queue ++ [tx2] ∧
        tx2.txNum = tx.txNum ∧ tx2.isSegwit = tx.isSegwit ∧ tx2.blockHeight = tx.blockHeight) ∧
      (emitTransaction st tx).blockFile = st.blockFile := by
  refine ⟨?_, ?_, ?_⟩
  · simp only [emitTransaction, (popFinished_fields _).1]
    by_cases hn : hasNullInput tx = true <;> simp [hn]
  · simp only [emitTransaction, (popFinished_fields _).2.1]
    by_cases hn : hasNullInput tx = true
    · exact ⟨{ tx with inputs := [] }, by simp [hn], rfl, rfl, rfl⟩
    · exact ⟨tx, by simp [hn], rfl, rfl, rfl⟩
  · simp only [emitTransaction, (popFinished_fields _).2.2]
    by_cases hn : hasNullInput tx = true <;> simp [hn]

theorem range_map_shift (cur n : Nat) :
    (List.range (n + 1)).map (fun k => (cur + k) % 4294967296) =
      (cur % 4294967296) :: (List.range n).map (fun k => ((cur + 1) % 4294967296 + k) % 4294967296) := by
  rw [List.range_succ_eq_map, List.map_cons, List.map_map]
  congr 1
  apply List.map_congr_left
  intro k _
  simp only [Function.comp]
  omega

theorem readTransactions_spec (src : BlockFiles) (nFile : Int) (blockHeight : Nat)
    (segwit : Bool) :
    ∀ (count offset : Nat) (st st1 : BlockProcessor),
      readTransactions src nFile blockHeight segwit count offset st = some st1 →
      st.currentTxNum < 4294967296 →
      ∃ group, st1.hash_transaction_queue = st.hash_transaction_queue ++ group ∧
        group.length = count ∧
        group.map (fun t => t.txNum) =
          (List.range count).map (fun k => (st.currentTxNum + k) % 4294967296) ∧
        (∀ t ∈ group, t.isSegwit = segwit ∧ t.blockHeight = blockHeight) ∧
        st1.currentTxNum = (st.currentTxNum + count) % 4294967296 ∧
        st1.blockFile = st.blockFile := by
  intro count
  induction count with
  | zero =>
    intro offset st st1 h hcur
    simp only [readTransactions, Option.some.injEq] at h
    subst h
    exact ⟨[], by simp, rfl, by simp, by simp,
      by rw [Nat.add_zero, Nat.mod_eq_of_lt hcur], rfl⟩
  | succ count ih =>
    intro offset st st1 h hcur
    simp only [readTransactions] at h
    cases hp : src.parse nFile offset segwit with
    | none => simp [hp] at h
    | some r =>
      obtain ⟨parsed, offset1⟩ := r
      simp only [hp] at h
      obtain ⟨hc, ⟨tx2, hq, htx, hsw, hbh⟩, hbf⟩ :=
        emitTransaction_fields st (parsed.load st.currentTxNum blockHeight segwit)
      obtain ⟨group, hq1, hlen, hnums, hall, hcur1, hbf1⟩ :=
        ih offset1 _ st1 h (by rw [hc]; exact Nat.mod_lt _ (by norm_num))
      refine ⟨tx2 :: group, ?_, by simp [hlen], ?_, ?_, ?_, ?_⟩
      · rw [hq1, hq]
        simp
      · rw [range_map_shift, List.map_cons, hnums, hc, htx, Nat.mod_eq_of_lt hcur]
        rfl
      · intro t ht
        rcases List.mem_cons.mp ht with rfl | ht
        · exact ⟨by rw [hsw]; rfl, by rw [hbh]; rfl⟩
        · exact hall t ht
      · rw [hcur1, hc]
        omega
      · rw [hbf1, hbf]

theorem openBlockFile_fields (src : BlockFiles) (table : List (Int × Nat))
    (st st1 : BlockProcessor) (block : BlockInfo FileLocation)
    (h : openBlockFile src table st block = some st1) :
    st1.currentTxNum = st.currentTxNum ∧
      st1.hash_transaction_queue = st.hash_transaction_queue ∧
      st1.blockFile = st.blockFile := by
  unfold openBlockFile at h
  split at h
  · simp only [Option.some.injEq] at h
    subst h
    exact ⟨rfl, rfl, rfl⟩
  · split at h
    · simp only [Option.some.injEq] at h
      subst h
      exact ⟨rfl, rfl, rfl⟩
    · simp at h

theorem readOpenedBlock_spec (src : BlockFiles) (st st1 : BlockProcessor)
    (block : BlockInfo FileLocation) (h : readOpenedBlock src st block = some st1)
    (hcur : st.currentTxNum < 4294967296) :
    ∃ b group, st1.blockFile = st.blockFile ++ [b] ∧
      st1.hash_transaction_queue = st.hash_transaction_queue ++ group ∧
      BlockRead src st.currentTxNum block b group ∧
      st1.currentTxNum = (st.currentTxNum + b.numTxes) % 4294967296 := by
  unfold readOpenedBlock at h
  cases hv : src.readVariableLengthInteger block.location.nFile
      (block.location.nDataPos + 80) with
  | none => simp [hv] at h
  | some r =>
    obtain ⟨count, firstTxOffset⟩ := r
    simp only [hv] at h
    cases hd : detectSegwit src block.location.nFile (count % 4294967296) firstTxOffset with
    | none => simp [hd] at h
    | some segwit =>
      simp only [hd] at h
      cases hr : readTransactions src block.location.nFile
          (block.height % 4294967296).toNat segwit (count % 4294967296) firstTxOffset
          (popFinished st) with
      | none => simp [hr] at h
      | some st3 =>
        simp only [hr, Option.some.injEq] at h
        subst h
        obtain ⟨hp1, hp2, hp3⟩ := popFinished_fields st
        obtain ⟨group, hq, hlen, hnums, hall, hcur3, hbf⟩ :=
          readTransactions_spec src _ _ _ _ _ _ st3 hr (by rw [hp1]; exact hcur)
        rw [hp1] at hnums hcur3
        rw [hp2] at hq
        rw [hp3] at hbf
        refine ⟨_, group, by rw [← hbf], hq, ?_, ?_⟩
        · have hflag : segwit = blockSegwitFlag src block := by
            simp only [blockSegwitFlag, hv]
            exact detectSegwit_eq_find src _ _ _ _ hd
          refine ⟨rfl, rfl, rfl, hlen, hnums, ?_, ⟨count, firstTxOffset, hv, rfl, ?_⟩⟩
          · intro t ht
            refine ⟨?_, (hall t ht).2⟩
            rw [(hall t ht).1]
            exact hflag
          · intro tx htx
            rw [← hflag]
            exact detectSegwit_checked src _ _ _ _ hd tx htx
        · exact hcur3

theorem readBlock_false (src : BlockFiles) (table : List (Int × Nat)) (st st1 : BlockProcessor)
    (block : BlockInfo FileLocation) (h : readBlock src table st block = some (false, st1)) :
    st1 = st := by
  unfold readBlock at h
  cases ho : openBlockFile src table st block with
  | none =>
    simp only [ho, Option.some.injEq, Prod.mk.injEq, true_and] at h
    exact h.symm
  | some st2 =>
    simp only [ho] at h
    cases hr : readOpenedBlock src st2 block with
    | none => simp [hr] at h
    | some st3 => simp [hr] at h

theorem readBlock_true (src : BlockFiles) (table : List (Int × Nat)) (st st1 : BlockProcessor)
    (block : BlockInfo FileLocation) (h : readBlock src table st block = some (true, st1))
    (hcur : st.currentTxNum < 4294967296) :
    ∃ b group, st1.blockFile = st.blockFile ++ [b] ∧
      st1.hash_transaction_queue = st.hash_transaction_queue ++ group ∧
      BlockRead src st.currentTxNum block b group ∧
      st1.currentTxNum = (st.currentTxNum + b.numTxes) % 4294967296 := by
  unfold readBlock at h
  cases ho : openBlockFile src table st block with
  | none => simp [ho] at h
  | some st2 =>
    simp only [ho] at h
    cases hr : readOpenedBlock src st2 block with
    | none => simp [hr] at h
    | some st3 =>
      simp only [hr, Option.some.injEq, Prod.mk.injEq, true_and] at h
      subst h
      obtain ⟨h1, h2, h3⟩ := openBlockFile_fields src table st st2 block ho
      have := readOpenedBlock_spec src st2 st3 block hr (by rw [h1]; exact hcur)
      rw [h1, h2, h3] at this
      exact this

theorem readBlocks_spec (src : BlockFiles) (table : List (Int × Nat)) :
    ∀ (blocks : List (BlockInfo FileLocation)) (st st1 : BlockProcessor),
      readBlocks src table st blocks = some st1 → st.currentTxNum < 4294967296 →
      ∃ processed written groups, processed <+: blocks ∧
        st1.blockFile = st.blockFile ++ written ∧
        st1.hash_transaction_queue = st.hash_transaction_queue ++ groups.flatten ∧
        ReadRun src st.currentTxNum processed written groups ∧
        st1.currentTxNum =
          (st.currentTxNum + (written.map (fun b => b.numTxes)).sum) % 4294967296 := by
  intro blocks
  induction blocks with
  | nil =>
    intro st st1 h hcur
    simp only [readBlocks, Option.some.injEq] at h
    subst h
    exact ⟨[], [], [], List.prefix_refl _, by simp, by simp, trivial,
      by simp [Nat.mod_eq_of_lt hcur]⟩
  | cons block rest ih =>
    intro st st1 h hcur
    simp only [readBlocks] at h
    cases hb : readBlock src table st block with
    | none => simp [hb] at h
    | some r =>
      obtain ⟨continued, st2⟩ := r
      cases continued with
      | false =>
        simp only [hb, Option.some.injEq] at h
        subst h
        rw [readBlock_false src table st st2 block hb]
        exact ⟨[], [], [], List.nil_prefix, by simp, by simp, trivial,
          by simp [Nat.mod_eq_of_lt hcur]⟩
      | true =>
        simp only [hb] at h
        obtain ⟨b, group, hbf, hq, hread, hcur2⟩ := readBlock_true src table st st2 block hb hcur
        obtain ⟨processed, written, groups, hpre, hbf1, hq1, hrun, hcur1⟩ :=
          ih st2 st1 h (by rw [hcur2]; exact Nat.mod_lt _ (by norm_num))
        refine ⟨block :: processed, b :: written, group :: groups, ?_, ?_, ?_, ?_, ?_⟩
        · obtain ⟨t, ht⟩ := hpre
          exact ⟨t, by rw [← ht]; rfl⟩
        · rw [hbf1, hbf]
          simp
        · rw [hq1, hq]
          simp
        · rw [hcur2] at hrun
          exact ⟨hread, hrun⟩
        · rw [hcur1, hcur2]
          simp only [List.map_cons, List.sum_cons]
          omega

theorem readNewBlocks_spec (src : BlockFiles) (blocks : List (BlockInfo FileLocation))
    (st st1 : BlockProcessor) (h : readNewBlocks src st blocks = some st1)
    (hcur : st.currentTxNum < 4294967296) :
    ∃ processed written groups, processed <+: blocks ∧
      st1.blockFile = st.blockFile ++ written ∧
      st1.hash_transaction_queue = st.hash_transaction_queue ++ groups.flatten ∧
      ReadRun src st.currentTxNum processed written groups ∧
      st1.currentTxNum =
        (st.currentTxNum + (written.map (fun b => b.numTxes)).sum) % 4294967296 := by
  unfold readNewBlocks at h
  cases hr : readBlocks src (lastTxRequired st.currentTxNum blocks [])
      { st with coinbase := [] } blocks with
  | none => simp [hr] at h
  | some st2 =>
    simp only [hr, Option.some.injEq] at h
    subst h
    exact readBlocks_spec src _ blocks { st with coinbase := [] } st2 hr hcur

theorem ReadRun.recordsFrom (src : BlockFiles) :
    ∀ (processed : List (BlockInfo FileLocation)) (written : List Block)
      (groups : List (List RawTransaction)) (cur : Nat),
      ReadRun src cur processed written groups → RecordsFrom cur written := by
  intro processed
  induction processed with
  | nil =>
    intro written groups cur h
    cases written with
    | nil => trivial
    | cons b w => cases groups <;> simp [ReadRun] at h
  | cons block rest ih =>
    intro written groups cur h
    cases written with
    | nil => trivial
    | cons b w =>
      cases groups with
      | nil => simp [ReadRun] at h
      | cons g gs =>
        simp only [ReadRun] at h
        exact ⟨h.1.1, ih w gs _ h.2⟩

theorem RecordsFrom.chain :
    ∀ (written : List Block) (cur : Nat), RecordsFrom cur written →
      (∀ b, written.head? = some b → b.firstTxIndex = cur) ∧
      List.Chain' (fun b b1 => (b.firstTxIndex + b.numTxes) % 4294967296 = b1.firstTxIndex)
        written ∧
      (cur + (written.map (fun b => b.numTxes)).sum < 4294967296 →
        List.Chain' (fun b b1 => b.firstTxIndex + b.numTxes = b1.firstTxIndex) written) := by
  intro written
  induction written with
  | nil =>
    intro cur _
    exact ⟨by simp, List.chain'_nil, fun _ => List.chain'_nil⟩
  | cons b rest ih =>
    intro cur h
    simp only [RecordsFrom] at h
    obtain ⟨h1, h2, h3⟩ := ih _ h.2
    refine ⟨?_, ?_, ?_⟩
    · intro b1 hb1
      simp only [List.head?_cons, Option.some.injEq] at hb1
      rw [← hb1]
      exact h.1
    · apply List.Chain'.cons' h2
      intro y hy
      rw [h.1]
      exact (h1 y hy).symm
    · intro hbound
      simp only [List.map_cons, List.sum_cons] at hbound
      have hmod : (cur + b.numTxes) % 4294967296 = cur + b.numTxes :=
        Nat.mod_eq_of_lt (by omega)
      apply List.Chain'.cons' (h3 (by rw [hmod]; omega))
      intro y hy
      rw [h.1, h1 y hy, hmod]

/-! ### Stage 1: RPC mode -/

theorem popBuffer_fields (st : BlockProcessor) :
    (popBuffer st).2.currentTxNum = st.currentTxNum ∧
      (popBuffer st).2.blockFile = st.blockFile := by
  unfold popBuffer
  split <;> simp

theorem emitTransactionRPC_fields (st : BlockProcessor) (tx : RawTransaction) :
    (emitTransactionRPC st tx).currentTxNum = (st.currentTxNum + 1) % 4294967296 ∧
      (emitTransactionRPC st tx).blockFile = st.blockFile := by
  unfold emitTransactionRPC
  by_cases hn : hasNullInput tx = true <;> simp [hn]

theorem readTransactionsRPC_spec (bapi : BitcoinAPI) (block : BlockInfo RPCLocation)
    (segwit : Bool) :
    ∀ (count i : Nat) (st st1 : BlockProcessor),
      readTransactionsRPC bapi block segwit count i st = some st1 →
      st1.currentTxNum % 4294967296 = (st.currentTxNum + count) % 4294967296 ∧
        st1.blockFile = st.blockFile := by
  intro count
  induction count with
  | zero =>
    intro i st st1 h
    simp only [readTransactionsRPC, Option.some.injEq] at h
    subst h
    simp
  | succ count ih =>
    intro i st st1 h
    simp only [readTransactionsRPC] at h
    cases hl : loadTxRPC bapi (popBuffer st).1 (popBuffer st).2.currentTxNum block i segwit with
    | none => simp [hl] at h
    | some tx =>
      simp only [hl] at h
      obtain ⟨h1, h2⟩ := ih _ _ _ h
      obtain ⟨h3, h4⟩ := emitTransactionRPC_fields (popBuffer st).2 tx
      obtain ⟨h5, h6⟩ := popBuffer_fields st
      rw [h3, h5] at h1
      rw [h4, h6] at h2
      refine ⟨?_, h2⟩
      rw [h1]
      omega

theorem readTransactionsRPC_lt (bapi : BitcoinAPI) (block : BlockInfo RPCLocation)
    (segwit : Bool) :
    ∀ (count i : Nat) (st st1 : BlockProcessor),
      readTransactionsRPC bapi block segwit count i st = some st1 →
      st.currentTxNum < 4294967296 → st1.currentTxNum < 4294967296 := by
  intro count
  induction count with
  | zero =>
    intro i st st1 h hcur
    simp only [readTransactionsRPC, Option.some.injEq] at h
    subst h
    exact hcur
  | succ count ih =>
    intro i st st1 h _
    simp only [readTransactionsRPC] at h
    cases hl : loadTxRPC bapi (popBuffer st).1 (popBuffer st).2.currentTxNum block i segwit with
    | none => simp [hl] at h
    | some tx =>
      simp only [hl] at h
      apply ih _ _ _ h
      rw [(emitTransactionRPC_fields _ _).1]
      exact Nat.mod_lt _ (by norm_num)

theorem readBlockRPC_spec (bapi : BitcoinAPI) (st st1 : BlockProcessor)
    (block : BlockInfo RPCLocation) (h : readBlockRPC bapi st block = some st1)
    (hcur : st.currentTxNum < 4294967296) :
    ∃ b, st1.blockFile = st.blockFile ++ [b] ∧ b.firstTxIndex = st.currentTxNum ∧
      st1.currentTxNum = (st.currentTxNum + b.numTxes) % 4294967296 := by
  unfold readBlockRPC at h
  simp only at h
  cases hl : loadTxRPC bapi (popBuffer st).1 0 block 0 false with
  | none => simp [hl] at h
  | some tx =>
    simp only [hl] at h
    cases hs : checkSegwit tx with
    | none => simp [hs] at h
    | some segwit =>
      simp only [hs] at h
      cases hr : readTransactionsRPC bapi block segwit
          (block.location.tx.length % 4294967296) 0 (popBuffer st).2 with
      | none => simp [hr] at h
      | some st2 =>
        simp only [hr, Option.some.injEq] at h
        subst h
        obtain ⟨h1, h2⟩ := readTransactionsRPC_spec bapi block _ _ _ _ _ hr
        obtain ⟨h5, h6⟩ := popBuffer_fields st
        have hlt := readTransactionsRPC_lt bapi block _ _ _ _ _ hr (by rw [h5]; exact hcur)
        rw [h5] at h1
        rw [h6] at h2
        refine ⟨_, by rw [← h2], by simp [getBlock, h5], ?_⟩
        simp only [getBlock]
        rw [← h1, Nat.mod_eq_of_lt hlt]

theorem readBlocksRPC_spec (bapi : BitcoinAPI) :
    ∀ (blocks : List (BlockInfo RPCLocation)) (st st1 : BlockProcessor),
      readBlocksRPC bapi st blocks = some st1 → st.currentTxNum < 4294967296 →
      ∃ written, st1.blockFile = st.blockFile ++ written ∧
        written.length = blocks.length ∧ RecordsFrom st.currentTxNum written := by
  intro blocks
  induction blocks with
  | nil =>
    intro st st1 h _
    simp only [readBlocksRPC, Option.some.injEq] at h
    subst h
    exact ⟨[], by simp, rfl, trivial⟩
  | cons block rest ih =>
    intro st st1 h hcur
    simp only [readBlocksRPC] at h
    cases hb : readBlockRPC bapi st block with
    | none => simp [hb] at h
    | some st2 =>
      simp only [hb] at h
      obtain ⟨b, hbf, hfirst, hcur2⟩ := readBlockRPC_spec bapi st st2 block hb hcur
      obtain ⟨written, hbf1, hlen, hrec⟩ :=
        ih st2 st1 h (by rw [hcur2]; exact Nat.mod_lt _ (by norm_num))
      refine ⟨b :: written, ?_, by simp [hlen], hfirst, ?_⟩
      · rw [hbf1, hbf]
        simp
      · rw [hcur2] at hrec
        exact hrec

/-! ### Stage 1: the claims -/

/-- C3 (as amended): for every list of blocks given to `readNewBlocks`, in file mode and in RPC
mode, that is read without error from a 32-bit `currentTxNum`, the first Block record written has
`firstTxIndex` equal to the transaction count the run starts from (`startingTxCount` for a new
processor), and for every two consecutive written records `b` and `b'`,
`b.firstTxIndex + b.txCount == b'.firstTxIndex` in 32-bit arithmetic, and in plain arithmetic
whenever the starting count plus the transactions counted stays below `2^32`. -/
theorem readNewBlocks_records_contiguous (src : BlockFiles) (bapi : BitcoinAPI) :
    (∀ (st st1 : BlockProcessor) (blocks : List (BlockInfo FileLocation)),
      readNewBlocks src st blocks = some st1 → st.currentTxNum < 4294967296 →
      ∃ written, st1.blockFile = st.blockFile ++ written ∧
        ContiguousRecords st.currentTxNum written) ∧
    (∀ (st st1 : BlockProcessor) (blocks : List (BlockInfo RPCLocation)),
      readNewBlocksRPC bapi st blocks = some st1 → st.currentTxNum < 4294967296 →
      ∃ written, st1.blockFile = st.blockFile ++ written ∧
        ContiguousRecords st.currentTxNum written) ∧
    (∀ (startingTxCount totalTxCount maxBlockHeight : Nat)
      (pops : List (Option RawTransaction)),
      (BlockProcessor.new startingTxCount totalTxCount maxBlockHeight pops).currentTxNum =
        startingTxCount) := by
  refine ⟨?_, ?_, fun _ _ _ _ => rfl⟩
  · intro st st1 blocks h hcur
    obtain ⟨processed, written, groups, _, hbf, _, hrun, _⟩ :=
      readNewBlocks_spec src blocks st st1 h hcur
    exact ⟨written, hbf,
      RecordsFrom.chain written _ (ReadRun.recordsFrom src processed written groups _ hrun)⟩
  · intro st st1 blocks h hcur
    unfold readNewBlocksRPC at h
    cases hr : readBlocksRPC bapi { st with coinbase := [] } blocks with
    | none => simp [hr] at h
    | some st2 =>
      simp only [hr, Option.some.injEq] at h
      subst h
      obtain ⟨written, hbf, _, hrec⟩ :=
        readBlocksRPC_spec bapi blocks { st with coinbase := [] } st2 hr hcur
      exact ⟨written, hbf, RecordsFrom.chain written _ hrec⟩

/-- C3, witness: the two blocks of the sample files read by a new processor starting at 10 give
the records `(10, 2)` and `(12, 2)`. -/
theorem readNewBlocks_records_contiguous_witness :
    ∃ st1, readNewBlocks sampleFiles (BlockProcessor.new 10 4 2 []) sampleChain = some st1 ∧
      (BlockProcessor.new 10 4 2 []).currentTxNum < 4294967296 ∧
      st1.blockFile.map (fun b => (b.firstTxIndex, b.numTxes)) = [(10, 2), (12, 2)] ∧
      ∃ written, st1.blockFile = (BlockProcessor.new 10 4 2 []).blockFile ++ written ∧
        ContiguousRecords (BlockProcessor.new 10 4 2 []).currentTxNum written :=
  ⟨_, rfl, by decide, by decide,
    (readNewBlocks_records_contiguous sampleFiles
      { getrawtransaction := fun _ => none,
        scriptOutput := fun _ => { type := AddressType.NONSTANDARD, fullData := [] } }).1
      (BlockProcessor.new 10 4 2 []) _ sampleChain rfl (by decide)⟩

/-- C3, counterexample to the claim as stated (plain arithmetic): a processor starting at
`2^32 - 1` writes the records `(4294967295, 2)` and `(1, 2)`, and `4294967295 + 2` is not `1`. -/
theorem readNewBlocks_records_wrap_around :
    (readNewBlocks sampleFiles (BlockProcessor.new 4294967295 4 2 []) sampleChain).map
        (fun st => st.blockFile.map (fun b => (b.firstTxIndex, b.numTxes))) =
        some [(4294967295, 2), (1, 2)] ∧
      ∃ st1 b b1, readNewBlocks sampleFiles (BlockProcessor.new 4294967295 4 2 []) sampleChain =
          some st1 ∧
        st1.blockFile = [b, b1] ∧ b.firstTxIndex + b.numTxes ≠ b1.firstTxIndex := by
  refine ⟨by decide, _, _, _, rfl, rfl, by decide⟩

theorem ReadRun.segwit (src : BlockFiles) :
    ∀ (processed : List (BlockInfo FileLocation)) (written : List Block)
      (groups : List (List RawTransaction)) (cur : Nat),
      ReadRun src cur processed written groups →
      List.Forall₂ (fun block group =>
        (∃ count firstTxOffset,
          src.readVariableLengthInteger block.location.nFile (block.location.nDataPos + 80) =
            some (count, firstTxOffset) ∧ group.length = count % 4294967296 ∧
          ∀ tx, (firstPassTransactions src block.location.nFile (count % 4294967296)
              firstTxOffset).find? hasNullInput = some tx →
            checkSegwit tx = some (blockSegwitFlag src block)) ∧
        ∀ t ∈ group, t.isSegwit = blockSegwitFlag src block) processed groups := by
  intro processed
  induction processed with
  | nil =>
    intro written groups cur h
    cases written with
    | nil =>
      cases groups with
      | nil => exact List.Forall₂.nil
      | cons g gs => simp [ReadRun] at h
    | cons b w => cases groups <;> simp [ReadRun] at h
  | cons block rest ih =>
    intro written groups cur h
    cases written with
    | nil => cases groups <;> simp [ReadRun] at h
    | cons b w =>
      cases groups with
      | nil => simp [ReadRun] at h
      | cons g gs =>
        simp only [ReadRun] at h
        obtain ⟨_, _, _, hlen, _, hall, count, off, hv, hcount, hcheck⟩ := h.1
        exact List.Forall₂.cons
          ⟨⟨count, off, hv, by rw [hlen, hcount], hcheck⟩, fun t ht => (hall t ht).1⟩
          (ih w gs _ h.2)

/-- C8, the code at the failing input: on an empty store, the height pass of file mode gives the
genesis block (prevHash null) height 1 and its child height 2, `generateChain(0)` returns them in
chain order, and `readNewBlocks` writes Block records whose height fields are 1 and 2 at the
0-based positions 0 and 1 of the block file. -/
theorem file_mode_block_records_height_is_position_plus_one :
    ∃ blockList chain st1, assignHeights scannedBlockList 3 = some blockList ∧
      generateChain blockList 2 0 = some chain ∧
      chain.map (fun b => (b.hash, b.height)) = [(11, 1), (12, 2)] ∧
      readNewBlocks sampleFiles (BlockProcessor.new 0 4 2 []) chain = some st1 ∧
      st1.blockFile.map (fun b => b.height) = [1, 2] ∧
      st1.blockFile[0]?.map (fun b => b.height) ≠ some 0 := by
  refine ⟨_, _, _, rfl, rfl, by decide, rfl, by decide, by decide⟩

/-! ### Stage 4: the spent-by back-pointer -/

theorem getElem?_set_of_some {α : Type} (l : List α) (i j : Nat) (a x : α)
    (hi : l[i]? = some x) :
    (l.set i a)[j]? = if i = j then some a else l[j]? := by
  rw [List.getElem?_set]
  have hlt : i < l.length := (List.getElem?_eq_some.mp hi).1
  simp [hlt]

theorem modifyInout_getElem? (txFile : List DiskTransaction) (n idx : Nat) (f : Inout → Inout)
    (m : Nat) (d : DiskTransaction) (hd : txFile[m]? = some d) :
    ∃ d1, (modifyInout txFile n idx f)[m]? = some d1 ∧ d1.inputCount = d.inputCount ∧
      ∀ j io, d.inouts[j]? = some io →
        ∃ io1, d1.inouts[j]? = some io1 ∧ (io1 = io ∨ (m = n ∧ j = idx ∧ io1 = f io)) := by
  unfold modifyInout
  cases hn : txFile[n]? with
  | none => exact ⟨d, hd, rfl, fun j io hj => ⟨io, hj, Or.inl rfl⟩⟩
  | some dn =>
    simp only
    cases hio : dn.inouts[idx]? with
    | none => exact ⟨d, hd, rfl, fun j io hj => ⟨io, hj, Or.inl rfl⟩⟩
    | some ion =>
      simp only
      rw [getElem?_set_of_some txFile n m _ dn hn]
      by_cases hnm : n = m
      · subst hnm
        have hdd : dn = d := by
          rw [hn] at hd
          exact Option.some.inj hd
        subst hdd
        refine ⟨{ dn with inouts := dn.inouts.set idx (f ion) }, by simp, rfl, ?_⟩
        intro j io hj
        show ∃ io1, (dn.inouts.set idx (f ion))[j]? = some io1 ∧ _
        rw [getElem?_set_of_some dn.inouts idx j _ ion hio]
        by_cases hij : idx = j
        · subst hij
          have hii : ion = io := by
            rw [hio] at hj
            exact Option.some.inj hj
          subst hii
          exact ⟨f ion, by simp, Or.inr ⟨rfl, rfl, rfl⟩⟩
        · exact ⟨io, by simp [hij, hj], Or.inl rfl⟩
      · exact ⟨d, by simp [hnm, hd], rfl, fun j io hj => ⟨io, hj, Or.inl rfl⟩⟩

theorem modifyInout_at (txFile : List DiskTransaction) (n idx : Nat) (f : Inout → Inout)
    (d : DiskTransaction) (io : Inout) (hd : txFile[n]? = some d)
    (hio : d.inouts[idx]? = some io) :
    ∃ d1, (modifyInout txFile n idx f)[n]? = some d1 ∧ d1.inputCount = d.inputCount ∧
      d1.inouts[idx]? = some (f io) := by
  unfold modifyInout
  simp only [hd, hio]
  rw [getElem?_set_of_some txFile n n _ d hd]
  refine ⟨{ d with inouts := d.inouts.set idx (f io) }, by simp, rfl, ?_⟩
  show (d.inouts.set idx (f io))[idx]? = some (f io)
  rw [getElem?_set_of_some d.inouts idx idx _ io hio]
  simp

theorem OutputLinkedTo.modifyInout (txFile : List DiskTransaction) (n idx : Nat)
    (f : Inout → Inout) (a k v : Nat)
    (hf : ∀ io, (f io).linkedTxNum = v ∨ (f io).linkedTxNum = io.linkedTxNum)
    (h : OutputLinkedTo txFile a k v) : OutputLinkedTo (modifyInout txFile n idx f) a k v := by
  obtain ⟨d, io, hd, hio, hv⟩ := h
  obtain ⟨d1, hd1, hc, hall⟩ := modifyInout_getElem? txFile n idx f a d hd
  unfold DiskTransaction.getOutput at hio
  obtain ⟨io1, hio1, hcase⟩ := hall _ io hio
  refine ⟨d1, io1, hd1, by unfold DiskTransaction.getOutput; rw [hc]; exact hio1, ?_⟩
  rcases hcase with rfl | ⟨_, _, rfl⟩
  · exact hv
  · rcases hf io with h1 | h1
    · exact h1
    · rw [h1]
      exact hv

theorem patchInputs_preserves {State : Type} (ops : AddressOps State) (tx : RawTransaction)
    (a k : Nat) :
    ∀ (ins : List RawInput) (i : Nat) (st st1 : AddressStage State),
      patchInputs ops tx ins i st = some st1 →
      OutputLinkedTo st.txFile a k tx.txNum → OutputLinkedTo st1.txFile a k tx.txNum := by
  intro ins
  induction ins with
  | nil =>
    intro i st st1 h hl
    simp only [patchInputs, Option.some.injEq] at h
    subst h
    exact hl
  | cons input rest ih =>
    intro i st st1 h hl
    simp only [patchInputs] at h
    cases h1 : st.txFile[input.linkedTxNum]? with
    | none => simp [h1] at h
    | some spentTx =>
      simp only [h1] at h
      cases h2 : spentTx.getOutput input.rawOutputPointer.outputNum with
      | none => simp [h2] at h
      | some spentOutput =>
        simp only [h2] at h
        cases h3 : st.txFile[tx.txNum]? with
        | none => simp [h3] at h
        | some diskTx =>
          simp only [h3] at h
          cases h4 : diskTx.getInput i with
          | none => simp [h4] at h
          | some diskInput =>
            simp only [h4] at h
            exact ih _ _ _ h
              (OutputLinkedTo.modifyInout _ _ _ _ _ _ _ (fun io => Or.inl rfl)
                (OutputLinkedTo.modifyInout _ _ _ _ _ _ _ (fun io => Or.inr rfl) hl))

theorem patchInputs_links {State : Type} (ops : AddressOps State) (tx : RawTransaction) :
    ∀ (ins : List RawInput) (i : Nat) (st st1 : AddressStage State),
      patchInputs ops tx ins i st = some st1 →
      ∀ input ∈ ins, OutputLinkedTo st1.txFile input.linkedTxNum
        input.rawOutputPointer.outputNum tx.txNum := by
  intro ins
  induction ins with
  | nil =>
    intro i st st1 _ input hin
    simp at hin
  | cons input rest ih =>
    intro i st st1 h input1 hin
    rcases List.mem_cons.mp hin with rfl | hin
    · have hrun := h
      simp only [patchInputs] at h
      cases h1 : st.txFile[input1.linkedTxNum]? with
      | none => simp [h1] at h
      | some spentTx =>
        simp only [h1] at h
        cases h2 : spentTx.getOutput input1.rawOutputPointer.outputNum with
        | none => simp [h2] at h
        | some spentOutput =>
          simp only [h2] at h
          cases h3 : st.txFile[tx.txNum]? with
          | none => simp [h3] at h
          | some diskTx =>
            simp only [h3] at h
            cases h4 : diskTx.getInput i with
            | none => simp [h4] at h
            | some diskInput =>
              simp only [h4] at h
              refine patchInputs_preserves ops tx _ _ _ _ _ _ h ?_
              obtain ⟨d1, hd1, hc1, hall1⟩ := modifyInout_getElem? st.txFile tx.txNum i
                (fun io => { io with toAddressNum := spentOutput.getAddress.addressNum })
                input1.linkedTxNum spentTx h1
              unfold DiskTransaction.getOutput at h2
              obtain ⟨io1, hio1, _⟩ := hall1 _ spentOutput h2
              obtain ⟨d2, hd2, hc2, hio2⟩ := modifyInout_at _ input1.linkedTxNum
                (spentTx.inputCount + input1.rawOutputPointer.outputNum)
                (fun io => { io with linkedTxNum := tx.txNum }) d1 io1 hd1 hio1
              refine ⟨d2, { io1 with linkedTxNum := tx.txNum }, hd2, ?_, rfl⟩
              unfold DiskTransaction.getOutput
              rw [hc2, hc1]
              exact hio2
    · simp only [patchInputs] at h
      cases h1 : st.txFile[input.linkedTxNum]? with
      | none => simp [h1] at h
      | some spentTx =>
        simp only [h1] at h
        cases h2 : spentTx.getOutput input.rawOutputPointer.outputNum with
        | none => simp [h2] at h
        | some spentOutput =>
          simp only [h2] at h
          cases h3 : st.txFile[tx.txNum]? with
          | none => simp [h3] at h
          | some diskTx =>
            simp only [h3] at h
            cases h4 : diskTx.getInput i with
            | none => simp [h4] at h
            | some diskInput =>
              simp only [h4] at h
              exact ih _ _ _ h input1 hin

theorem patchOutputs_preserves {State : Type} (ops : AddressOps State) (txNum a k v : Nat) :
    ∀ (outs : List RawOutput) (i : Nat) (st st1 : AddressStage State),
      patchOutputs ops txNum outs i st = some st1 →
      OutputLinkedTo st.txFile a k v → OutputLinkedTo st1.txFile a k v := by
  intro outs
  induction outs with
  | nil =>
    intro i st st1 h hl
    simp only [patchOutputs, Option.some.injEq] at h
    subst h
    exact hl
  | cons output rest ih =>
    intro i st st1 h hl
    simp only [patchOutputs] at h
    cases h1 : st.txFile[txNum]? with
    | none => simp [h1] at h
    | some diskTx =>
      simp only [h1] at h
      cases h2 : diskTx.getOutput i with
      | none => simp [h2] at h
      | some diskOutput =>
        simp only [h2] at h
        exact ih _ _ _ h (OutputLinkedTo.modifyInout _ _ _ _ _ _ _ (fun io => Or.inr rfl) hl)

theorem processAddressesConsume_links {State : Type} (ops : AddressOps State)
    (st st1 : AddressStage State) (tx : RawTransaction)
    (h : processAddressesConsume ops st tx = some st1) :
    ∀ input ∈ tx.inputs, OutputLinkedTo st1.txFile input.linkedTxNum
      input.rawOutputPointer.outputNum tx.txNum := by
  intro input hin
  unfold processAddressesConsume at h
  cases h1 : patchInputs ops tx tx.inputs 0 st with
  | none => simp [h1] at h
  | some st2 =>
    simp only [h1] at h
    cases h2 : patchOutputs ops tx.txNum tx.outputs 0 st2 with
    | none => simp [h2] at h
    | some st3 =>
      simp only [h2, Option.some.injEq] at h
      have hl := patchOutputs_preserves ops tx.txNum _ _ _ _ _ _ _ h2
        (patchInputs_links ops tx _ _ _ _ h1 input hin)
      subst h
      split
      · exact hl
      · exact hl

theorem processAddresses_append {State : Type} (ops : AddressOps State) :
    ∀ (pre : List RawTransaction) (tx : RawTransaction) (st st1 : AddressStage State),
      processAddresses ops st (pre ++ [tx]) = some st1 →
      ∃ mid, processAddresses ops st pre = some mid ∧
        processAddressesConsume ops mid tx = some st1 := by
  intro pre
  induction pre with
  | nil =>
    intro tx st st1 h
    simp only [List.nil_append, processAddresses] at h
    cases hc : processAddressesConsume ops st tx with
    | none => simp [hc] at h
    | some st2 =>
      simp only [hc, Option.some.injEq] at h
      subst h
      exact ⟨st, rfl, hc⟩
  | cons t rest ih =>
    intro tx st st1 h
    simp only [List.cons_append, processAddresses] at h ⊢
    cases hc : processAddressesConsume ops st t with
    | none => simp [hc] at h
    | some st2 =>
      simp only [hc] at h ⊢
      exact ih tx st2 st1 h

/-! ### Stage 3 followed by stage 4 -/

theorem fileLayout_modifyInout (txFile : List DiskTransaction) (n idx : Nat)
    (f : Inout → Inout) : fileLayout (modifyInout txFile n idx f) = fileLayout txFile := by
  unfold modifyInout
  cases hn : txFile[n]? with
  | none => rfl
  | some d =>
    simp only
    cases hio : d.inouts[idx]? with
    | none => rfl
    | some io =>
      simp only
      apply List.ext_getElem?
      intro m
      unfold fileLayout
      rw [List.getElem?_map, List.getElem?_map, getElem?_set_of_some txFile n m _ d hn]
      by_cases hnm : n = m
      · subst hnm
        simp [hn]
      · simp [hnm]

theorem fileLayout_getElem? (txFile : List DiskTransaction) (m c n : Nat)
    (h : (fileLayout txFile)[m]? = some (c, n)) :
    ∃ d, txFile[m]? = some d ∧ d.inputCount = c ∧ d.inouts.length = n := by
  unfold fileLayout at h
  rw [List.getElem?_map] at h
  cases hd : txFile[m]? with
  | none => simp [hd] at h
  | some d =>
    simp only [hd, Option.map_some', Option.some.injEq, Prod.mk.injEq] at h
    exact ⟨d, rfl, h.1, h.2⟩

theorem getElem?_of_lt_length {α : Type} (l : List α) (i : Nat) (h : i < l.length) :
    ∃ a, l[i]? = some a :=
  ⟨l[i], List.getElem?_eq_getElem h⟩

theorem patchInputs_succeeds {State : Type} (ops : AddressOps State) (tx : RawTransaction)
    (c0 n0 : Nat) :
    ∀ (ins : List RawInput) (i k : Nat) (st : AddressStage State),
      (fileLayout st.txFile)[tx.txNum]? = some (c0, n0) → i ≤ k → k + ins.length ≤ n0 →
      (∀ input ∈ ins, ∃ c n, (fileLayout st.txFile)[input.linkedTxNum]? = some (c, n) ∧
        c + input.rawOutputPointer.outputNum < n) →
      ∃ st1, patchInputs ops tx ins i st = some st1 ∧
        fileLayout st1.txFile = fileLayout st.txFile := by
  intro ins
  induction ins with
  | nil =>
    intro i k st _ _ _ _
    exact ⟨st, rfl, rfl⟩
  | cons input rest ih =>
    intro i k st hself hik hlen hall
    obtain ⟨c, n, hl, hlt⟩ := hall input (List.mem_cons_self _ _)
    obtain ⟨spentTx, h1, hc, hn⟩ := fileLayout_getElem? _ _ _ _ hl
    obtain ⟨diskTx, h3, _, hn0⟩ := fileLayout_getElem? _ _ _ _ hself
    obtain ⟨spentOutput, h2⟩ := getElem?_of_lt_length spentTx.inouts
      (spentTx.inputCount + input.rawOutputPointer.outputNum) (by rw [hc, hn]; exact hlt)
    simp only [List.length_cons] at hlen
    obtain ⟨diskInput, h4⟩ := getElem?_of_lt_length diskTx.inouts i (by omega)
    simp only [patchInputs, h1, DiskTransaction.getOutput, h2, h3, DiskTransaction.getInput, h4]
    have hlay : fileLayout (modifyInout (modifyInout st.txFile tx.txNum i
        (fun io => { io with toAddressNum := spentOutput.getAddress.addressNum }))
        input.linkedTxNum (spentTx.inputCount + input.rawOutputPointer.outputNum)
        (fun io => { io with linkedTxNum := tx.txNum })) = fileLayout st.txFile := by
      rw [fileLayout_modifyInout, fileLayout_modifyInout]
    obtain ⟨st1, hrun, hlay1⟩ := ih ((i + 1) % 65536) (k + 1)
      { st with
        txFile := modifyInout (modifyInout st.txFile tx.txNum i
          (fun io => { io with toAddressNum := spentOutput.getAddress.addressNum }))
          input.linkedTxNum (spentTx.inputCount + input.rawOutputPointer.outputNum)
          (fun io => { io with linkedTxNum := tx.txNum }),
        addressState := (ops.processInput spentOutput.getAddress
          { input := input, inputNum := i, txNum := tx.txNum,
            addressNum := spentOutput.getAddress.addressNum, isSegwit := tx.isSegwit }
          tx st.addressState).2,
        revealed := st.revealed ++ (ops.processInput spentOutput.getAddress
          { input := input, inputNum := i, txNum := tx.txNum,
            addressNum := spentOutput.getAddress.addressNum, isSegwit := tx.isSegwit }
          tx st.addressState).1 }
      (by rw [hlay]; exact hself) (by omega) (by omega)
      (by
        intro input1 hin
        rw [hlay]
        exact hall input1 (List.mem_cons_of_mem _ hin))
    exact ⟨st1, hrun, by rw [hlay1, hlay]⟩

theorem patchOutputs_succeeds {State : Type} (ops : AddressOps State) (txNum c0 n0 : Nat) :
    ∀ (outs : List RawOutput) (i k : Nat) (st : AddressStage State),
      (fileLayout st.txFile)[txNum]? = some (c0, n0) → i ≤ k → c0 + k + outs.length ≤ n0 →
      ∃ st1, patchOutputs ops txNum outs i st = some st1 ∧
        fileLayout st1.txFile = fileLayout st.txFile := by
  intro outs
  induction outs with
  | nil =>
    intro i k st _ _ _
    exact ⟨st, rfl, rfl⟩
  | cons output rest ih =>
    intro i k st hself hik hlen
    obtain ⟨diskTx, h1, hc0, hn0⟩ := fileLayout_getElem? _ _ _ _ hself
    simp only [List.length_cons] at hlen
    obtain ⟨diskOutput, h2⟩ := getElem?_of_lt_length diskTx.inouts (diskTx.inputCount + i)
      (by omega)
    simp only [patchOutputs, h1, DiskTransaction.getOutput, h2]
    obtain ⟨st1, hrun, hlay1⟩ := ih ((i + 1) % 65536) (k + 1)
      { st with
        txFile := modifyInout st.txFile txNum (diskTx.inputCount + i)
          (fun io => { io with
            toAddressNum := (ops.processOutput output.scriptOutput st.addressState).1.addressNum }),
        addressState := (ops.processOutput output.scriptOutput st.addressState).2 }
      (by rw [fileLayout_modifyInout]; exact hself) (by omega) (by omega)
    exact ⟨st1, hrun, by rw [hlay1, fileLayout_modifyInout]⟩

theorem processAddressesConsume_succeeds {State : Type} (ops : AddressOps State)
    (st : AddressStage State) (tx : RawTransaction)
    (h : TxResolvable (fileLayout st.txFile) tx) :
    ∃ st1, processAddressesConsume ops st tx = some st1 ∧
      fileLayout st1.txFile = fileLayout st.txFile := by
  obtain ⟨⟨c0, n0, hself, hin, hout⟩, hall⟩ := h
  obtain ⟨st1, h1, hl1⟩ := patchInputs_succeeds ops tx c0 n0 tx.inputs 0 0 st hself
    (le_refl _) (by omega) hall
  obtain ⟨st2, h2, hl2⟩ := patchOutputs_succeeds ops tx.txNum c0 n0 tx.outputs 0 0 st1
    (by rw [hl1]; exact hself) (le_refl _) (by omega)
  unfold processAddressesConsume
  simp only [h1, h2]
  refine ⟨_, rfl, ?_⟩
  split
  · rw [hl2, hl1]
  · show fileLayout st2.txFile = _
    rw [hl2, hl1]

theorem processAddresses_succeeds {State : Type} (ops : AddressOps State) :
    ∀ (txs : List RawTransaction) (st : AddressStage State),
      (∀ tx ∈ txs, TxResolvable (fileLayout st.txFile) tx) →
      ∃ st1, processAddresses ops st txs = some st1 := by
  intro txs
  induction txs with
  | nil =>
    intro st _
    exact ⟨st, rfl⟩
  | cons tx rest ih =>
    intro st h
    obtain ⟨st1, h1, hl⟩ := processAddressesConsume_succeeds ops st tx
      (h tx (List.mem_cons_self _ _))
    simp only [processAddresses, h1]
    apply ih
    intro t ht
    rw [hl]
    exact h t (List.mem_cons_of_mem _ ht)

theorem mem_of_lookup_eq_some {V : Type} (l : List (RawOutputPointer × V))
    (k : RawOutputPointer) (v : V) (h : l.lookup k = some v) : (k, v) ∈ l := by
  induction l with
  | nil => simp at h
  | cons e rest ih =>
    obtain ⟨a, b⟩ := e
    rw [List.lookup_cons] at h
    by_cases hk : k = a
    · subst hk
      simp only [beq_self_eq_true, Option.some.injEq] at h
      subst h
      exact List.mem_cons_self _ _
    · have : (k == a) = false := by simpa using hk
      simp only [this] at h
      exact List.mem_cons_of_mem _ (ih h)

theorem getElem?_append_of_some {α : Type} (l : List α) (x : List α) (m : Nat) (a : α)
    (h : l[m]? = some a) : (l ++ x)[m]? = some a := by
  have hlt : m < l.length := (List.getElem?_eq_some.mp h).1
  rw [List.getElem?_append_left hlt]
  exact h

theorem spendInputs_resolved (s : UTXOState) (ins : List RawInput)
    (r : List RawInput × List Inout × UTXOState) (h : spendInputs s ins = some r) :
    r.1.length = ins.length ∧ r.2.1.length = ins.length ∧ (∀ e ∈ r.2.2, e ∈ s) ∧
      ∀ input1 ∈ r.1, ∃ u, (input1.rawOutputPointer, u) ∈ s ∧
        input1.linkedTxNum = u.output.linkedTxNum := by
  induction ins generalizing s r with
  | nil =>
    simp only [spendInputs, Option.some.injEq] at h
    subst h
    simp
  | cons input rest ih =>
    simp only [spendInputs, UTXOState.spendOutput] at h
    cases hl : List.lookup input.rawOutputPointer s with
    | none => simp [hl] at h
    | some utxo =>
      simp only [hl] at h
      cases hr : spendInputs (List.filter (fun e => e.1 != input.rawOutputPointer) s) rest with
      | none => simp [hr] at h
      | some r1 =>
        simp only [hr, Option.some.injEq] at h
        subst h
        obtain ⟨h1, h2, h3, h4⟩ := ih _ r1 hr
        refine ⟨by simp [h1], by simp [h2], ?_, ?_⟩
        · intro e he
          exact List.mem_of_mem_filter (h3 e he)
        · intro input1 hin
          rcases List.mem_cons.mp hin with rfl | hin
          · exact ⟨utxo, mem_of_lookup_eq_some s _ _ hl, rfl⟩
          · obtain ⟨u, hu, hlink⟩ := h4 input1 hin
            exact ⟨u, List.mem_of_mem_filter hu, hlink⟩

theorem addOutputs_cons (f : AddressType → Bool) (txNum : Nat) (hash : uint256)
    (s : UTXOState) (output : RawOutput) (rest : List RawOutput) (i : Nat)
    (r : List Inout × UTXOState)
    (h : addOutputs f txNum hash s (output :: rest) i = some r) :
    ∃ (s1 : UTXOState) (r1 : List Inout × UTXOState),
      (if f (addressType output.scriptOutput) = true then
        s.addOutput
          { output := { linkedTxNum := txNum, toAddressNum := 0,
                        type := addressType output.scriptOutput, value := output.value },
            addressType := addressType output.scriptOutput }
          { hash := hash, outputNum := i }
       else some s) = some s1 ∧
      addOutputs f txNum hash s1 rest ((i + 1) % 65536) = some r1 ∧
      r = ({ linkedTxNum := 0, toAddressNum := 0, type := addressType output.scriptOutput,
             value := output.value } :: r1.1, r1.2) := by
  simp only [addOutputs, Inout.make] at h
  cases ha : (if f (addressType output.scriptOutput) = true then
      UTXOState.addOutput s
        { output := { linkedTxNum := txNum, toAddressNum := 0,
                      type := addressType output.scriptOutput, value := output.value },
          addressType := addressType output.scriptOutput }
        { hash := hash, outputNum := i }
     else some s) with
  | none => simp [ha] at h
  | some s1 =>
    simp only [ha] at h
    cases hr : addOutputs f txNum hash s1 rest ((i + 1) % 65536) with
    | none => simp [hr] at h
    | some r1 =>
      simp only [hr, Option.some.injEq] at h
      exact ⟨s1, r1, rfl, hr, h.symm⟩

theorem addOutputs_entries (f : AddressType → Bool) (txNum : Nat) (hash : uint256) :
    ∀ (outs : List RawOutput) (s : UTXOState) (i j : Nat) (r : List Inout × UTXOState),
      i ≤ j → addOutputs f txNum hash s outs i = some r →
      r.1.length = outs.length ∧
      ∀ e ∈ r.2,
        e ∈ s ∨ (e.2.output.linkedTxNum = txNum ∧ e.1.outputNum < j + outs.length) := by
  intro outs
  induction outs with
  | nil =>
    intro s i j r _ h
    simp only [addOutputs, Option.some.injEq] at h
    subst h
    exact ⟨rfl, fun e he => Or.inl he⟩
  | cons output rest ih =>
    intro s i j r hij h
    obtain ⟨s1, r1, ha, hr, hreq⟩ := addOutputs_cons f txNum hash s output rest i r h
    subst hreq
    obtain ⟨h1, h2⟩ := ih s1 ((i + 1) % 65536) (j + 1) r1 (by omega) hr
    refine ⟨by simp [h1], ?_⟩
    intro e he
    simp only [List.length_cons]
    rcases h2 e he with hs | ⟨hl, hn⟩
    · by_cases hsp : f (addressType output.scriptOutput) = true
      · simp only [hsp, if_true] at ha
        obtain ⟨hs1, _⟩ := addOutput_eq_some s s1 _ _ ha
        subst hs1
        rcases List.mem_cons.mp hs with rfl | hs
        · exact Or.inr ⟨rfl, by simp only; omega⟩
        · exact Or.inl hs
      · simp only [hsp, Bool.false_eq_true, if_false, Option.some.injEq] at ha
        subst ha
        exact Or.inl hs
    · exact Or.inr ⟨hl, by omega⟩

theorem processUTXOsConsume_consistent (f : AddressType → Bool) (st st1 : UTXOStage)
    (tx : RawTransaction) (hst : StoreConsistent st) (hnum : tx.txNum = st.txFile.length)
    (h : processUTXOsConsume f st tx = some st1) :
    StoreConsistent st1 ∧ st1.txFile.length = st.txFile.length + 1 := by
  unfold processUTXOsConsume at h
  cases hs : spendInputs st.utxoState tx.inputs with
  | none => simp [hs] at h
  | some r =>
    obtain ⟨inputs, records, s1⟩ := r
    simp only [hs] at h
    cases ha : addOutputs f tx.txNum tx.hash s1 tx.outputs 0 with
    | none => simp [ha] at h
    | some r2 =>
    simp only [ha, Option.some.injEq] at h
    obtain ⟨hlen1, hlen2, hsub, hres⟩ := spendInputs_resolved _ _ _ hs
    obtain ⟨hlen3, hent⟩ :=
      addOutputs_entries f tx.txNum tx.hash tx.outputs s1 0 0 r2 (le_refl _) ha
    simp only at hlen1 hlen2 hsub hres
    have hlay : fileLayout st1.txFile = fileLayout st.txFile ++
        [(tx.inputs.length % 65536, tx.inputs.length + tx.outputs.length)] := by
      rw [← h]
      simp [fileLayout, RawTransaction.getRawTransaction, hlen2, hlen3]
    have hself : (fileLayout st1.txFile)[tx.txNum]? =
        some (tx.inputs.length % 65536, tx.inputs.length + tx.outputs.length) := by
      rw [hlay, hnum]
      have : (fileLayout st.txFile).length = st.txFile.length := by simp [fileLayout]
      rw [← this]
      simp
    have hmod : tx.inputs.length % 65536 ≤ tx.inputs.length := Nat.mod_le _ _
    have hold : ∀ (m c n : Nat), (fileLayout st.txFile)[m]? = some (c, n) →
        (fileLayout st1.txFile)[m]? = some (c, n) := by
      intro m c n hm
      rw [hlay]
      exact getElem?_append_of_some _ _ _ _ hm
    refine ⟨⟨?_, ?_⟩, ?_⟩
    · intro e he
      rw [← h] at he
      simp only at he
      rcases hent e he with hin | ⟨hl, hn⟩
      · obtain ⟨c, n, hc, hlt⟩ := hst.1 e (hsub e hin)
        exact ⟨c, n, hold _ _ _ hc, hlt⟩
      · refine ⟨_, _, by rw [hl]; exact hself, ?_⟩
        omega
    · intro t ht
      rw [← h] at ht
      simp only [List.mem_append, List.mem_singleton] at ht
      rcases ht with ht | rfl
      · obtain ⟨⟨c, n, hc, h1, h2⟩, hall⟩ := hst.2 t ht
        refine ⟨⟨c, n, hold _ _ _ hc, h1, h2⟩, ?_⟩
        intro input hin
        obtain ⟨c1, n1, hc1, hlt⟩ := hall input hin
        exact ⟨c1, n1, hold _ _ _ hc1, hlt⟩
      · refine ⟨⟨_, _, hself, by simp only [hlen1]; omega, by simp only; omega⟩, ?_⟩
        intro input hin
        obtain ⟨u, hu, hlink⟩ := hres input hin
        obtain ⟨c, n, hc, hlt⟩ := hst.1 _ hu
        exact ⟨c, n, by rw [hlink]; exact hold _ _ _ hc, hlt⟩
    · rw [← h]
      simp

theorem processUTXOs_consistent (f : AddressType → Bool) :
    ∀ (txs : List RawTransaction) (st st1 : UTXOStage), StoreConsistent st →
      NumberedFrom st.txFile.length txs → processUTXOs f st txs = some st1 →
      StoreConsistent st1 := by
  intro txs
  induction txs with
  | nil =>
    intro st st1 hst _ h
    simp only [processUTXOs, Option.some.injEq] at h
    subst h
    exact hst
  | cons tx rest ih =>
    intro st st1 hst hnum h
    simp only [processUTXOs] at h
    cases hc : processUTXOsConsume f st tx with
    | none => simp [hc] at h
    | some st2 =>
      simp only [hc] at h
      obtain ⟨hst2, hlen⟩ := processUTXOsConsume_consistent f st st2 tx hst hnum.1 hc
      exact ih st2 st1 hst2 (by rw [hlen]; exact hnum.2) h

/-- C2: for every transaction `tx` that `processAddresses` consumes, once `tx` has been consumed
the on-disk output record at index `input.rawOutputPointer.outputNum` of transaction
`input.linkedTxNum` is there and has `linkedTxNum` equal to `tx.txNum`, for every input of `tx`.
And when stage 3 has processed the transactions (numbered like the records of a consistent tx
file) and stage 4 then runs over the tx file stage 3 wrote, stage 4 finds every record it looks
up, so that this holds for every transaction of the address queue. -/
theorem processAddresses_links_spent_outputs {State : Type} (ops : AddressOps State) :
    (∀ (st st1 : AddressStage State) (pre : List RawTransaction) (tx : RawTransaction),
      processAddresses ops st (pre ++ [tx]) = some st1 →
      ∀ input ∈ tx.inputs, OutputLinkedTo st1.txFile input.linkedTxNum
        input.rawOutputPointer.outputNum tx.txNum) ∧
    (∀ (isSpendable : AddressType → Bool) (st3 st3a : UTXOStage) (txs : List RawTransaction),
      StoreConsistent st3 → NumberedFrom st3.txFile.length txs →
      processUTXOs isSpendable st3 txs = some st3a →
      ∀ (st4 : AddressStage State), st4.txFile = st3a.txFile →
      ∀ (pre : List RawTransaction) (tx : RawTransaction) (post : List RawTransaction),
        st3a.addressQueue = pre ++ tx :: post →
        ∃ st4a, processAddresses ops st4 (pre ++ [tx]) = some st4a ∧
          ∀ input ∈ tx.inputs, OutputLinkedTo st4a.txFile input.linkedTxNum
            input.rawOutputPointer.outputNum tx.txNum) := by
  have general : ∀ (st st1 : AddressStage State) (pre : List RawTransaction)
      (tx : RawTransaction), processAddresses ops st (pre ++ [tx]) = some st1 →
      ∀ input ∈ tx.inputs, OutputLinkedTo st1.txFile input.linkedTxNum
        input.rawOutputPointer.outputNum tx.txNum := by
    intro st st1 pre tx hrun
    obtain ⟨mid, _, hc⟩ := processAddresses_append ops pre tx st st1 hrun
    exact processAddressesConsume_links ops mid st1 tx hc
  refine ⟨general, ?_⟩
  intro isSpendable st3 st3a txs hst hnum h3 st4 hfile pre tx post hq
  have hcons := processUTXOs_consistent isSpendable txs st3 st3a hst hnum h3
  obtain ⟨st4a, hrun⟩ := processAddresses_succeeds ops (pre ++ [tx]) st4 (by
    intro t ht
    rw [hfile]
    apply hcons.2 t
    rw [hq]
    rcases List.mem_append.mp ht with h1 | h1
    · exact List.mem_append_left _ h1
    · rw [List.mem_singleton] at h1
      rw [h1]
      exact List.mem_append_right _ (List.mem_cons_self _ _))
  exact ⟨st4a, hrun, general st4 st4a pre tx hrun⟩

/-- C2, witness: the simple spend through stage 3 and then stage 4 from the empty store.
Stage 3 writes the three records and hands on the spend (transaction 2) with `linkedTxNum = 0`
on its input; stage 4 consumes the queue up to the spend, and output 0 of transaction 0 then has
`linkedTxNum = 2`. -/
theorem processAddresses_links_spent_outputs_witness :
    processUTXOs spendableUnlessNullData emptyUTXOStage simpleSpendTxs = some simpleSpendStage ∧
    NumberedFrom emptyUTXOStage.txFile.length simpleSpendTxs ∧
    (processAddresses countingAddressOps (addressStageOver simpleSpendTxFile)
        simpleSpendStage.addressQueue).map
      (fun st => (st.txFile[0]?.bind (fun d => d.getOutput 0)).map (fun io => io.linkedTxNum)) =
      some (some 2) ∧
    ∃ st4a, processAddresses countingAddressOps (addressStageOver simpleSpendTxFile)
        ([sampleTx 0 7 [] [pubkeyOutput 5000000000],
          sampleTx 1 8 [] [pubkeyOutput 5000000000]] ++ [simpleSpendResolvedTx]) = some st4a ∧
      ∀ input ∈ simpleSpendResolvedTx.inputs, OutputLinkedTo st4a.txFile input.linkedTxNum
        input.rawOutputPointer.outputNum simpleSpendResolvedTx.txNum :=
  ⟨by decide, ⟨rfl, rfl, rfl, trivial⟩, by decide,
    (processAddresses_links_spent_outputs countingAddressOps).2 spendableUnlessNullData
      emptyUTXOStage simpleSpendStage simpleSpendTxs
      ⟨fun e he => absurd he (List.not_mem_nil e), fun t ht => absurd ht (List.not_mem_nil t)⟩
      ⟨rfl, rfl, rfl, trivial⟩ (by decide) (addressStageOver simpleSpendTxFile) rfl
      [sampleTx 0 7 [] [pubkeyOutput 5000000000], sampleTx 1 8 [] [pubkeyOutput 5000000000]]
      simpleSpendResolvedTx [] rfl⟩

/-! ### Stage 1: what is pushed, captured and written -/

theorem popFinished_writes (st : BlockProcessor) :
    (popFinished st).sequenceFile = st.sequenceFile ∧
      (popFinished st).coinbase = st.coinbase ∧
      (popFinished st).blockCoinbaseFile = st.blockCoinbaseFile := by
  unfold popFinished
  split <;> simp

theorem emitTransaction_writes (st : BlockProcessor) (tx : RawTransaction) :
    (emitTransaction st tx).hash_transaction_queue =
        st.hash_transaction_queue ++ [if hasNullInput tx then { tx with inputs := [] } else tx] ∧
      (emitTransaction st tx).sequenceFile =
        st.sequenceFile ++ [tx.inputs.map (fun input : RawInput => input.sequenceNum)] ∧
      (emitTransaction st tx).coinbase =
        (if hasNullInput tx then firstInputScript tx else st.coinbase) ∧
      (emitTransaction st tx).blockCoinbaseFile = st.blockCoinbaseFile := by
  refine ⟨?_, ?_, ?_, ?_⟩
  · simp only [emitTransaction, (popFinished_fields _).2.1]
    by_cases hn : hasNullInput tx = true <;> simp [hn]
  · simp only [emitTransaction, (popFinished_writes _).1]
    by_cases hn : hasNullInput tx = true <;> simp [hn]
  · simp only [emitTransaction, (popFinished_writes _).2.1]
    by_cases hn : hasNullInput tx = true <;> simp [hn]
  · simp only [emitTransaction, (popFinished_writes _).2.2]
    by_cases hn : hasNullInput tx = true <;> simp [hn]

theorem readTransactions_loaded (src : BlockFiles) (nFile : Int) (blockHeight : Nat)
    (segwit : Bool) :
    ∀ (count offset : Nat) (st st1 : BlockProcessor),
      readTransactions src nFile blockHeight segwit count offset st = some st1 →
      st.currentTxNum < 4294967296 →
      (loadedTransactions src nFile blockHeight segwit count offset st.currentTxNum).length =
          count ∧
        st1.hash_transaction_queue = st.hash_transaction_queue ++
          (loadedTransactions src nFile blockHeight segwit count offset st.currentTxNum).map
            (fun tx => if hasNullInput tx then { tx with inputs := [] } else tx) ∧
        st1.sequenceFile = st.sequenceFile ++
          (loadedTransactions src nFile blockHeight segwit count offset st.currentTxNum).map
            (fun tx => tx.inputs.map (fun input : RawInput => input.sequenceNum)) ∧
        st1.coinbase = capturedCoinbase st.coinbase
          (loadedTransactions src nFile blockHeight segwit count offset st.currentTxNum) ∧
        st1.blockCoinbaseFile = st.blockCoinbaseFile := by
  intro count
  induction count with
  | zero =>
    intro offset st st1 h _
    simp only [readTransactions, Option.some.injEq] at h
    subst h
    simp [loadedTransactions, capturedCoinbase]
  | succ count ih =>
    intro offset st st1 h hcur
    simp only [readTransactions] at h
    simp only [loadedTransactions]
    cases hp : src.parse nFile offset segwit with
    | none => simp [hp] at h
    | some r =>
      obtain ⟨parsed, offset1⟩ := r
      simp only [hp] at h ⊢
      obtain ⟨hq, hs, hc, hf⟩ :=
        emitTransaction_writes st (parsed.load st.currentTxNum blockHeight segwit)
      have hcur1 := (emitTransaction_fields st (parsed.load st.currentTxNum blockHeight segwit)).1
      obtain ⟨hlen, hq1, hs1, hc1, hf1⟩ :=
        ih offset1 _ st1 h (by rw [hcur1]; exact Nat.mod_lt _ (by norm_num))
      rw [hcur1] at hlen hq1 hs1 hc1
      refine ⟨by simp [hlen], ?_, ?_, ?_, ?_⟩
      · rw [hq1, hq]
        simp
      · rw [hs1, hs]
        simp
      · rw [hc1, hc]
        rfl
      · rw [hf1, hf]

theorem openBlockFile_writes (src : BlockFiles) (table : List (Int × Nat))
    (st st1 : BlockProcessor) (block : BlockInfo FileLocation)
    (h : openBlockFile src table st block = some st1) :
    st1.sequenceFile = st.sequenceFile ∧ st1.coinbase = st.coinbase ∧
      st1.blockCoinbaseFile = st.blockCoinbaseFile := by
  unfold openBlockFile at h
  split at h
  · simp only [Option.some.injEq] at h
    subst h
    exact ⟨rfl, rfl, rfl⟩
  · split at h
    · simp only [Option.some.injEq] at h
      subst h
      exact ⟨rfl, rfl, rfl⟩
    · simp at h

theorem readOpenedBlock_loaded (src : BlockFiles) (st st1 : BlockProcessor)
    (block : BlockInfo FileLocation) (h : readOpenedBlock src st block = some st1)
    (hcur : st.currentTxNum < 4294967296) :
    st1.hash_transaction_queue = st.hash_transaction_queue ++
        (blockTransactions src st.currentTxNum block).map
          (fun tx => if hasNullInput tx then { tx with inputs := [] } else tx) ∧
      st1.sequenceFile = st.sequenceFile ++
        (blockTransactions src st.currentTxNum block).map
          (fun tx => tx.inputs.map (fun input : RawInput => input.sequenceNum)) ∧
      st1.coinbase = capturedCoinbase st.coinbase (blockTransactions src st.currentTxNum block) ∧
      st1.blockCoinbaseFile = writeCoinbase st.blockCoinbaseFile
        (capturedCoinbase st.coinbase (blockTransactions src st.currentTxNum block)) ∧
      (∃ b, st1.blockFile = st.blockFile ++ [b] ∧
        b.coinbaseOffset = st.blockCoinbaseFile.length) ∧
      st1.currentTxNum =
        (st.currentTxNum + (blockTransactions src st.currentTxNum block).length) %
          4294967296 := by
  unfold readOpenedBlock at h
  unfold blockTransactions
  cases hv : src.readVariableLengthInteger block.location.nFile
      (block.location.nDataPos + 80) with
  | none => simp [hv] at h
  | some r =>
    obtain ⟨count, firstTxOffset⟩ := r
    simp only [hv] at h ⊢
    cases hd : detectSegwit src block.location.nFile (count % 4294967296) firstTxOffset with
    | none => simp [hd] at h
    | some segwit =>
      simp only [hd] at h
      have hflag : segwit = blockSegwitFlag src block := by
        simp only [blockSegwitFlag, hv]
        exact detectSegwit_eq_find src _ _ _ _ hd
      subst hflag
      cases hr : readTransactions src block.location.nFile
          (block.height % 4294967296).toNat (blockSegwitFlag src block) (count % 4294967296)
          firstTxOffset (popFinished st) with
      | none => simp [hr] at h
      | some st3 =>
        simp only [hr, Option.some.injEq] at h
        subst h
        obtain ⟨hp1, hp2, hp3⟩ := popFinished_fields st
        obtain ⟨hw1, hw2, hw3⟩ := popFinished_writes st
        obtain ⟨hlen, hq, hs, hc, hf⟩ :=
          readTransactions_loaded src _ _ _ _ _ _ st3 hr (by rw [hp1]; exact hcur)
        obtain ⟨_, _, _, _, _, hcur3, hbf⟩ :=
          readTransactions_spec src _ _ _ _ _ _ st3 hr (by rw [hp1]; exact hcur)
        rw [hp1] at hlen hq hs hc hcur3
        rw [hp2] at hq
        rw [hw1] at hs
        rw [hw2] at hc
        rw [hw3] at hf
        rw [hp3] at hbf
        refine ⟨hq, hs, hc, ?_, ⟨_, by rw [← hbf], ?_⟩, ?_⟩
        · show writeCoinbase st3.blockCoinbaseFile st3.coinbase = _
          rw [hf, hc]
        · show st3.blockCoinbaseFile.length = _
          rw [hf]
        · rw [hlen]
          exact hcur3

theorem readBlock_loaded (src : BlockFiles) (table : List (Int × Nat)) (st st1 : BlockProcessor)
    (block : BlockInfo FileLocation) (h : readBlock src table st block = some (true, st1))
    (hcur : st.currentTxNum < 4294967296) :
    st1.hash_transaction_queue = st.hash_transaction_queue ++
        (blockTransactions src st.currentTxNum block).map
          (fun tx => if hasNullInput tx then { tx with inputs := [] } else tx) ∧
      st1.sequenceFile = st.sequenceFile ++
        (blockTransactions src st.currentTxNum block).map
          (fun tx => tx.inputs.map (fun input : RawInput => input.sequenceNum)) ∧
      st1.coinbase = capturedCoinbase st.coinbase (blockTransactions src st.currentTxNum block) ∧
      st1.blockCoinbaseFile = writeCoinbase st.blockCoinbaseFile
        (capturedCoinbase st.coinbase (blockTransactions src st.currentTxNum block)) ∧
      (∃ b, st1.blockFile = st.blockFile ++ [b] ∧
        b.coinbaseOffset = st.blockCoinbaseFile.length) ∧
      st1.currentTxNum =
        (st.currentTxNum + (blockTransactions src st.currentTxNum block).length) %
          4294967296 := by
  unfold readBlock at h
  cases ho : openBlockFile src table st block with
  | none => simp [ho] at h
  | some st2 =>
    simp only [ho] at h
    cases hr : readOpenedBlock src st2 block with
    | none => simp [hr] at h
    | some st3 =>
      simp only [hr, Option.some.injEq, Prod.mk.injEq, true_and] at h
      subst h
      obtain ⟨h1, h2, h3⟩ := openBlockFile_fields src table st st2 block ho
      obtain ⟨h4, h5, h6⟩ := openBlockFile_writes src table st st2 block ho
      have := readOpenedBlock_loaded src st2 st3 block hr (by rw [h1]; exact hcur)
      rw [h1, h2, h3, h4, h5, h6] at this
      exact this

theorem readBlocks_loaded (src : BlockFiles) (table : List (Int × Nat)) :
    ∀ (blocks : List (BlockInfo FileLocation)) (st st1 : BlockProcessor),
      readBlocks src table st blocks = some st1 → st.currentTxNum < 4294967296 →
      ∃ processed written, processed <+: blocks ∧
        st1.blockFile = st.blockFile ++ written ∧
        written.map (fun b => b.coinbaseOffset) =
          coinbaseOffsets st.blockCoinbaseFile st.coinbase
            (runTransactions src st.currentTxNum processed) ∧
        st1.hash_transaction_queue = st.hash_transaction_queue ++
          (runTransactions src st.currentTxNum processed).flatten.map
            (fun tx => if hasNullInput tx then { tx with inputs := [] } else tx) ∧
        st1.sequenceFile = st.sequenceFile ++
          (runTransactions src st.currentTxNum processed).flatten.map
            (fun tx => tx.inputs.map (fun input : RawInput => input.sequenceNum)) ∧
        st1.blockCoinbaseFile = writeCoinbases st.blockCoinbaseFile st.coinbase
          (runTransactions src st.currentTxNum processed) := by
  intro blocks
  induction blocks with
  | nil =>
    intro st st1 h _
    simp only [readBlocks, Option.some.injEq] at h
    subst h
    exact ⟨[], [], List.prefix_refl _, by simp, by simp [coinbaseOffsets, runTransactions],
      by simp [runTransactions], by simp [runTransactions],
      by simp [runTransactions, writeCoinbases]⟩
  | cons block rest ih =>
    intro st st1 h hcur
    simp only [readBlocks] at h
    cases hb : readBlock src table st block with
    | none => simp [hb] at h
    | some r =>
      obtain ⟨continued, st2⟩ := r
      cases continued with
      | false =>
        simp only [hb, Option.some.injEq] at h
        subst h
        rw [readBlock_false src table st st2 block hb]
        exact ⟨[], [], List.nil_prefix, by simp, by simp [coinbaseOffsets, runTransactions],
          by simp [runTransactions], by simp [runTransactions],
          by simp [runTransactions, writeCoinbases]⟩
      | true =>
        simp only [hb] at h
        obtain ⟨hq, hs, hc, hf, ⟨b, hbf, hoff⟩, hcur2⟩ :=
          readBlock_loaded src table st st2 block hb hcur
        obtain ⟨processed, written, hpre, hbf1, hoff1, hq1, hs1, hf1⟩ :=
          ih st2 st1 h (by rw [hcur2]; exact Nat.mod_lt _ (by norm_num))
        rw [hcur2, hc, hf] at hoff1 hf1
        rw [hcur2] at hq1 hs1
        refine ⟨block :: processed, b :: written, ?_, ?_, ?_, ?_, ?_, ?_⟩
        · obtain ⟨t, ht⟩ := hpre
          exact ⟨t, by rw [← ht]; rfl⟩
        · rw [hbf1, hbf]
          simp
        · simp only [List.map_cons, runTransactions, coinbaseOffsets, hoff, hoff1]
        · rw [hq1, hq]
          simp [runTransactions]
        · rw [hs1, hs]
          simp [runTransactions]
        · rw [hf1]
          simp only [runTransactions, writeCoinbases]

theorem readNewBlocks_loaded (src : BlockFiles) (blocks : List (BlockInfo FileLocation))
    (st st1 : BlockProcessor) (h : readNewBlocks src st blocks = some st1)
    (hcur : st.currentTxNum < 4294967296) :
    ∃ processed written, processed <+: blocks ∧
      st1.blockFile = st.blockFile ++ written ∧
      written.map (fun b => b.coinbaseOffset) =
        coinbaseOffsets st.blockCoinbaseFile [] (runTransactions src st.currentTxNum processed) ∧
      st1.hash_transaction_queue = st.hash_transaction_queue ++
        (runTransactions src st.currentTxNum processed).flatten.map
          (fun tx => if hasNullInput tx then { tx with inputs := [] } else tx) ∧
      st1.sequenceFile = st.sequenceFile ++
        (runTransactions src st.currentTxNum processed).flatten.map
          (fun tx => tx.inputs.map (fun input : RawInput => input.sequenceNum)) ∧
      st1.blockCoinbaseFile = writeCoinbases st.blockCoinbaseFile []
        (runTransactions src st.currentTxNum processed) := by
  unfold readNewBlocks at h
  cases hr : readBlocks src (lastTxRequired st.currentTxNum blocks [])
      { st with coinbase := [] } blocks with
  | none => simp [hr] at h
  | some st2 =>
    simp only [hr, Option.some.injEq] at h
    subst h
    exact readBlocks_loaded src _ blocks { st with coinbase := [] } st2 hr hcur

theorem capturedCoinbase_append (coinbase : List Byte) (first rest : List RawTransaction) :
    capturedCoinbase coinbase (first ++ rest) =
      capturedCoinbase (capturedCoinbase coinbase first) rest := by
  induction first generalizing coinbase with
  | nil => rfl
  | cons tx first ih => exact ih _

theorem capturedCoinbase_of_no_null_input (coinbase : List Byte) (txs : List RawTransaction)
    (h : ∀ t ∈ txs, hasNullInput t = false) : capturedCoinbase coinbase txs = coinbase := by
  induction txs with
  | nil => rfl
  | cons tx rest ih =>
    simp only [capturedCoinbase, h tx (List.mem_cons_self _ _), Bool.false_eq_true, if_false]
    exact ih (fun t ht => h t (List.mem_cons_of_mem _ ht))

theorem capturedCoinbase_of_last (coinbase : List Byte) (first rest : List RawTransaction)
    (tx : RawTransaction) (htx : hasNullInput tx = true)
    (hrest : ∀ t ∈ rest, hasNullInput t = false) :
    capturedCoinbase coinbase (first ++ tx :: rest) = firstInputScript tx := by
  rw [capturedCoinbase_append]
  simp only [capturedCoinbase, htx, if_true]
  exact capturedCoinbase_of_no_null_input _ _ hrest

theorem CoinbaseRecordAt.writeCoinbase (file : List Byte) (bytes : List Byte) :
    CoinbaseRecordAt (writeCoinbase file bytes) file.length bytes :=
  ⟨file, [], by simp [BlockSci.writeCoinbase], rfl⟩

theorem CoinbaseRecordAt.writeCoinbases (offset : Nat) (bytes : List Byte) :
    ∀ (groups : List (List RawTransaction)) (file coinbase : List Byte),
      CoinbaseRecordAt file offset bytes →
      CoinbaseRecordAt (BlockSci.writeCoinbases file coinbase groups) offset bytes := by
  intro groups
  induction groups with
  | nil =>
    intro file coinbase h
    exact h
  | cons group rest ih =>
    intro file coinbase h
    simp only [BlockSci.writeCoinbases]
    apply ih
    obtain ⟨before, after, hfile, hlen⟩ := h
    refine ⟨before, after ++ (uint32Bytes ((capturedCoinbase coinbase group).length % 4294967296)
      ++ capturedCoinbase coinbase group), ?_, hlen⟩
    rw [BlockSci.writeCoinbase, hfile]
    simp

theorem coinbaseRecord_of_group :
    ∀ (groups : List (List RawTransaction)) (file coinbase : List Byte) (k offset : Nat)
      (first rest : List RawTransaction) (tx : RawTransaction),
      groups[k]? = some (first ++ tx :: rest) →
      (coinbaseOffsets file coinbase groups)[k]? = some offset →
      hasNullInput tx = true → (∀ t ∈ rest, hasNullInput t = false) →
      CoinbaseRecordAt (writeCoinbases file coinbase groups) offset (firstInputScript tx) := by
  intro groups
  induction groups with
  | nil =>
    intro file coinbase k offset first rest tx hk
    simp at hk
  | cons group groups ih =>
    intro file coinbase k offset first rest tx hk hoff htx hrest
    cases k with
    | zero =>
      simp only [List.getElem?_cons_zero, Option.some.injEq] at hk
      simp only [coinbaseOffsets, List.getElem?_cons_zero, Option.some.injEq] at hoff
      subst hk
      subst hoff
      simp only [writeCoinbases]
      apply CoinbaseRecordAt.writeCoinbases
      rw [capturedCoinbase_of_last coinbase first rest tx htx hrest]
      exact CoinbaseRecordAt.writeCoinbase file _
    | succ k =>
      simp only [List.getElem?_cons_succ] at hk
      simp only [coinbaseOffsets, List.getElem?_cons_succ] at hoff
      simp only [writeCoinbases]
      exact ih _ _ k offset first rest tx hk hoff htx hrest

theorem hasNullInput_iff (tx : RawTransaction) :
    hasNullInput tx = true ↔
      ∃ input, tx.inputs = [input] ∧ input.rawOutputPointer.hash = nullHash := by
  unfold hasNullInput
  match h : tx.inputs with
  | [] => simp
  | [input] => simp
  | a :: b :: rest => simp

theorem addOutputs_succeeds (f : AddressType → Bool) (txNum : Nat) (hash : uint256) :
    ∀ (outs : List RawOutput) (s : UTXOState) (j : Nat),
      (outs ≠ [] → j + outs.length ≤ 65536) →
      (∀ (i : Nat) (output : RawOutput), outs[i]? = some output →
        f (addressType output.scriptOutput) = true →
        s.lookup { hash := hash, outputNum := j + i } = none) →
      ∃ r, addOutputs f txNum hash s outs j = some r := by
  intro outs
  induction outs with
  | nil =>
    intro s j _ _
    exact ⟨_, rfl⟩
  | cons output rest ih =>
    intro s j hbound hfree
    have hb := hbound (by simp)
    simp only [List.length_cons] at hb
    have hnext : rest ≠ [] → (j + 1) % 65536 = j + 1 := by
      intro hne
      have : 0 < rest.length := List.length_pos.mpr hne
      exact Nat.mod_eq_of_lt (by omega)
    have hrest : rest ≠ [] → (j + 1) % 65536 + rest.length ≤ 65536 := by
      intro hne
      rw [hnext hne]
      omega
    have hstep : ∀ s1 : UTXOState,
        (∀ k : RawOutputPointer, k ≠ { hash := hash, outputNum := j } →
          s1.lookup k = s.lookup k) →
        ∃ r, addOutputs f txNum hash s1 rest ((j + 1) % 65536) = some r := by
      intro s1 hs1
      apply ih s1 _ hrest
      intro i out hi hsp
      have hne : rest ≠ [] := by
        intro h
        rw [h] at hi
        simp at hi
      rw [hnext hne, hs1 _ (by
        intro heq
        have := congrArg RawOutputPointer.outputNum heq
        simp at this
        omega)]
      have := hfree (i + 1) out (by simpa using hi) hsp
      rwa [show j + (i + 1) = j + 1 + i by omega] at this
    simp only [addOutputs, Inout.make]
    by_cases hsp : f (addressType output.scriptOutput) = true
    · have h0 := hfree 0 output (by simp) hsp
      simp only [Nat.add_zero] at h0
      simp only [hsp, if_true, UTXOState.addOutput, h0]
      obtain ⟨r, hr⟩ := hstep (({ hash := hash, outputNum := j },
        { output := { linkedTxNum := txNum, toAddressNum := 0,
                      type := addressType output.scriptOutput, value := output.value },
          addressType := addressType output.scriptOutput }) :: s) (by
        intro k hk
        have : (k == ({ hash := hash, outputNum := j } : RawOutputPointer)) = false := by
          simpa using hk
        rw [List.lookup_cons, this])
      exact ⟨_, by rw [hr]⟩
    · simp only [hsp, Bool.false_eq_true, if_false]
      obtain ⟨r, hr⟩ := hstep s (fun _ _ => rfl)
      exact ⟨_, by rw [hr]⟩

theorem processUTXOsConsume_of_no_inputs (isSpendable : AddressType → Bool) (s : UTXOStage)
    (tx : RawTransaction) (h : tx.inputs = []) :
    (processUTXOsConsume isSpendable s tx = none ↔
      addOutputs isSpendable tx.txNum tx.hash s.utxoState tx.outputs 0 = none) ∧
    (∀ s1, processUTXOsConsume isSpendable s tx = some s1 →
      ∃ d, s1.txFile = s.txFile ++ [d] ∧ d.inputCount = 0) ∧
    (tx.outputs.length ≤ 65536 →
      (∀ (i : Nat) (output : RawOutput), tx.outputs[i]? = some output →
        isSpendable (addressType output.scriptOutput) = true →
        s.utxoState.lookup { hash := tx.hash, outputNum := i } = none) →
      ∃ s1, processUTXOsConsume isSpendable s tx = some s1) := by
  have hsucc : tx.outputs.length ≤ 65536 →
      (∀ (i : Nat) (output : RawOutput), tx.outputs[i]? = some output →
        isSpendable (addressType output.scriptOutput) = true →
        s.utxoState.lookup { hash := tx.hash, outputNum := i } = none) →
      ∃ r, addOutputs isSpendable tx.txNum tx.hash s.utxoState tx.outputs 0 = some r := by
    intro hlen hfree
    apply addOutputs_succeeds isSpendable tx.txNum tx.hash tx.outputs s.utxoState 0
      (fun _ => by omega)
    intro i output hi hsp
    rw [Nat.zero_add]
    exact hfree i output hi hsp
  simp only [processUTXOsConsume, h, spendInputs, RawTransaction.getRawTransaction]
  cases ha : addOutputs isSpendable tx.txNum tx.hash s.utxoState tx.outputs 0 with
  | none =>
    refine ⟨by simp, by simp, ?_⟩
    intro hlen hfree
    obtain ⟨r, hr⟩ := hsucc hlen hfree
    rw [ha] at hr
    simp at hr
  | some r =>
    refine ⟨by simp, ?_, fun _ _ => ⟨_, rfl⟩⟩
    intro s1 hs1
    simp only [Option.some.injEq] at hs1
    subst hs1
    exact ⟨_, rfl, rfl⟩

/-- C11 (as amended): in a file-mode run of `readNewBlocks` that ends without error from a 32-bit
`currentTxNum`, the transactions pushed to the hash queue are, in order, the transactions loaded
for the blocks read, each with its input list cleared when it has exactly one input whose
previous-output hash is the null hash and unchanged otherwise. Where such a transaction is the
last of its kind in its block, the record of the coinbase file at the `coinbaseOffset` of the
block's record holds exactly the script bytes of that input. Whatever hash stage 2 gives such a
transaction, the input loop of stage 3 has nothing to look up for what was pushed for it (stage 3
fails on it only when an insert of its output loop is fatal, and consumes it when it has at most
`2^16` outputs and the keys of its spendable outputs are not in the map), and the record stage 3
writes for it has `inputCount` 0, for which `Transaction::isCoinbase` is true; `isCoinbase` holds
exactly when `inputCount` is 0. -/
theorem readNewBlocks_coinbase_inputs_cleared (src : BlockFiles) (st st1 : BlockProcessor)
    (blocks : List (BlockInfo FileLocation))
    (hrun : readNewBlocks src st blocks = some st1) (hcur : st.currentTxNum < 4294967296) :
    (∃ processed written, processed <+: blocks ∧ st1.blockFile = st.blockFile ++ written ∧
      written.length = (runTransactions src st.currentTxNum processed).length ∧
      st1.hash_transaction_queue = st.hash_transaction_queue ++
        (runTransactions src st.currentTxNum processed).flatten.map
          (fun tx => if hasNullInput tx then { tx with inputs := [] } else tx) ∧
      ∀ (k : Nat) (b : Block) (first rest : List RawTransaction) (tx : RawTransaction)
        (input : RawInput),
        written[k]? = some b →
        (runTransactions src st.currentTxNum processed)[k]? = some (first ++ tx :: rest) →
        tx.inputs = [input] → input.rawOutputPointer.hash = nullHash →
        (∀ t ∈ rest, hasNullInput t = false) →
        CoinbaseRecordAt st1.blockCoinbaseFile b.coinbaseOffset input.script) ∧
    (∀ tx : RawTransaction, hasNullInput tx = true ↔
      ∃ input, tx.inputs = [input] ∧ input.rawOutputPointer.hash = nullHash) ∧
    (∀ (tx : RawTransaction) (isSpendable : AddressType → Bool) (s : UTXOStage)
      (hash : uint256), hasNullInput tx = true →
      (processUTXOsConsume isSpendable s
          { (if hasNullInput tx then { tx with inputs := [] } else tx) with hash := hash } =
          none ↔
        addOutputs isSpendable tx.txNum hash s.utxoState tx.outputs 0 = none) ∧
      (∀ s1, processUTXOsConsume isSpendable s
          { (if hasNullInput tx then { tx with inputs := [] } else tx) with hash := hash } =
          some s1 →
        ∃ d, s1.txFile = s.txFile ++ [d] ∧ d.inputCount = 0 ∧
          ({ data := d, txNum := tx.txNum, blockHeight := tx.blockHeight } :
            Transaction).isCoinbase = true) ∧
      (tx.outputs.length ≤ 65536 →
        (∀ (i : Nat) (output : RawOutput), tx.outputs[i]? = some output →
          isSpendable (addressType output.scriptOutput) = true →
          s.utxoState.lookup { hash := hash, outputNum := i } = none) →
        ∃ s1, processUTXOsConsume isSpendable s
          { (if hasNullInput tx then { tx with inputs := [] } else tx) with hash := hash } =
          some s1)) ∧
    ∀ t : Transaction, t.isCoinbase = true ↔ t.inputCount = 0 := by
  refine ⟨?_, hasNullInput_iff, ?_, ?_⟩
  · obtain ⟨processed, written, hpre, hbf, hoff, hq, _, hf⟩ :=
      readNewBlocks_loaded src blocks st st1 hrun hcur
    have hlen : written.length = (runTransactions src st.currentTxNum processed).length := by
      have := congrArg List.length hoff
      rw [List.length_map] at this
      rw [this]
      generalize runTransactions src st.currentTxNum processed = groups
      generalize st.blockCoinbaseFile = file
      generalize ([] : List Byte) = coinbase
      induction groups generalizing file coinbase with
      | nil => rfl
      | cons group groups ih => simp [coinbaseOffsets, ih]
    refine ⟨processed, written, hpre, hbf, hlen, hq, ?_⟩
    intro k b first rest tx input hb hgroup hin hnull hrest
    have htx : hasNullInput tx = true := (hasNullInput_iff tx).mpr ⟨input, hin, hnull⟩
    have hoffk : (coinbaseOffsets st.blockCoinbaseFile []
        (runTransactions src st.currentTxNum processed))[k]? = some b.coinbaseOffset := by
      rw [← hoff, List.getElem?_map, hb]
      rfl
    have := coinbaseRecord_of_group _ st.blockCoinbaseFile [] k b.coinbaseOffset first rest tx
      hgroup hoffk htx hrest
    rw [hf]
    simpa [firstInputScript, hin] using this
  · intro tx isSpendable s hash htx
    obtain ⟨hnone, hsome, hsucc⟩ := processUTXOsConsume_of_no_inputs isSpendable s
      { (if hasNullInput tx then { tx with inputs := [] } else tx) with hash := hash }
      (by simp [htx])
    refine ⟨?_, ?_, ?_⟩
    · rw [hnone]
      simp [htx]
    · intro s1 hs1
      obtain ⟨d, h2, h3⟩ := hsome s1 hs1
      exact ⟨d, h2, h3, by simp [Transaction.isCoinbase, Transaction.inputCount, h3]⟩
    · intro hlen hfree
      apply hsucc
      · simpa [htx] using hlen
      · intro i output hi hsp
        exact hfree i output (by simpa [htx] using hi) hsp
  · intro t
    simp [Transaction.isCoinbase]

/-- C11, witness: the two sample blocks hold a coinbase and a spend each; the coinbases are pushed
without inputs, the spends with their input, and the coinbase file holds the script `01 02 03`
twice, each time behind its length. -/
theorem readNewBlocks_coinbase_inputs_cleared_witness :
    ∃ st1, readNewBlocks sampleFiles (BlockProcessor.new 10 4 2 []) sampleChain = some st1 ∧
      (BlockProcessor.new 10 4 2 []).currentTxNum < 4294967296 ∧
      st1.hash_transaction_queue.map (fun t => t.inputs.length) = [0, 1, 0, 1] ∧
      st1.blockCoinbaseFile = [3, 0, 0, 0, 1, 2, 3, 3, 0, 0, 0, 1, 2, 3] ∧
      st1.blockFile.map (fun b => b.coinbaseOffset) = [0, 7] ∧
      ∃ processed written, processed <+: sampleChain ∧
        st1.blockFile = (BlockProcessor.new 10 4 2 []).blockFile ++ written ∧
        written.length = (runTransactions sampleFiles
          (BlockProcessor.new 10 4 2 []).currentTxNum processed).length ∧
        st1.hash_transaction_queue = (BlockProcessor.new 10 4 2 []).hash_transaction_queue ++
          (runTransactions sampleFiles
            (BlockProcessor.new 10 4 2 []).currentTxNum processed).flatten.map
            (fun tx => if hasNullInput tx then { tx with inputs := [] } else tx) ∧
        ∀ (k : Nat) (b : Block) (first rest : List RawTransaction) (tx : RawTransaction)
          (input : RawInput),
          written[k]? = some b →
          (runTransactions sampleFiles
            (BlockProcessor.new 10 4 2 []).currentTxNum processed)[k]? =
              some (first ++ tx :: rest) →
          tx.inputs = [input] → input.rawOutputPointer.hash = nullHash →
          (∀ t ∈ rest, hasNullInput t = false) →
          CoinbaseRecordAt st1.blockCoinbaseFile b.coinbaseOffset input.script :=
  ⟨_, rfl, by decide, by decide, by decide, by decide,
    (readNewBlocks_coinbase_inputs_cleared sampleFiles (BlockProcessor.new 10 4 2 []) _
      sampleChain rfl (by decide)).1⟩

/-- C11, counterexample to the claim as stated: a block whose two transactions both have a single
null input, with the scripts `01 02 03` and `09`. The first of them is parsed with exactly one
input whose previous-output hash is the null hash, and the coinbase record written for its block
holds the one byte `09` of the second: the record at the block's `coinbaseOffset` is not the
record of the script `01 02 03`. -/
theorem coinbase_record_holds_script_of_last_null_input :
    ∃ st1 tx tx1 input,
      readNewBlocks twoCoinbaseFiles (BlockProcessor.new 0 2 1 []) [sampleBlockAt 11 0 1 8] =
        some st1 ∧
      runTransactions twoCoinbaseFiles 0 [sampleBlockAt 11 0 1 8] = [[tx, tx1]] ∧
      tx.inputs = [input] ∧ input.rawOutputPointer.hash = nullHash ∧
      input.script = [1, 2, 3] ∧
      st1.blockFile.map (fun b => b.coinbaseOffset) = [0] ∧
      st1.blockCoinbaseFile = [1, 0, 0, 0, 9] ∧
      ¬ CoinbaseRecordAt st1.blockCoinbaseFile 0 input.script := by
  refine ⟨_, _, _, _, rfl, rfl, rfl, rfl, rfl, by decide, by decide, ?_⟩
  show ¬ CoinbaseRecordAt [1, 0, 0, 0, 9] 0 [1, 2, 3]
  rintro ⟨before, after, hfile, _⟩
  have hlen := congrArg List.length hfile
  simp only [List.length_append, uint32Bytes, List.length_cons, List.length_nil] at hlen
  omega

/-! ### The chain reader: coinbase records -/

theorem readUInt32_uint32Bytes (n : Nat) (hn : n < 4294967296) (rest : List Byte) :
    readUInt32 (uint32Bytes n ++ rest) = some n := by
  simp only [readUInt32, uint32Bytes, List.cons_append, List.nil_append, Fin.ofNat, Fin.val_mk,
    Option.some.injEq]
  omega

/-- C12: for every coinbase file and every offset at which the file holds a record, the 32-bit
little-endian length of some bytes followed by these bytes (fewer than `2^32` of them, as a
32-bit length can say), `getCoinbase(offset)` returns exactly these bytes, in order. In
particular, after stage 1 has written the record of a script to a coinbase file, `getCoinbase`
at the size the file had before, which is the block's `coinbaseOffset`, returns the script. -/
theorem getCoinbase_returns_record (ca : ChainAccess) (offset : Nat) (bytes : List Byte)
    (hrecord : CoinbaseRecordAt ca.blockCoinbaseFile offset bytes)
    (hlength : bytes.length < 4294967296) :
    ca.getCoinbase offset = some bytes ∧
      ∀ (file script : List Byte), script.length < 4294967296 →
        ({ ca with blockCoinbaseFile := writeCoinbase file script }).getCoinbase file.length =
          some script := by
  have key : ∀ (ca : ChainAccess) (offset : Nat) (bytes : List Byte),
      CoinbaseRecordAt ca.blockCoinbaseFile offset bytes → bytes.length < 4294967296 →
      ca.getCoinbase offset = some bytes := by
    intro ca offset bytes hrecord hlength
    obtain ⟨before, after, hfile, hbefore⟩ := hrecord
    unfold ChainAccess.getCoinbase
    have hdrop : ca.blockCoinbaseFile.drop offset =
        uint32Bytes (bytes.length % 4294967296) ++ (bytes ++ after) := by
      rw [hfile, ← hbefore]
      simp
    have hread : readUInt32 (ca.blockCoinbaseFile.drop offset) = some bytes.length := by
      rw [hdrop, readUInt32_uint32Bytes _ (Nat.mod_lt _ (by norm_num)),
        Nat.mod_eq_of_lt hlength]
    have hsize : ca.blockCoinbaseFile.length = offset + 4 + bytes.length + after.length := by
      rw [hfile, ← hbefore]
      simp [uint32Bytes]
      omega
    simp only [hread]
    rw [if_pos (by omega), hdrop]
    simp [uint32Bytes]
  refine ⟨key ca offset bytes hrecord hlength, ?_⟩
  intro file script hscript
  exact key _ _ _ (CoinbaseRecordAt.writeCoinbase file script) hscript

/-- C12, witness: the second record of the sample coinbase file starts at offset 7 and holds the
two bytes `04 05`. -/
theorem getCoinbase_returns_record_witness :
    CoinbaseRecordAt sampleAccess.blockCoinbaseFile 7 [4, 5] ∧
      ([4, 5] : List Byte).length < 4294967296 ∧
      sampleAccess.getCoinbase 7 = some [4, 5] ∧
      ChainAccess.new sampleBlockFile sampleCoinbaseFile true 0 = some sampleAccess :=
  ⟨⟨[3, 0, 0, 0, 1, 2, 3], [0, 0, 0, 0, 1, 0, 0, 0, 6], by decide, rfl⟩, by decide,
    (getCoinbase_returns_record sampleAccess 7 [4, 5]
      ⟨[3, 0, 0, 0, 1, 2, 3], [0, 0, 0, 0, 1, 0, 0, 0, 6], by decide, rfl⟩ (by decide)).1,
    by decide⟩

/-! ### Stage 3: the records written per input and per output -/

theorem spendInputs_records (s : UTXOState) (ins : List RawInput)
    (r : List RawInput × List Inout × UTXOState) (h : spendInputs s ins = some r) :
    r.1.length = ins.length ∧ r.2.1.length = ins.length ∧
      ∀ (i : Nat) (input : RawInput), ins[i]? = some input →
        ∃ utxo, s.lookup input.rawOutputPointer = some utxo ∧
          r.1[i]? = some { input with addressType := utxo.addressType,
                                      linkedTxNum := utxo.output.linkedTxNum } ∧
          r.2.1[i]? = some { linkedTxNum := utxo.output.linkedTxNum, toAddressNum := 0,
                             type := utxo.addressType, value := utxo.output.value } := by
  induction ins generalizing s r with
  | nil =>
    simp only [spendInputs, Option.some.injEq] at h
    subst h
    simp
  | cons first rest ih =>
    simp only [spendInputs, UTXOState.spendOutput] at h
    cases hl : List.lookup first.rawOutputPointer s with
    | none => simp [hl] at h
    | some utxo =>
      simp only [hl] at h
      cases hr : spendInputs (List.filter (fun e => e.1 != first.rawOutputPointer) s) rest with
      | none => simp [hr] at h
      | some r1 =>
        simp only [hr, Option.some.injEq] at h
        subst h
        obtain ⟨h1, h2, h3⟩ := ih _ r1 hr
        refine ⟨by simp [h1], by simp [h2], ?_⟩
        intro i input hi
        cases i with
        | zero =>
          simp only [List.getElem?_cons_zero, Option.some.injEq] at hi
          subst hi
          exact ⟨utxo, hl, by simp, by simp [Inout.make, Inout.getValue]⟩
        | succ i =>
          simp only [List.getElem?_cons_succ] at hi
          obtain ⟨utxo1, hlook, hres, hrec⟩ := h3 i input hi
          rw [lookup_filter_ne] at hlook
          by_cases hp : input.rawOutputPointer = first.rawOutputPointer
          · simp [hp] at hlook
          · rw [if_neg hp] at hlook
            exact ⟨utxo1, hlook, by simpa using hres, by simpa using hrec⟩

/-- C13: when `consume` of `processUTXOs` runs through on a transaction, every input's out-point
has an entry in the UTXO map the transaction meets; the input loop removes these entries and no
other, the map reached being what the output loop makes of the result; the transaction handed on
carries, input by input, the entry's address type and producing transaction number; and the
record appended to the tx file is the header followed by one `Inout` per input in input order,
input `i` being record `i` with `linkedTxNum` the producing transaction number, address number
0, the entry's address type and the entry's value, and then by the records of the outputs. -/
theorem processUTXOs_input_records (isSpendable : AddressType → Bool) (st st1 : UTXOStage)
    (tx : RawTransaction) (hrun : processUTXOsConsume isSpendable st tx = some st1) :
    ∃ (resolved : List RawInput) (inputRecords outputRecords : List Inout)
      (afterInputs : UTXOState),
      (∀ pointer : RawOutputPointer, afterInputs.lookup pointer =
        if pointer ∈ tx.inputs.map (fun input => input.rawOutputPointer) then none
        else st.utxoState.lookup pointer) ∧
      addOutputs isSpendable tx.txNum tx.hash afterInputs tx.outputs 0 =
        some (outputRecords, st1.utxoState) ∧
      st1.addressQueue = st.addressQueue ++ [{ tx with inputs := resolved }] ∧
      st1.txFile = st.txFile ++
        [{ tx.getRawTransaction with inouts := inputRecords ++ outputRecords }] ∧
      resolved.length = tx.inputs.length ∧ inputRecords.length = tx.inputs.length ∧
      ∀ (i : Nat) (input : RawInput), tx.inputs[i]? = some input →
        ∃ utxo, st.utxoState.lookup input.rawOutputPointer = some utxo ∧
          afterInputs.lookup input.rawOutputPointer = none ∧
          resolved[i]? = some { input with addressType := utxo.addressType,
                                           linkedTxNum := utxo.output.linkedTxNum } ∧
          ({ tx.getRawTransaction with inouts := inputRecords ++ outputRecords } :
              DiskTransaction).getInput i =
            some { linkedTxNum := utxo.output.linkedTxNum, toAddressNum := 0,
                   type := utxo.addressType, value := utxo.output.value } := by
  unfold processUTXOsConsume at hrun
  cases hs : spendInputs st.utxoState tx.inputs with
  | none => simp [hs] at hrun
  | some r =>
    obtain ⟨resolved, inputRecords, afterInputs⟩ := r
    simp only [hs] at hrun
    cases ha : addOutputs isSpendable tx.txNum tx.hash afterInputs tx.outputs 0 with
    | none => simp [ha] at hrun
    | some r2 =>
    obtain ⟨outputRecords, s2⟩ := r2
    simp only [ha, Option.some.injEq] at hrun
    subst hrun
    obtain ⟨h1, h2, h3⟩ := spendInputs_records _ _ _ hs
    have hlook := spendInputs_lookup _ _ _ hs
    refine ⟨resolved, inputRecords, outputRecords, afterInputs, hlook, ha, rfl, rfl, h1, h2,
      ?_⟩
    intro i input hi
    obtain ⟨utxo, hu, hres, hrec⟩ := h3 i input hi
    refine ⟨utxo, hu, ?_, hres, ?_⟩
    · rw [hlook]
      have : input.rawOutputPointer ∈ tx.inputs.map (fun input => input.rawOutputPointer) :=
        List.mem_map.mpr ⟨input, List.getElem?_mem hi, rfl⟩
      simp [this]
    · have hlt : i < inputRecords.length := by
        rw [h2]
        exact (List.getElem?_eq_some_iff.mp hi).1
      simp only [DiskTransaction.getInput]
      rw [List.getElem?_append_left hlt]
      exact hrec

/-- C13, witness: in the simple-spend scenario the spend of output 0 of transaction 7 is consumed
after the two coinbases; its input gets the type `PUBKEY` and the producing transaction number 0,
and the record written for it is `Inout{0, (0, PUBKEY), 5000000000}`, the first record behind the
header. -/
theorem processUTXOs_input_records_witness :
    ∃ st st1,
      processUTXOs spendableUnlessNullData emptyUTXOStage (simpleSpendTxs.take 2) = some st ∧
      processUTXOsConsume spendableUnlessNullData st
        (sampleTx 2 9 [inputSpending 7 0] [pubkeyOutput 4999990000]) = some st1 ∧
      st1 = simpleSpendStage ∧
      st1.txFile[2]?.map (fun d => d.inouts) =
        some [{ linkedTxNum := 0, toAddressNum := 0, type := AddressType.PUBKEY,
                value := 5000000000 },
              { linkedTxNum := 0, toAddressNum := 0, type := AddressType.PUBKEY,
                value := 4999990000 }] ∧
      ∃ (resolved : List RawInput) (inputRecords outputRecords : List Inout)
        (afterInputs : UTXOState),
        (∀ pointer : RawOutputPointer, afterInputs.lookup pointer =
          if pointer ∈ (sampleTx 2 9 [inputSpending 7 0] [pubkeyOutput 4999990000]).inputs.map
            (fun input => input.rawOutputPointer) then none
          else st.utxoState.lookup pointer) ∧
        addOutputs spendableUnlessNullData 2 9 afterInputs [pubkeyOutput 4999990000] 0 =
          some (outputRecords, st1.utxoState) ∧
        st1.addressQueue = st.addressQueue ++
          [{ sampleTx 2 9 [inputSpending 7 0] [pubkeyOutput 4999990000] with
             inputs := resolved }] ∧
        st1.txFile = st.txFile ++
          [{ (sampleTx 2 9 [inputSpending 7 0]
              [pubkeyOutput 4999990000]).getRawTransaction with
             inouts := inputRecords ++ outputRecords }] ∧
        resolved.length = 1 ∧ inputRecords.length = 1 ∧
        ∀ (i : Nat) (input : RawInput), [inputSpending 7 0][i]? = some input →
          ∃ utxo, st.utxoState.lookup input.rawOutputPointer = some utxo ∧
            afterInputs.lookup input.rawOutputPointer = none ∧
            resolved[i]? = some { input with addressType := utxo.addressType,
                                             linkedTxNum := utxo.output.linkedTxNum } ∧
            ({ (sampleTx 2 9 [inputSpending 7 0]
                [pubkeyOutput 4999990000]).getRawTransaction with
               inouts := inputRecords ++ outputRecords } : DiskTransaction).getInput i =
              some { linkedTxNum := utxo.output.linkedTxNum, toAddressNum := 0,
                     type := utxo.addressType, value := utxo.output.value } :=
  ⟨_, _, rfl, rfl, by decide, by decide,
    processUTXOs_input_records spendableUnlessNullData _
      _ (sampleTx 2 9 [inputSpending 7 0] [pubkeyOutput 4999990000]) rfl⟩

theorem addOutputs_records (f : AddressType → Bool) (txNum : Nat) (hash : uint256) :
    ∀ (outs : List RawOutput) (s : UTXOState) (j : Nat) (r : List Inout × UTXOState),
      addOutputs f txNum hash s outs j = some r →
      r.1 =
        outs.map (fun output => { linkedTxNum := 0, toAddressNum := 0,
                                  type := addressType output.scriptOutput,
                                  value := output.value }) := by
  intro outs
  induction outs with
  | nil =>
    intro s j r h
    simp only [addOutputs, Option.some.injEq] at h
    subst h
    rfl
  | cons output rest ih =>
    intro s j r h
    obtain ⟨s1, r1, _, hr, hreq⟩ := addOutputs_cons f txNum hash s output rest j r h
    subst hreq
    simp only [List.map_cons, ih s1 _ r1 hr]

theorem addOutputs_inserts (f : AddressType → Bool) (txNum : Nat) (hash : uint256) :
    ∀ (outs : List RawOutput) (s : UTXOState) (j : Nat) (r : List Inout × UTXOState),
      (outs ≠ [] → j + outs.length ≤ 65536) →
      addOutputs f txNum hash s outs j = some r →
      (∀ (i : Nat) (output : RawOutput), outs[i]? = some output →
        r.2.lookup { hash := hash, outputNum := j + i } =
          if f (addressType output.scriptOutput) then
            some { output := { linkedTxNum := txNum, toAddressNum := 0,
                               type := addressType output.scriptOutput,
                               value := output.value },
                   addressType := addressType output.scriptOutput }
          else s.lookup { hash := hash, outputNum := j + i }) ∧
      ∀ k : RawOutputPointer, (∀ i, i < outs.length → k ≠ { hash := hash, outputNum := j + i }) →
        r.2.lookup k = s.lookup k := by
  intro outs
  induction outs with
  | nil =>
    intro s j r _ h
    simp only [addOutputs, Option.some.injEq] at h
    subst h
    simp
  | cons output rest ih =>
    intro s j r hbound h
    obtain ⟨s1, r1, ha, hr, hreq⟩ := addOutputs_cons f txNum hash s output rest j r h
    subst hreq
    have hb := hbound (by simp)
    simp only [List.length_cons] at hb
    have hnext : rest ≠ [] → (j + 1) % 65536 = j + 1 := by
      intro hne
      have : 0 < rest.length := List.length_pos.mpr hne
      exact Nat.mod_eq_of_lt (by omega)
    have hrest : rest ≠ [] → (j + 1) % 65536 + rest.length ≤ 65536 := by
      intro hne
      rw [hnext hne]
      omega
    have hfirst : ∀ k : RawOutputPointer, k ≠ { hash := hash, outputNum := j } →
        s1.lookup k = s.lookup k := by
      intro k hk
      by_cases hsp : f (addressType output.scriptOutput) = true
      · simp only [hsp, if_true] at ha
        rw [lookup_addOutput s s1 _ _ k ha, if_neg hk]
      · simp only [hsp, Bool.false_eq_true, if_false, Option.some.injEq] at ha
        rw [ha]
    have hself : s1.lookup { hash := hash, outputNum := j } =
        if f (addressType output.scriptOutput) then
          some { output := { linkedTxNum := txNum, toAddressNum := 0,
                             type := addressType output.scriptOutput,
                             value := output.value },
                 addressType := addressType output.scriptOutput }
        else s.lookup { hash := hash, outputNum := j } := by
      by_cases hsp : f (addressType output.scriptOutput) = true
      · simp only [hsp, if_true] at ha ⊢
        rw [lookup_addOutput s s1 _ _ _ ha, if_pos rfl]
      · simp only [hsp, Bool.false_eq_true, if_false, Option.some.injEq] at ha ⊢
        rw [ha]
    obtain ⟨ih1, ih2⟩ := ih s1 ((j + 1) % 65536) r1 hrest hr
    constructor
    · intro i out hi
      cases i with
      | zero =>
        simp only [List.getElem?_cons_zero, Option.some.injEq] at hi
        subst hi
        show r1.2.lookup _ = _
        rw [ih2 _ (by
          intro i hi
          have := hnext (List.length_pos.mp (by omega))
          rw [this]
          intro heq
          have := congrArg RawOutputPointer.outputNum heq
          simp at this
          omega)]
        simp only [Nat.add_zero]
        exact hself
      | succ i =>
        simp only [List.getElem?_cons_succ] at hi
        have hne : rest ≠ [] := by
          intro h
          rw [h] at hi
          simp at hi
        have h1 := ih1 i out hi
        rw [hnext hne] at h1
        have hkey : j + (i + 1) = j + 1 + i := by omega
        show r1.2.lookup _ = _
        rw [hkey, h1, hfirst]
        intro heq
        have := congrArg RawOutputPointer.outputNum heq
        simp at this
        omega
    · intro k hk
      show r1.2.lookup k = _
      rw [ih2 k (by
        intro i hi
        have := hnext (List.length_pos.mp (by omega))
        rw [this]
        have := hk (i + 1) (by simp; omega)
        rwa [show j + (i + 1) = j + 1 + i by omega] at this)]
      exact hfirst k (by simpa using hk 0 (by simp))

/-- C14: when `consume` of `processUTXOs` runs through on a transaction whose output count fits
the 16-bit field of the header (the assertion of line 330), the record appended to the tx file
holds, behind the records of the inputs, one `Inout` per output in output order, that of output
`i` having `linkedTxNum` 0, address number 0, the address type computed from the output's script
and the output's value. In the map reached, the key `(tx.hash, i)` holds the entry with producing
transaction number `tx.txNum`, the output's value and its address type when that type is
spendable; when it is not, the key holds what the input loop left there, as does every key that
is not `(tx.hash, i)` for an output index `i`: nothing else is inserted. -/
theorem processUTXOs_output_records (isSpendable : AddressType → Bool) (st st1 : UTXOStage)
    (tx : RawTransaction) (hrun : processUTXOsConsume isSpendable st tx = some st1)
    (hcount : tx.getRawTransaction.outputCount = tx.outputs.length) :
    ∃ (inputRecords outputRecords : List Inout) (afterInputs : UTXOState),
      (∀ pointer : RawOutputPointer, afterInputs.lookup pointer =
        if pointer ∈ tx.inputs.map (fun input => input.rawOutputPointer) then none
        else st.utxoState.lookup pointer) ∧
      st1.txFile = st.txFile ++
        [{ tx.getRawTransaction with inouts := inputRecords ++ outputRecords }] ∧
      inputRecords.length = tx.inputs.length ∧ outputRecords.length = tx.outputs.length ∧
      (∀ (i : Nat) (output : RawOutput), tx.outputs[i]? = some output →
        (inputRecords ++ outputRecords)[tx.inputs.length + i]? =
          some { linkedTxNum := 0, toAddressNum := 0,
                 type := addressType output.scriptOutput, value := output.value } ∧
        st1.utxoState.lookup { hash := tx.hash, outputNum := i } =
          if isSpendable (addressType output.scriptOutput) then
            some { output := { linkedTxNum := tx.txNum, toAddressNum := 0,
                               type := addressType output.scriptOutput,
                               value := output.value },
                   addressType := addressType output.scriptOutput }
          else afterInputs.lookup { hash := tx.hash, outputNum := i }) ∧
      ∀ pointer : RawOutputPointer,
        (∀ i, i < tx.outputs.length → pointer ≠ { hash := tx.hash, outputNum := i }) →
        st1.utxoState.lookup pointer = afterInputs.lookup pointer := by
  unfold processUTXOsConsume at hrun
  cases hs : spendInputs st.utxoState tx.inputs with
  | none => simp [hs] at hrun
  | some r =>
    obtain ⟨resolved, inputRecords, afterInputs⟩ := r
    simp only [hs] at hrun
    cases ha : addOutputs isSpendable tx.txNum tx.hash afterInputs tx.outputs 0 with
    | none => simp [ha] at hrun
    | some r2 =>
    obtain ⟨outputRecords, s2⟩ := r2
    simp only [ha, Option.some.injEq] at hrun
    subst hrun
    obtain ⟨_, h2, _⟩ := spendInputs_records _ _ _ hs
    replace h2 : inputRecords.length = tx.inputs.length := h2
    have hlook := spendInputs_lookup _ _ _ hs
    have hsmall : tx.outputs.length < 65536 := by
      simp only [RawTransaction.getRawTransaction] at hcount
      rw [← hcount]
      exact Nat.mod_lt _ (by norm_num)
    obtain ⟨hins, hother⟩ := addOutputs_inserts isSpendable tx.txNum tx.hash tx.outputs
      afterInputs 0 (outputRecords, s2) (fun _ => by omega) ha
    have hrec : outputRecords = _ :=
      addOutputs_records isSpendable tx.txNum tx.hash tx.outputs afterInputs 0
        (outputRecords, s2) ha
    refine ⟨inputRecords, outputRecords, afterInputs, hlook, rfl, h2, ?_, ?_, ?_⟩
    · rw [hrec, List.length_map]
    · intro i output hi
      constructor
      · rw [← h2, List.getElem?_append_right (by omega), hrec, List.getElem?_map]
        simp [hi]
      · have := hins i output hi
        simp only [Nat.zero_add] at this
        exact this
    · intro pointer hp
      apply hother
      intro i hi
      simpa using hp i hi

/-- C14, witness: a transaction with a spendable output and a null-data output is consumed on
the empty store; both get a record, and only the first one gets an entry in the map. -/
theorem processUTXOs_output_records_witness :
    ∃ st1,
      processUTXOsConsume spendableUnlessNullData emptyUTXOStage
        (sampleTx 0 7 [] [pubkeyOutput 5000000000, nullDataOutput [1]]) = some st1 ∧
      (sampleTx 0 7 [] [pubkeyOutput 5000000000, nullDataOutput [1]]).getRawTransaction.outputCount
        = (sampleTx 0 7 [] [pubkeyOutput 5000000000, nullDataOutput [1]]).outputs.length ∧
      st1.utxoState.map Prod.fst = [{ hash := 7, outputNum := 0 }] ∧
      ∃ (inputRecords outputRecords : List Inout) (afterInputs : UTXOState),
        (∀ pointer : RawOutputPointer, afterInputs.lookup pointer =
          if pointer ∈ ([] : List RawInput).map (fun input => input.rawOutputPointer) then none
          else emptyUTXOStage.utxoState.lookup pointer) ∧
        st1.txFile = emptyUTXOStage.txFile ++
          [{ (sampleTx 0 7 [] [pubkeyOutput 5000000000,
              nullDataOutput [1]]).getRawTransaction with
             inouts := inputRecords ++ outputRecords }] ∧
        inputRecords.length = 0 ∧ outputRecords.length = 2 ∧
        (∀ (i : Nat) (output : RawOutput),
          [pubkeyOutput 5000000000, nullDataOutput [1]][i]? = some output →
          (inputRecords ++ outputRecords)[0 + i]? =
            some { linkedTxNum := 0, toAddressNum := 0,
                   type := addressType output.scriptOutput, value := output.value } ∧
          st1.utxoState.lookup { hash := 7, outputNum := i } =
            if spendableUnlessNullData (addressType output.scriptOutput) then
              some { output := { linkedTxNum := 0, toAddressNum := 0,
                                 type := addressType output.scriptOutput,
                                 value := output.value },
                     addressType := addressType output.scriptOutput }
            else afterInputs.lookup { hash := 7, outputNum := i }) ∧
        ∀ pointer : RawOutputPointer,
          (∀ i, i < 2 → pointer ≠ { hash := 7, outputNum := i }) →
          st1.utxoState.lookup pointer = afterInputs.lookup pointer :=
  ⟨_, rfl, by decide, by decide,
    processUTXOs_output_records spendableUnlessNullData emptyUTXOStage _
      (sampleTx 0 7 [] [pubkeyOutput 5000000000, nullDataOutput [1]]) rfl (by decide)⟩

/-! ### Stage 4: the address number of an input -/

theorem inoutAt_modifyInout (txFile : List DiskTransaction) (n idx : Nat) (f : Inout → Inout)
    (m k : Nat) :
    inoutAt (modifyInout txFile n idx f) m k =
      if m = n ∧ k = idx then (inoutAt txFile n idx).map f else inoutAt txFile m k := by
  unfold modifyInout
  cases hn : txFile[n]? with
  | none =>
    simp only
    split
    · rename_i h
      obtain ⟨rfl, rfl⟩ := h
      simp [inoutAt, hn]
    · rfl
  | some d =>
    simp only
    cases hio : d.inouts[idx]? with
    | none =>
      simp only
      split
      · rename_i h
        obtain ⟨rfl, rfl⟩ := h
        simp [inoutAt, hn, hio]
      · rfl
    | some io =>
      simp only [inoutAt]
      rw [getElem?_set_of_some txFile n m _ d hn]
      by_cases hnm : n = m
      · subst hnm
        simp only [if_true, hn, true_and]
        show (d.inouts.set idx (f io))[k]? = _
        rw [getElem?_set_of_some d.inouts idx k _ io hio]
        by_cases hk : idx = k
        · subst hk
          simp [hio]
        · have hk2 : ¬ k = idx := fun h => hk h.symm
          simp [hk, hk2]
      · have hmn : ¬ m = n := fun h => hnm h.symm
        simp [hnm, hmn]

theorem modifyInout_inputCount (txFile : List DiskTransaction) (n idx : Nat) (f : Inout → Inout)
    (m : Nat) :
    (modifyInout txFile n idx f)[m]?.map (fun d => d.inputCount) =
      txFile[m]?.map (fun d => d.inputCount) := by
  have h := congrArg (fun l => l[m]?.map Prod.fst) (fileLayout_modifyInout txFile n idx f)
  simp only [fileLayout, List.getElem?_map, Option.map_map] at h
  exact h

theorem patchStep_frame (file : List DiskTransaction) (txNum j c linked out a v : Nat)
    (diskTx spentTx : DiskTransaction) (hd : file[txNum]? = some diskTx)
    (hc : diskTx.inputCount = c) (hs : file[linked]? = some spentTx) (hj : j < c) :
    (∀ m : Nat, (modifyInout (modifyInout file txNum j (fun io => { io with toAddressNum := a }))
        linked (spentTx.inputCount + out) (fun io => { io with linkedTxNum := v }))[m]?.map
          (fun d : DiskTransaction => d.inputCount) =
        file[m]?.map (fun d : DiskTransaction => d.inputCount)) ∧
    (∀ m k : Nat, ¬ (m = txNum ∧ k = j) →
      (inoutAt (modifyInout (modifyInout file txNum j (fun io => { io with toAddressNum := a }))
        linked (spentTx.inputCount + out) (fun io => { io with linkedTxNum := v })) m k).map
          (fun io => io.toAddressNum) = (inoutAt file m k).map (fun io => io.toAddressNum)) ∧
    (∀ k, k < c → k ≠ j →
      inoutAt (modifyInout (modifyInout file txNum j (fun io => { io with toAddressNum := a }))
        linked (spentTx.inputCount + out) (fun io => { io with linkedTxNum := v })) txNum k =
          inoutAt file txNum k) ∧
    inoutAt (modifyInout (modifyInout file txNum j (fun io => { io with toAddressNum := a }))
        linked (spentTx.inputCount + out) (fun io => { io with linkedTxNum := v })) txNum j =
      (inoutAt file txNum j).map (fun io => { io with toAddressNum := a }) := by
  have hpos : ∀ k, k < c → ¬ (txNum = linked ∧ k = spentTx.inputCount + out) := by
    rintro k hk ⟨h1, h2⟩
    subst h1
    rw [hd] at hs
    have := Option.some.inj hs
    subst this
    omega
  refine ⟨?_, ?_, ?_, ?_⟩
  · intro m
    rw [modifyInout_inputCount, modifyInout_inputCount]
  · intro m k hmk
    rw [inoutAt_modifyInout]
    by_cases h1 : m = linked ∧ k = spentTx.inputCount + out
    · rw [if_pos h1, Option.map_map]
      obtain ⟨rfl, rfl⟩ := h1
      rw [inoutAt_modifyInout, if_neg hmk]
      cases inoutAt file m (spentTx.inputCount + out) <;> rfl
    · rw [if_neg h1, inoutAt_modifyInout, if_neg hmk]
  · intro k hk hkj
    rw [inoutAt_modifyInout, if_neg (hpos k hk), inoutAt_modifyInout,
      if_neg (fun h => hkj h.2)]
  · rw [inoutAt_modifyInout, if_neg (hpos j hj), inoutAt_modifyInout, if_pos ⟨rfl, rfl⟩]

theorem patchInputs_cons {State : Type} (ops : AddressOps State) (tx : RawTransaction)
    (first : RawInput) (rest : List RawInput) (j : Nat) (st st1 : AddressStage State)
    (h : patchInputs ops tx (first :: rest) j st = some st1) :
    ∃ (spentTx : DiskTransaction) (spentOutput : Inout) (diskTx : DiskTransaction)
      (old : Inout) (st2 : AddressStage State),
      st.txFile[first.linkedTxNum]? = some spentTx ∧
      spentTx.getOutput first.rawOutputPointer.outputNum = some spentOutput ∧
      st.txFile[tx.txNum]? = some diskTx ∧ diskTx.getInput j = some old ∧
      st2.txFile =
        modifyInout (modifyInout st.txFile tx.txNum j
            (fun io => { io with toAddressNum := spentOutput.toAddressNum }))
          first.linkedTxNum (spentTx.inputCount + first.rawOutputPointer.outputNum)
          (fun io => { io with linkedTxNum := tx.txNum }) ∧
      st2.revealed = st.revealed ++
        (ops.processInput spentOutput.getAddress
          { input := first, inputNum := j, txNum := tx.txNum,
            addressNum := spentOutput.toAddressNum, isSegwit := tx.isSegwit }
          tx st.addressState).1 ∧
      st2.addressState =
        (ops.processInput spentOutput.getAddress
          { input := first, inputNum := j, txNum := tx.txNum,
            addressNum := spentOutput.toAddressNum, isSegwit := tx.isSegwit }
          tx st.addressState).2 ∧
      st2.finished = st.finished ∧
      patchInputs ops tx rest ((j + 1) % 65536) st2 = some st1 := by
  simp only [patchInputs] at h
  cases hs : st.txFile[first.linkedTxNum]? with
  | none => simp [hs] at h
  | some spentTx =>
    simp only [hs] at h
    cases ho : spentTx.getOutput first.rawOutputPointer.outputNum with
    | none => simp [ho] at h
    | some spentOutput =>
      simp only [ho] at h
      cases hd : st.txFile[tx.txNum]? with
      | none => simp [hd] at h
      | some diskTx =>
        simp only [hd] at h
        cases hg : diskTx.getInput j with
        | none => simp [hg] at h
        | some old0 =>
          simp only [hg] at h
          exact ⟨spentTx, spentOutput, diskTx, old0,
            { st with
              txFile := modifyInout (modifyInout st.txFile tx.txNum j
                  (fun io => { io with toAddressNum := spentOutput.toAddressNum }))
                first.linkedTxNum (spentTx.inputCount + first.rawOutputPointer.outputNum)
                (fun io => { io with linkedTxNum := tx.txNum }),
              addressState :=
                (ops.processInput spentOutput.getAddress
                  { input := first, inputNum := j, txNum := tx.txNum,
                    addressNum := spentOutput.toAddressNum, isSegwit := tx.isSegwit }
                  tx st.addressState).2,
              revealed := st.revealed ++
                (ops.processInput spentOutput.getAddress
                  { input := first, inputNum := j, txNum := tx.txNum,
                    addressNum := spentOutput.toAddressNum, isSegwit := tx.isSegwit }
                  tx st.addressState).1 },
            rfl, ho, rfl, hg, rfl, rfl, rfl, rfl, h⟩

theorem patchInputs_input_records {State : Type} (ops : AddressOps State) (tx : RawTransaction)
    (c : Nat) (hc : c < 65536) :
    ∀ (ins : List RawInput) (j : Nat) (st st1 : AddressStage State),
      patchInputs ops tx ins j st = some st1 →
      st.txFile[tx.txNum]?.map (fun d : DiskTransaction => d.inputCount) = some c →
      j + ins.length ≤ c →
      (∀ m : Nat, st1.txFile[m]?.map (fun d : DiskTransaction => d.inputCount) =
        st.txFile[m]?.map (fun d : DiskTransaction => d.inputCount)) ∧
      (∀ m k : Nat, ¬ (m = tx.txNum ∧ j ≤ k ∧ k < j + ins.length) →
        (inoutAt st1.txFile m k).map (fun io => io.toAddressNum) =
          (inoutAt st.txFile m k).map (fun io => io.toAddressNum)) ∧
      (∀ k : Nat, k < c → ¬ (j ≤ k ∧ k < j + ins.length) →
        inoutAt st1.txFile tx.txNum k = inoutAt st.txFile tx.txNum k) ∧
      ∀ (i : Nat) (input : RawInput), ins[i]? = some input →
        ∃ spentTx spentOutput old, st.txFile[input.linkedTxNum]? = some spentTx ∧
          spentTx.getOutput input.rawOutputPointer.outputNum = some spentOutput ∧
          inoutAt st.txFile tx.txNum (j + i) = some old ∧
          inoutAt st1.txFile tx.txNum (j + i) =
            some { old with toAddressNum := spentOutput.toAddressNum } := by
  intro ins
  induction ins with
  | nil =>
    intro j st st1 h _ _
    simp only [patchInputs, Option.some.injEq] at h
    subst h
    refine ⟨fun _ => rfl, fun _ _ _ => rfl, fun _ _ _ => rfl, ?_⟩
    intro i input hi
    simp at hi
  | cons first rest ih =>
    intro j st st1 h hcount hbound
    simp only [List.length_cons] at hbound
    obtain ⟨spentTx, spentOutput, diskTx, old0, st2, hs, ho, hd, hg, hfile, _, _, _, h2⟩ :=
      patchInputs_cons ops tx first rest j st st1 h
    have hdc : diskTx.inputCount = c := by
      rw [hd] at hcount
      simpa using hcount
    have hnext : (j + 1) % 65536 = j + 1 := Nat.mod_eq_of_lt (by omega)
    rw [hnext] at h2
    obtain ⟨s1, s2, s3, s4⟩ := patchStep_frame st.txFile tx.txNum j c
      first.linkedTxNum first.rawOutputPointer.outputNum
      spentOutput.toAddressNum tx.txNum diskTx spentTx hd hdc hs (by omega)
    rw [← hfile] at s1 s2 s3 s4
    obtain ⟨f1, f2, f3, f4⟩ := ih (j + 1) st2 st1 h2
      (by rw [s1 tx.txNum]; exact hcount) (by omega)
    have hold0 : inoutAt st.txFile tx.txNum j = some old0 := by
      simp only [inoutAt, hd]
      exact hg
    refine ⟨?_, ?_, ?_, ?_⟩
    · intro m
      rw [f1 m]
      exact s1 m
    · intro m k hmk
      simp only [List.length_cons] at hmk
      have h1 : ¬ (m = tx.txNum ∧ j + 1 ≤ k ∧ k < j + 1 + rest.length) := by
        rintro ⟨e1, e2, e3⟩
        exact hmk ⟨e1, by omega, by omega⟩
      have h2 : ¬ (m = tx.txNum ∧ k = j) := by
        rintro ⟨e1, e2⟩
        exact hmk ⟨e1, by omega, by omega⟩
      rw [f2 m k h1]
      exact s2 m k h2
    · intro k hk hkj
      simp only [List.length_cons] at hkj
      have h1 : ¬ (j + 1 ≤ k ∧ k < j + 1 + rest.length) := by
        rintro ⟨e2, e3⟩
        exact hkj ⟨by omega, by omega⟩
      have h2 : k ≠ j := by
        intro e2
        exact hkj ⟨by omega, by omega⟩
      rw [f3 k hk h1]
      exact s3 k hk h2
    · intro i input hi
      cases i with
      | zero =>
        simp only [List.getElem?_cons_zero, Option.some.injEq] at hi
        subst hi
        refine ⟨spentTx, spentOutput, old0, hs, ho, hold0, ?_⟩
        rw [Nat.add_zero, f3 j (by omega) (fun hh => by omega), s4, hold0]
        rfl
      | succ i =>
        simp only [List.getElem?_cons_succ] at hi
        obtain ⟨spentTx1, spentOutput1, old1, hs1, ho1, hold1, hnew1⟩ := f4 i input hi
        have hilt : i < rest.length := (List.getElem?_eq_some_iff.mp hi).1
        have hidx : j + (i + 1) = j + 1 + i := by omega
        have hcnt := s1 input.linkedTxNum
        rw [hs1] at hcnt
        cases hs0 : st.txFile[input.linkedTxNum]? with
        | none => simp [hs0] at hcnt
        | some spentTx0 =>
          have hcnt0 : spentTx0.inputCount = spentTx1.inputCount := by
            simpa [hs0] using hcnt.symm
          have hnot : ¬ (input.linkedTxNum = tx.txNum ∧
              spentTx1.inputCount + input.rawOutputPointer.outputNum = j) := by
            rintro ⟨h1, h2⟩
            rw [h1, hd] at hs0
            have := Option.some.inj hs0
            subst this
            omega
          have hadr := s2 input.linkedTxNum
            (spentTx1.inputCount + input.rawOutputPointer.outputNum) hnot
          have hat1 : inoutAt st2.txFile input.linkedTxNum
              (spentTx1.inputCount + input.rawOutputPointer.outputNum) =
                some spentOutput1 := by
            simp only [inoutAt, hs1]
            exact ho1
          rw [hat1] at hadr
          have hat0 : inoutAt st.txFile input.linkedTxNum
              (spentTx1.inputCount + input.rawOutputPointer.outputNum) =
                spentTx0.getOutput input.rawOutputPointer.outputNum := by
            simp only [inoutAt, hs0, DiskTransaction.getOutput, hcnt0]
          rw [hat0] at hadr
          cases ho0 : spentTx0.getOutput input.rawOutputPointer.outputNum with
          | none => simp [ho0] at hadr
          | some spentOutput0 =>
            have hsame : spentOutput0.toAddressNum = spentOutput1.toAddressNum := by
              simpa [ho0] using hadr.symm
            refine ⟨spentTx0, spentOutput0, old1, rfl, ho0, ?_, ?_⟩
            · rw [hidx, ← s3 (j + 1 + i) (by omega) (by omega)]
              exact hold1
            · rw [hidx, hnew1, hsame]

theorem patchOutputs_input_records {State : Type} (ops : AddressOps State) (txNum c : Nat) :
    ∀ (outs : List RawOutput) (j : Nat) (st st1 : AddressStage State),
      patchOutputs ops txNum outs j st = some st1 →
      st.txFile[txNum]?.map (fun d : DiskTransaction => d.inputCount) = some c →
      ∀ k : Nat, k < c → inoutAt st1.txFile txNum k = inoutAt st.txFile txNum k := by
  intro outs
  induction outs with
  | nil =>
    intro j st st1 h _ k _
    simp only [patchOutputs, Option.some.injEq] at h
    subst h
    rfl
  | cons output rest ih =>
    intro j st st1 h hcount k hk
    simp only [patchOutputs] at h
    cases hd : st.txFile[txNum]? with
    | none => simp [hd] at h
    | some diskTx =>
      simp only [hd] at h
      cases hg : diskTx.getOutput j with
      | none => simp [hg] at h
      | some old =>
        simp only [hg] at h
        have hdc : diskTx.inputCount = c := by
          rw [hd] at hcount
          simpa using hcount
        rw [ih _ _ st1 h (by
          show (modifyInout _ _ _ _)[txNum]?.map _ = _
          rw [modifyInout_inputCount]
          exact hcount) k hk]
        show inoutAt (modifyInout _ _ _ _) txNum k = _
        rw [inoutAt_modifyInout, if_neg (by omega)]

/-- C15: when `consume` of `processAddresses` runs through on a transaction whose on-disk record
holds as many inputs as the transaction has (the assertion of line 409, `inputCount` being a
16-bit field), then for every input at index `i` the record of transaction `input.linkedTxNum`
is there and holds the output `prevOutPoint.outputIndex`, and the on-disk input record `i` of the
transaction is, after `consume`, what it was before with `toAddressNum` replaced by the
`toAddressNum` of that output record: no other field of the input record is changed. -/
theorem processAddresses_input_address {State : Type} (ops : AddressOps State)
    (st st1 : AddressStage State) (tx : RawTransaction) (d : DiskTransaction)
    (hrun : processAddressesConsume ops st tx = some st1)
    (hd : st.txFile[tx.txNum]? = some d) (hcount : d.inputCount = tx.inputs.length)
    (hfield : d.inputCount < 65536) :
    ∀ (i : Nat) (input : RawInput), tx.inputs[i]? = some input →
      ∃ spentTx spentOutput old d1, st.txFile[input.linkedTxNum]? = some spentTx ∧
        spentTx.getOutput input.rawOutputPointer.outputNum = some spentOutput ∧
        d.getInput i = some old ∧ st1.txFile[tx.txNum]? = some d1 ∧
        d1.getInput i = some { old with toAddressNum := spentOutput.toAddressNum } := by
  intro i input hi
  unfold processAddressesConsume at hrun
  cases hp : patchInputs ops tx tx.inputs 0 st with
  | none => simp [hp] at hrun
  | some st2 =>
    simp only [hp] at hrun
    cases hq : patchOutputs ops tx.txNum tx.outputs 0 st2 with
    | none => simp [hq] at hrun
    | some st3 =>
      simp only [hq, Option.some.injEq] at hrun
      have hcnt : st.txFile[tx.txNum]?.map (fun d : DiskTransaction => d.inputCount) =
          some d.inputCount := by
        rw [hd]
        rfl
      obtain ⟨f1, _, _, f4⟩ := patchInputs_input_records ops tx d.inputCount hfield tx.inputs 0
        st st2 hp hcnt (by omega)
      obtain ⟨spentTx, spentOutput, old, hs, ho, hold, hnew⟩ := f4 i input hi
      rw [Nat.zero_add] at hold hnew
      have hilt : i < d.inputCount := by
        rw [hcount]
        exact (List.getElem?_eq_some_iff.mp hi).1
      have hout := patchOutputs_input_records ops tx.txNum d.inputCount tx.outputs 0 st2 st3 hq
        (by rw [f1 tx.txNum]; exact hcnt) i hilt
      have hfile : st1.txFile = st3.txFile := by
        rw [← hrun]
        split <;> rfl
      have hfinal : inoutAt st1.txFile tx.txNum i =
          some { old with toAddressNum := spentOutput.toAddressNum } := by
        rw [hfile, hout, hnew]
      have hold2 : d.getInput i = some old := by
        simp only [inoutAt, hd] at hold
        exact hold
      cases hd1 : st1.txFile[tx.txNum]? with
      | none => simp [inoutAt, hd1] at hfinal
      | some d1 =>
        simp only [inoutAt, hd1] at hfinal
        exact ⟨spentTx, spentOutput, old, d1, hs, ho, hold2, rfl, hfinal⟩

/-- C15, witness: in the simple-spend scenario the two coinbases are consumed first and their
outputs get the address numbers 1 and 2; the spend of output 0 of transaction 0 is consumed next,
and its input record, `Inout{0, (0, PUBKEY), 5000000000}` before, carries the address number 1
after, its other fields being what they were. -/
theorem processAddresses_input_address_witness :
    ∃ st st1 d,
      processAddresses countingAddressOps (addressStageOver simpleSpendTxFile)
        [sampleTx 0 7 [] [pubkeyOutput 5000000000],
         sampleTx 1 8 [] [pubkeyOutput 5000000000]] = some st ∧
      processAddressesConsume countingAddressOps st simpleSpendResolvedTx = some st1 ∧
      st.txFile[simpleSpendResolvedTx.txNum]? = some d ∧
      d.inputCount = simpleSpendResolvedTx.inputs.length ∧ d.inputCount < 65536 ∧
      (st1.txFile[2]?.bind (fun d1 => d1.getInput 0)) =
        some { linkedTxNum := 0, toAddressNum := 1, type := AddressType.PUBKEY,
               value := 5000000000 } ∧
      ∀ (i : Nat) (input : RawInput), simpleSpendResolvedTx.inputs[i]? = some input →
        ∃ spentTx spentOutput old d1, st.txFile[input.linkedTxNum]? = some spentTx ∧
          spentTx.getOutput input.rawOutputPointer.outputNum = some spentOutput ∧
          d.getInput i = some old ∧ st1.txFile[simpleSpendResolvedTx.txNum]? = some d1 ∧
          d1.getInput i = some { old with toAddressNum := spentOutput.toAddressNum } :=
  ⟨_, _, _, rfl, rfl, rfl, by decide, by decide, by decide,
    processAddresses_input_address countingAddressOps _ _ simpleSpendResolvedTx _ rfl rfl
      (by decide) (by decide)⟩

/-! ### Stage 4: the list returned -/

theorem patchInputs_logged {State : Type} (ops : AddressOps State) (tx : RawTransaction) :
    ∀ (ins : List RawInput) (j : Nat) (st st1 : AddressStage State)
      (log : List (InputInfo × List Nat)),
      patchInputs ops tx ins j st = some st1 →
      ∃ entries : List (InputInfo × List Nat),
        patchInputs ops.logged tx ins j (st.withLog log) = some (st1.withLog (log ++ entries)) ∧
        entries.map (fun e => (e.1.txNum, e.1.input)) =
          ins.map (fun input => (tx.txNum, input)) ∧
        st1.revealed = st.revealed ++ (entries.map Prod.snd).flatten := by
  intro ins
  induction ins with
  | nil =>
    intro j st st1 log h
    simp only [patchInputs, Option.some.injEq] at h
    subst h
    exact ⟨[], by simp [patchInputs], rfl, by simp⟩
  | cons first rest ih =>
    intro j st st1 log h
    obtain ⟨spentTx, spentOutput, diskTx, old, st2, hs, ho, hd, hg, hfile, hrev, hadr, hfin, h2⟩ :=
      patchInputs_cons ops tx first rest j st st1 h
    obtain ⟨entries, hrun, hkeys, hrev1⟩ := ih ((j + 1) % 65536) st2 st1
      (log ++ [({ input := first, inputNum := j, txNum := tx.txNum,
                  addressNum := spentOutput.toAddressNum, isSegwit := tx.isSegwit },
                (ops.processInput spentOutput.getAddress
                  { input := first, inputNum := j, txNum := tx.txNum,
                    addressNum := spentOutput.toAddressNum, isSegwit := tx.isSegwit }
                  tx st.addressState).1)]) h2
    refine ⟨({ input := first, inputNum := j, txNum := tx.txNum,
               addressNum := spentOutput.toAddressNum, isSegwit := tx.isSegwit },
             (ops.processInput spentOutput.getAddress
               { input := first, inputNum := j, txNum := tx.txNum,
                 addressNum := spentOutput.toAddressNum, isSegwit := tx.isSegwit }
               tx st.addressState).1) :: entries, ?_, ?_, ?_⟩
    · have hst2 : st2.withLog
          (log ++ [({ input := first, inputNum := j, txNum := tx.txNum,
                      addressNum := spentOutput.toAddressNum, isSegwit := tx.isSegwit },
                (ops.processInput spentOutput.getAddress
                  { input := first, inputNum := j, txNum := tx.txNum,
                    addressNum := spentOutput.toAddressNum, isSegwit := tx.isSegwit }
                  tx st.addressState).1)]) =
          { st.withLog log with
            txFile := modifyInout (modifyInout st.txFile tx.txNum j
                (fun io => { io with toAddressNum := spentOutput.toAddressNum }))
              first.linkedTxNum (spentTx.inputCount + first.rawOutputPointer.outputNum)
              (fun io => { io with linkedTxNum := tx.txNum }),
            addressState :=
              (ops.logged.processInput spentOutput.getAddress
                { input := first, inputNum := j, txNum := tx.txNum,
                  addressNum := spentOutput.toAddressNum, isSegwit := tx.isSegwit }
                tx (st.withLog log).addressState).2,
            revealed := (st.withLog log).revealed ++
              (ops.logged.processInput spentOutput.getAddress
                { input := first, inputNum := j, txNum := tx.txNum,
                  addressNum := spentOutput.toAddressNum, isSegwit := tx.isSegwit }
                tx (st.withLog log).addressState).1 } := by
        simp only [AddressStage.withLog, AddressOps.logged, hfile, hrev, hadr, hfin]
      have hsd : (st.withLog log).txFile = st.txFile := rfl
      simp only [patchInputs, hsd, hs, ho, hd, hg]
      rw [List.append_assoc, List.singleton_append] at hrun
      rw [← hrun, hst2]
      rfl
    · simp only [List.map_cons, hkeys]
    · rw [hrev1, hrev]
      simp

theorem patchOutputs_logged {State : Type} (ops : AddressOps State) (txNum : Nat) :
    ∀ (outs : List RawOutput) (j : Nat) (st st1 : AddressStage State)
      (log : List (InputInfo × List Nat)),
      patchOutputs ops txNum outs j st = some st1 →
      patchOutputs ops.logged txNum outs j (st.withLog log) = some (st1.withLog log) ∧
        st1.revealed = st.revealed := by
  intro outs
  induction outs with
  | nil =>
    intro j st st1 log h
    simp only [patchOutputs, Option.some.injEq] at h
    subst h
    exact ⟨rfl, rfl⟩
  | cons output rest ih =>
    intro j st st1 log h
    simp only [patchOutputs] at h
    cases hd : st.txFile[txNum]? with
    | none => simp [hd] at h
    | some diskTx =>
      simp only [hd] at h
      cases hg : diskTx.getOutput j with
      | none => simp [hg] at h
      | some old =>
        simp only [hg] at h
        obtain ⟨hrun, hrev⟩ := ih _ _ st1 log h
        have hsd : (st.withLog log).txFile = st.txFile := rfl
        refine ⟨?_, hrev⟩
        simp only [patchOutputs, hsd, hd, hg]
        rw [← hrun]
        rfl

theorem processAddressesConsume_logged {State : Type} (ops : AddressOps State)
    (st st1 : AddressStage State) (tx : RawTransaction) (log : List (InputInfo × List Nat))
    (h : processAddressesConsume ops st tx = some st1) :
    ∃ entries : List (InputInfo × List Nat),
      processAddressesConsume ops.logged (st.withLog log) tx =
        some (st1.withLog (log ++ entries)) ∧
      entries.map (fun e => (e.1.txNum, e.1.input)) =
        tx.inputs.map (fun input => (tx.txNum, input)) ∧
      st1.revealed = st.revealed ++ (entries.map Prod.snd).flatten := by
  unfold processAddressesConsume at h
  cases hp : patchInputs ops tx tx.inputs 0 st with
  | none => simp [hp] at h
  | some st2 =>
    simp only [hp] at h
    cases hq : patchOutputs ops tx.txNum tx.outputs 0 st2 with
    | none => simp [hq] at h
    | some st3 =>
      simp only [hq, Option.some.injEq] at h
      obtain ⟨entries, hrun, hkeys, hrev⟩ := patchInputs_logged ops tx tx.inputs 0 st st2 log hp
      obtain ⟨hrun1, hrev1⟩ := patchOutputs_logged ops tx.txNum tx.outputs 0 st2 st3
        (log ++ entries) hq
      refine ⟨entries, ?_, hkeys, ?_⟩
      · simp only [processAddressesConsume, hrun, hrun1]
        rw [← h]
        split <;> rfl
      · rw [← h, ← hrev, ← hrev1]
        split <;> rfl

theorem processAddresses_logged {State : Type} (ops : AddressOps State) :
    ∀ (txs : List RawTransaction) (st st1 : AddressStage State)
      (log : List (InputInfo × List Nat)),
      processAddresses ops st txs = some st1 →
      ∃ entries : List (InputInfo × List Nat),
        processAddresses ops.logged (st.withLog log) txs = some (st1.withLog (log ++ entries)) ∧
        entries.map (fun e => (e.1.txNum, e.1.input)) =
          txs.flatMap (fun tx => tx.inputs.map (fun input => (tx.txNum, input))) ∧
        st1.revealed = st.revealed ++ (entries.map Prod.snd).flatten := by
  intro txs
  induction txs with
  | nil =>
    intro st st1 log h
    simp only [processAddresses, Option.some.injEq] at h
    subst h
    exact ⟨[], by simp [processAddresses], rfl, by simp⟩
  | cons tx rest ih =>
    intro st st1 log h
    simp only [processAddresses] at h
    cases hc : processAddressesConsume ops st tx with
    | none => simp [hc] at h
    | some st2 =>
      simp only [hc] at h
      obtain ⟨first, hrun, hkeys, hrev⟩ := processAddressesConsume_logged ops st st2 tx log hc
      obtain ⟨more, hrun1, hkeys1, hrev1⟩ := ih st2 st1 (log ++ first) h
      refine ⟨first ++ more, ?_, ?_, ?_⟩
      · simp only [processAddresses, hrun]
        rw [hrun1, List.append_assoc]
      · simp only [List.map_append, hkeys, hkeys1, List.flatMap_cons]
      · rw [hrev1, hrev]
        simp

/-- C16: the list `processAddresses` returns, started as it is with an empty `revealed`, is the
concatenation of the lists returned by the calls of `processInput`, in the order of the calls;
the calls are made for the transactions in the order they are consumed and, within each
transaction, for its inputs in index order, one call per input. The calls are those recorded by
running the same stage with `processInput` logging what it is given and what it returns, which
changes nothing else. The list is empty when no transaction has an input. -/
theorem processAddresses_returns_revealed {State : Type} (ops : AddressOps State)
    (st st1 : AddressStage State) (txs : List RawTransaction)
    (hrun : processAddresses ops st txs = some st1) (hstart : st.revealed = []) :
    ∃ calls : List (InputInfo × List Nat),
      processAddresses ops.logged (st.withLog []) txs = some (st1.withLog calls) ∧
      calls.map (fun e => (e.1.txNum, e.1.input)) =
        txs.flatMap (fun tx => tx.inputs.map (fun input => (tx.txNum, input))) ∧
      st1.revealed = (calls.map Prod.snd).flatten ∧
      ((∀ tx ∈ txs, tx.inputs = []) → st1.revealed = []) := by
  obtain ⟨calls, h1, h2, h3⟩ := processAddresses_logged ops txs st st1 [] hrun
  rw [hstart, List.nil_append] at h3
  rw [List.nil_append] at h1
  refine ⟨calls, h1, h2, h3, ?_⟩
  intro hall
  have hnone : txs.flatMap (fun tx => tx.inputs.map (fun input => (tx.txNum, input))) = [] := by
    rw [List.flatMap_eq_nil_iff]
    intro tx htx
    rw [hall tx htx]
    rfl
  rw [hnone] at h2
  have : calls = [] := List.map_eq_nil_iff.mp h2
  rw [h3, this]
  rfl

/-- C16, witness: over the tx file stage 3 writes for two coinbases and a transaction spending
both, with address operations that reveal the address number of every input, stage 4 returns
`[2, 1]`: the number revealed by input 0, which spends the second coinbase, followed by the
number revealed by input 1. -/
theorem processAddresses_returns_revealed_witness :
    ∃ st1,
      processAddresses revealingAddressOps (addressStageOver twoInputStage.txFile)
        twoInputStage.addressQueue = some st1 ∧
      (addressStageOver twoInputStage.txFile).revealed = [] ∧
      twoInputStage.addressQueue.map (fun tx => tx.inputs.length) = [0, 0, 2] ∧
      st1.revealed = [2, 1] ∧
      ∃ calls : List (InputInfo × List Nat),
        processAddresses revealingAddressOps.logged
          ((addressStageOver twoInputStage.txFile).withLog []) twoInputStage.addressQueue =
          some (st1.withLog calls) ∧
        calls.map (fun e => (e.1.txNum, e.1.input)) =
          twoInputStage.addressQueue.flatMap
            (fun tx => tx.inputs.map (fun input => (tx.txNum, input))) ∧
        st1.revealed = (calls.map Prod.snd).flatten ∧
        ((∀ tx ∈ twoInputStage.addressQueue, tx.inputs = []) → st1.revealed = []) :=
  ⟨_, rfl, rfl, by decide, by decide,
    processAddresses_returns_revealed revealingAddressOps
      (addressStageOver twoInputStage.txFile) _ twoInputStage.addressQueue rfl rfl⟩

/-! ### RPC mode: the synthesized genesis transaction -/

set_option maxRecDepth 100000 in
/-- C17: for a block of height 0, `loadTxRPC` returns the buffer with exactly one output, of value
5,000,000,000, built from the script that pushes the bytes `ParseHex` reads from the hex literal
(the byte `0x41`, their number 65, in front of them) and ends in `OP_CHECKSIG`; with the hash
`2^248 = 256^31`, whose 32 bytes in hex are `01` followed by 31 times `00`; and with block height 0
and transaction number 0, whatever `txNum` is passed. The literal has 130 hex digits, `ParseHex`
returns 65 bytes of it, the first being `0x04`, and byte `i` is 16 times digit `2i` plus digit
`2i + 1`. -/
theorem loadTxRPC_genesis (bapi : BitcoinAPI) (tx : RawTransaction) (txNum : Nat)
    (block : BlockInfo RPCLocation) (txOffset : Nat) (witnessActivated : Bool)
    (hheight : block.height = 0) :
    (∃ r, loadTxRPC bapi tx txNum block txOffset witnessActivated = some r ∧
      r.outputs = [{ value := 5000000000,
                     scriptOutput := bapi.scriptOutput
                       (0x41 :: ParseHex genesisPubKeyHex ++ [OP_CHECKSIG]) }] ∧
      r.hash = 2 ^ 248 ∧ r.hash = 1 * 256 ^ 31 ∧ r.blockHeight = 0 ∧ r.txNum = 0) ∧
    genesisPubKeyHex.length = 130 ∧
    (∀ c ∈ genesisPubKeyHex.toList, HexDigit c ≠ -1) ∧
    (ParseHex genesisPubKeyHex).length = 65 ∧
    (ParseHex genesisPubKeyHex)[0]? = some 0x04 ∧
    ∀ i, i < 65 → (ParseHex genesisPubKeyHex)[i]? =
      some (Fin.ofNat (16 * (HexDigit (genesisPubKeyHex.toList.getD (2 * i) ' ')).toNat +
        (HexDigit (genesisPubKeyHex.toList.getD (2 * i + 1) ' ')).toNat)) := by
  have hlen : (ParseHex genesisPubKeyHex).length = 65 := by decide
  refine ⟨?_, by decide, by decide, hlen, by decide, by decide⟩
  refine ⟨{ tx with
      outputs := [{ value := 5000000000,
                    scriptOutput := bapi.scriptOutput genesisScriptPubKey }],
      hash := 2 ^ 248, blockHeight := 0, txNum := 0 }, ?_, ?_, rfl, by norm_num, rfl, rfl⟩
  · simp only [loadTxRPC, hheight, if_true]
  · simp only [genesisScriptPubKey, pushData, hlen]
    rfl

/-- C17, witness: on a fresh buffer and with the transaction number 5 passed, `loadTxRPC` gives
the transaction of the block of height 0 the number 0, the hash `2^248` and one output of
5,000,000,000 whose script has 67 bytes. -/
theorem loadTxRPC_genesis_witness :
    (sampleBlockRPC 10 0 0 [0]).height = 0 ∧
      (genesisScriptPubKey.length = 67 ∧ genesisScriptPubKey.getLast? = some 0xac) ∧
      ∃ r, loadTxRPC sampleAPI RawTransaction.empty 5 (sampleBlockRPC 10 0 0 [0]) 0 false =
          some r ∧
        r.outputs = [{ value := 5000000000,
                       scriptOutput := sampleAPI.scriptOutput
                         (0x41 :: ParseHex genesisPubKeyHex ++ [OP_CHECKSIG]) }] ∧
        r.hash = 2 ^ 248 ∧ r.hash = 1 * 256 ^ 31 ∧ r.blockHeight = 0 ∧ r.txNum = 0 :=
  ⟨rfl, ⟨by decide, by decide⟩,
    (loadTxRPC_genesis sampleAPI RawTransaction.empty 5 (sampleBlockRPC 10 0 0 [0]) 0 false
      rfl).1⟩

/-! ### The chain reader: the block of a transaction -/

theorem upperBound_spec (blockFile : List Block) (x n : Nat) (hn : n ≤ blockFile.length)
    (hmono : ∀ (a b : Nat) (ba bb : Block), a ≤ b → b < n → blockFile[a]? = some ba →
      blockFile[b]? = some bb → ba.firstTxIndex ≤ bb.firstTxIndex) :
    ∀ (fuel first len : Nat), len ≤ fuel → first + len ≤ n →
      (∀ (k : Nat) (b : Block), k < first → blockFile[k]? = some b → b.firstTxIndex ≤ x) →
      (∀ (k : Nat) (b : Block), first + len ≤ k → k < n → blockFile[k]? = some b →
        x < b.firstTxIndex) →
      first ≤ upperBound blockFile x fuel first len ∧
        upperBound blockFile x fuel first len ≤ first + len ∧
        (∀ (k : Nat) (b : Block), k < upperBound blockFile x fuel first len →
          blockFile[k]? = some b → b.firstTxIndex ≤ x) ∧
        ∀ (k : Nat) (b : Block), upperBound blockFile x fuel first len ≤ k → k < n →
          blockFile[k]? = some b → x < b.firstTxIndex := by
  intro fuel
  induction fuel with
  | zero =>
    intro first len hlen hbound hlow hhigh
    have : len = 0 := by omega
    subst this
    simp only [upperBound]
    exact ⟨le_refl _, by omega, hlow, fun k b hk => hhigh k b (by omega)⟩
  | succ fuel ih =>
    intro first len hlen hbound hlow hhigh
    simp only [upperBound]
    by_cases hzero : len = 0
    · subst hzero
      simp only [if_true]
      exact ⟨le_refl _, by omega, hlow, fun k b hk => hhigh k b (by omega)⟩
    · rw [if_neg hzero]
      have hmid : first + len / 2 < blockFile.length := by
        have : len / 2 < len := Nat.div_lt_self (by omega) (by norm_num)
        omega
      obtain ⟨mid, hmidb⟩ := getElem?_of_lt_length blockFile _ hmid
      have hhalf : len / 2 < len := Nat.div_lt_self (by omega) (by norm_num)
      simp only [hmidb]
      by_cases hcmp : x < mid.firstTxIndex
      · rw [if_pos hcmp]
        obtain ⟨h1, h2, h3, h4⟩ := ih first (len / 2) (by omega) (by omega) hlow (by
          intro k b hk hkn hb
          exact lt_of_lt_of_le hcmp (hmono _ k mid b hk hkn hmidb hb))
        exact ⟨h1, by omega, h3, h4⟩
      · rw [if_neg hcmp]
        obtain ⟨h1, h2, h3, h4⟩ := ih (first + len / 2 + 1) (len - len / 2 - 1) (by omega)
          (by omega) (by
            intro k b hk hb
            have := hmono k (first + len / 2) b mid (by omega) (by omega) hb hmidb
            omega) (by
            intro k b hk hkn hb
            exact hhigh k b (by omega) hkn hb)
        exact ⟨by omega, by omega, h3, h4⟩

theorem firstTxIndex_mono (blockFile : List Block) (n : Nat) (hn : n ≤ blockFile.length)
    (hcontig : ∀ (h : Nat) (b b1 : Block), h + 1 < n → blockFile[h]? = some b →
      blockFile[h + 1]? = some b1 → b1.firstTxIndex = b.firstTxIndex + b.numTxes) :
    ∀ (d a : Nat) (ba bb : Block), a + d < n → blockFile[a]? = some ba →
      blockFile[a + d]? = some bb →
      ba.firstTxIndex ≤ bb.firstTxIndex ∧
        (0 < d → ba.firstTxIndex + ba.numTxes ≤ bb.firstTxIndex) := by
  intro d
  induction d with
  | zero =>
    intro a ba bb _ ha hb
    rw [Nat.add_zero, ha] at hb
    have := Option.some.inj hb
    subst this
    exact ⟨le_refl _, fun h => absurd h (by omega)⟩
  | succ d ih =>
    intro a ba bb hlt ha hb
    obtain ⟨bm, hbm⟩ := getElem?_of_lt_length blockFile (a + d) (by omega)
    obtain ⟨h1, h2⟩ := ih a ba bm (by omega) ha hbm
    have hstep := hcontig (a + d) bm bb (by omega) hbm hb
    constructor
    · omega
    · intro _
      by_cases hd : d = 0
      · subst hd
        rw [Nat.add_zero, ha] at hbm
        have := Option.some.inj hbm
        subst this
        omega
      · have := h2 (by omega)
        omega

/-- C19: let `setup` run on a block file of fewer than `2^32` records of which `blocksIgnored`,
fewer than all, are ignored, so that `maxHeight`, the number of records less `blocksIgnored`, is
at least 1; let the first record start at transaction 0 and each of the first `maxHeight`
records start where the one before ends (the records may hold any number of transactions, one
or more in particular). Then `setup` sets
`maxLoadedTx` to `firstTxIndex + numTxes` of the record at position `maxHeight - 1` (a 32-bit
sum), and for every `txIndex` below `maxLoadedTx`, `getBlockHeight(txIndex)` returns a height `h`
below `maxHeight` with `firstTxIndex[h] <= txIndex < firstTxIndex[h] + numTxes[h]`, and `h` is the
only such height. -/
theorem getBlockHeight_finds_block (ca0 ca : ChainAccess) (txIndex : Nat)
    (hsetup : ca0.setup = some ca)
    (hsize : ca0.blockFile.length < 4294967296)
    (hignored : ca0.blocksIgnored < ca0.blockFile.length)
    (hfirst : ∀ b : Block, ca0.blockFile[0]? = some b → b.firstTxIndex = 0)
    (hcontig : ∀ (h : Nat) (b b1 : Block), h + 1 < ca0.blockFile.length - ca0.blocksIgnored →
      ca0.blockFile[h]? = some b → ca0.blockFile[h + 1]? = some b1 →
      b1.firstTxIndex = b.firstTxIndex + b.numTxes)
    (htx : txIndex < ca.maxLoadedTx) :
    ca.maxHeight = ca0.blockFile.length - ca0.blocksIgnored ∧ 1 ≤ ca.maxHeight ∧
    (∃ last : Block, ca0.blockFile[ca.maxHeight - 1]? = some last ∧
      ca.maxLoadedTx = (last.firstTxIndex + last.numTxes) % 4294967296) ∧
    ∃ (h : Nat) (b : Block), ca.getBlockHeight txIndex = some h ∧ h < ca.maxHeight ∧
      ca0.blockFile[h]? = some b ∧ b.firstTxIndex ≤ txIndex ∧
      txIndex < b.firstTxIndex + b.numTxes ∧
      ∀ (h1 : Nat) (b1 : Block), h1 < ca.maxHeight → ca0.blockFile[h1]? = some b1 →
        b1.firstTxIndex ≤ txIndex → txIndex < b1.firstTxIndex + b1.numTxes → h1 = h := by
  have hM : (ca0.blockFile.length % 4294967296 + 4294967296 - ca0.blocksIgnored % 4294967296) %
      4294967296 = ca0.blockFile.length - ca0.blocksIgnored := by
    rw [Nat.mod_eq_of_lt hsize, Nat.mod_eq_of_lt (by omega : ca0.blocksIgnored < 4294967296)]
    omega
  unfold ChainAccess.setup at hsetup
  simp only [hM] at hsetup
  rw [if_pos (by omega)] at hsetup
  obtain ⟨last, hlast⟩ := getElem?_of_lt_length ca0.blockFile
    (ca0.blockFile.length - ca0.blocksIgnored - 1) (by omega)
  simp only [hlast, Option.some.injEq] at hsetup
  subst hsetup
  simp only [ChainAccess.maxLoadedTx] at htx
  have hle : ca0.blockFile.length - ca0.blocksIgnored ≤ ca0.blockFile.length := by omega
  have hmono : ∀ (a b : Nat) (ba bb : Block), a ≤ b →
      b < ca0.blockFile.length - ca0.blocksIgnored → ca0.blockFile[a]? = some ba →
      ca0.blockFile[b]? = some bb → ba.firstTxIndex ≤ bb.firstTxIndex := by
    intro a b ba bb hab hb ha hbb
    have hsplit : b = a + (b - a) := by omega
    rw [hsplit] at hbb
    exact (firstTxIndex_mono ca0.blockFile _ hle hcontig (b - a) a ba bb (by omega) ha hbb).1
  obtain ⟨_, hr2, hr3, hr4⟩ := upperBound_spec ca0.blockFile txIndex
    (ca0.blockFile.length - ca0.blocksIgnored) hle hmono
    (ca0.blockFile.length - ca0.blocksIgnored) 0
    (ca0.blockFile.length - ca0.blocksIgnored) (le_refl _) (by omega)
    (fun k b hk => absurd hk (by omega)) (fun k b hk hkn => absurd hkn (by omega))
  refine ⟨rfl, by show 1 ≤ ca0.blockFile.length - ca0.blocksIgnored; omega,
    ⟨last, hlast, rfl⟩, ?_⟩
  generalize hit : upperBound ca0.blockFile txIndex
    (ca0.blockFile.length - ca0.blocksIgnored) 0
    (ca0.blockFile.length - ca0.blocksIgnored) = it at hr2 hr3 hr4
  have hitpos : it ≠ 0 := by
    intro hzero
    subst hzero
    obtain ⟨b0, hb0⟩ := getElem?_of_lt_length ca0.blockFile 0 (by omega)
    have := hr4 0 b0 (le_refl _) (by omega) hb0
    rw [hfirst b0 hb0] at this
    omega
  obtain ⟨b, hb⟩ := getElem?_of_lt_length ca0.blockFile (it - 1) (by omega)
  have hlow := hr3 (it - 1) b (by omega) hb
  have hhigh : txIndex < b.firstTxIndex + b.numTxes := by
    by_cases hend : it = ca0.blockFile.length - ca0.blocksIgnored
    · rw [← hend] at hlast
      rw [hb] at hlast
      have := Option.some.inj hlast
      subst this
      exact lt_of_lt_of_le htx (Nat.mod_le _ _)
    · obtain ⟨b1, hb1⟩ := getElem?_of_lt_length ca0.blockFile it (by omega)
      have hnext := hr4 it b1 (le_refl _) (by omega) hb1
      have hstep := hcontig (it - 1) b b1 (by omega) hb
        (by rw [show it - 1 + 1 = it by omega]; exact hb1)
      omega
  refine ⟨it - 1, b, ?_, by show it - 1 < ca0.blockFile.length - ca0.blocksIgnored; omega,
    hb, hlow, hhigh, ?_⟩
  · unfold ChainAccess.getBlockHeight
    have hguard : (ca0.errorOnReorg && decide (txIndex ≥
        (last.firstTxIndex + last.numTxes) % 4294967296)) = false := by
      have : ¬ txIndex ≥ (last.firstTxIndex + last.numTxes) % 4294967296 := by omega
      simp [this]
    simp only [hguard, Bool.false_eq_true, if_false]
    rw [if_neg (by omega)]
    simp only [hit, if_neg hitpos]
    rw [Nat.mod_eq_of_lt (by omega)]
  · intro h1 b1 hh1 hb1 hlow1 hhigh1
    change h1 < ca0.blockFile.length - ca0.blocksIgnored at hh1
    by_contra hne
    rcases Nat.lt_or_gt_of_ne hne with hlt | hgt
    · have hsplit : it - 1 = h1 + (it - 1 - h1) := by omega
      rw [hsplit] at hb
      have := (firstTxIndex_mono ca0.blockFile _ hle hcontig (it - 1 - h1) h1 b1 b
        (by omega) hb1 hb).2 (by omega)
      omega
    · have hsplit : h1 = it - 1 + (h1 - (it - 1)) := by omega
      rw [hsplit] at hb1
      have := (firstTxIndex_mono ca0.blockFile _ hle hcontig (h1 - (it - 1)) (it - 1) b b1
        (by omega) hb hb1).2 (by omega)
      omega

/-- C19, witness: over the four sample blocks, with 1, 2, 3 and 1 transactions, `setup` gives
`maxHeight = 4` and `maxLoadedTx = 7`; the transactions 0 to 6 are found at the heights
0, 1, 1, 2, 2, 2, 3, transaction 4 in the block that starts at 3 and holds 3 transactions, and
index 7 is refused. -/
theorem getBlockHeight_finds_block_witness :
    sampleAccess.setup = some sampleAccess ∧
      (4 : Nat) < sampleAccess.maxLoadedTx ∧
      (List.range 7).map sampleAccess.getBlockHeight =
        [some 0, some 1, some 1, some 2, some 2, some 2, some 3] ∧
      sampleAccess.getBlockHeight 7 = none ∧
      sampleAccess.maxHeight = sampleAccess.blockFile.length - sampleAccess.blocksIgnored ∧
      1 ≤ sampleAccess.maxHeight ∧
      (∃ last : Block, sampleAccess.blockFile[sampleAccess.maxHeight - 1]? = some last ∧
        sampleAccess.maxLoadedTx = (last.firstTxIndex + last.numTxes) % 4294967296) ∧
      ∃ (h : Nat) (b : Block), sampleAccess.getBlockHeight 4 = some h ∧
        h < sampleAccess.maxHeight ∧ sampleAccess.blockFile[h]? = some b ∧
        b.firstTxIndex ≤ 4 ∧ 4 < b.firstTxIndex + b.numTxes ∧
        ∀ (h1 : Nat) (b1 : Block), h1 < sampleAccess.maxHeight →
          sampleAccess.blockFile[h1]? = some b1 →
          b1.firstTxIndex ≤ 4 → 4 < b1.firstTxIndex + b1.numTxes → h1 = h :=
  ⟨by decide, by decide, by decide, by decide,
    getBlockHeight_finds_block sampleAccess sampleAccess 4 (by decide) (by decide) (by decide)
      (fun b hb => by
        have : sampleRecord 0 1 0 0 = b := Option.some.inj hb
        rw [← this]
        rfl)
      (fun h b b1 hh hb hb1 => by
        have hh3 : h < 3 := by
          have : sampleAccess.blockFile.length - sampleAccess.blocksIgnored = 4 := rfl
          omega
        interval_cases h
        · have e : sampleRecord 0 1 0 0 = b := Option.some.inj hb
          have e1 : sampleRecord 1 2 1 7 = b1 := Option.some.inj hb1
          rw [← e, ← e1]
          rfl
        · have e : sampleRecord 1 2 1 7 = b := Option.some.inj hb
          have e1 : sampleRecord 3 3 2 13 = b1 := Option.some.inj hb1
          rw [← e, ← e1]
          rfl
        · have e : sampleRecord 3 3 2 13 = b := Option.some.inj hb
          have e1 : sampleRecord 6 1 3 17 = b1 := Option.some.inj hb1
          rw [← e, ← e1]
          rfl)
      (by decide)⟩

/-! ### Stage 1: the sequence file in the two modes -/

/-- C20, the code at the failing input: file mode writes the sequence numbers of the inputs as
loaded (lines 181-184) and clears the input list of a coinbase afterwards (line 189); RPC mode
clears it first (line 275) and writes the sequence numbers of what is left (lines 278-281). For
a block of height 1 holding the sample coinbase and a spend, read from the block file and through
RPC, the two modes push the same transactions, file mode writes the groups `[4294967295]` and
`[4294967295]`, and RPC mode writes the empty group for the coinbase. -/
theorem sequence_group_of_coinbase_differs_between_modes :
    (∀ (st : BlockProcessor) (tx : RawTransaction),
      (emitTransaction st tx).sequenceFile =
        st.sequenceFile ++ [tx.inputs.map (fun input : RawInput => input.sequenceNum)]) ∧
    (∀ (st : BlockProcessor) (tx : RawTransaction),
      (emitTransactionRPC st tx).sequenceFile =
        st.sequenceFile ++
          [if hasNullInput tx then []
           else tx.inputs.map (fun input : RawInput => input.sequenceNum)]) ∧
    ∃ stFile stRPC,
      readNewBlocks sampleFiles (BlockProcessor.new 0 2 1 []) [sampleBlockAt 11 0 1 8] =
        some stFile ∧
      readNewBlocksRPC sampleAPI (BlockProcessor.new 0 2 1 []) [sampleBlockRPC 11 0 1 [1, 2]] =
        some stRPC ∧
      stFile.hash_transaction_queue = stRPC.hash_transaction_queue ∧
      stFile.hash_transaction_queue.map (fun tx => tx.inputs.length) = [0, 1] ∧
      stFile.sequenceFile = [[4294967295], [4294967295]] ∧
      stRPC.sequenceFile = [[], [4294967295]] := by
  refine ⟨fun st tx => (emitTransaction_writes st tx).2.1, ?_,
    ⟨_, _, rfl, rfl, by decide, by decide, by decide, by decide⟩⟩
  intro st tx
  simp only [emitTransactionRPC]
  by_cases hn : hasNullInput tx = true <;> simp [hn]

/-! ### Stage 1: the open block files -/

theorem lookup_filter_of_pos {K V : Type} [BEq K] [LawfulBEq K] (p : K × V → Bool) :
    ∀ (l : List (K × V)) (k : K) (v : V), l.lookup k = some v → p (k, v) = true →
      (l.filter p).lookup k = some v := by
  intro l
  induction l with
  | nil =>
    intro k v h
    simp at h
  | cons e rest ih =>
    intro k v h hp
    obtain ⟨a, w⟩ := e
    rw [List.lookup_cons] at h
    by_cases hka : (k == a) = true
    · simp only [hka, Option.some.injEq] at h
      have hak : a = k := (eq_of_beq hka).symm
      subst hak
      subst h
      rw [List.filter_cons_of_pos hp, List.lookup_cons, hka]
    · have hka2 : (k == a) = false := by simpa using hka
      simp only [hka2] at h
      by_cases hpa : p (a, w) = true
      · rw [List.filter_cons_of_pos hpa, List.lookup_cons, hka2]
        exact ih k v h hp
      · rw [List.filter_cons_of_neg hpa]
        exact ih k v h hp

theorem lookup_filter_key_ne {K V : Type} [BEq K] [LawfulBEq K] (a : K) :
    ∀ (l : List (K × V)) (k : K), k ≠ a →
      (l.filter (fun e => e.1 != a)).lookup k = l.lookup k := by
  intro l
  induction l with
  | nil =>
    intro k _
    rfl
  | cons e rest ih =>
    intro k hk
    obtain ⟨b, w⟩ := e
    by_cases hba : b = a
    · subst hba
      have hkb : (k == b) = false := by simpa using hk
      simp only [List.filter_cons, bne_self_eq_false, Bool.false_eq_true, if_false,
        List.lookup_cons, hkb]
      exact ih k hk
    · have hne : (b != a) = true := by simpa using hba
      simp only [List.filter_cons, hne, if_true, List.lookup_cons]
      rw [ih k hk]

theorem lastTxRequired_of_no_block (nFile : Int) :
    ∀ (blocks : List (BlockInfo FileLocation)) (cur : Nat) (acc : List (Int × Nat)),
      (∀ b ∈ blocks, b.location.nFile ≠ nFile) →
      (lastTxRequired cur blocks acc).lookup nFile = acc.lookup nFile := by
  intro blocks
  induction blocks with
  | nil =>
    intro cur acc _
    rfl
  | cons block rest ih =>
    intro cur acc h
    simp only [lastTxRequired]
    rw [ih _ _ (fun b hb => h b (List.mem_cons_of_mem _ hb))]
    have hne : nFile ≠ block.location.nFile := fun e => h block (List.mem_cons_self _ _) e.symm
    have hbeq : (nFile == block.location.nFile) = false := by simpa using hne
    rw [List.lookup_cons, hbeq]
    exact lookup_filter_key_ne _ acc nFile hne

theorem lastTxRequired_of_last_block :
    ∀ (before : List (BlockInfo FileLocation)) (block : BlockInfo FileLocation)
      (after : List (BlockInfo FileLocation)) (cur : Nat) (acc : List (Int × Nat)),
      (∀ b ∈ after, b.location.nFile ≠ block.location.nFile) →
      (lastTxRequired cur (before ++ block :: after) acc).lookup block.location.nFile =
        some (cumulativeAfter cur (before ++ [block])) := by
  intro before
  induction before with
  | nil =>
    intro block after cur acc h
    simp only [List.nil_append, lastTxRequired, cumulativeAfter, List.foldl_cons, List.foldl_nil]
    rw [lastTxRequired_of_no_block _ after _ _ h, List.lookup_cons]
    simp
  | cons first before ih =>
    intro block after cur acc h
    simp only [List.cons_append, lastTxRequired, cumulativeAfter, List.foldl_cons]
    exact ih block after _ _ h

theorem lastTxRequired_ge (nFile : Int) :
    ∀ (blocks : List (BlockInfo FileLocation)) (cur : Nat) (acc : List (Int × Nat)) (v0 : Nat),
      cur + (blocks.map (fun b => b.nTx)).sum < 4294967296 →
      acc.lookup nFile = some v0 → v0 ≤ cur →
      ∃ v, (lastTxRequired cur blocks acc).lookup nFile = some v ∧ v0 ≤ v := by
  intro blocks
  induction blocks with
  | nil =>
    intro cur acc v0 _ h _
    exact ⟨v0, h, le_refl _⟩
  | cons block rest ih =>
    intro cur acc v0 hsum h hle
    simp only [List.map_cons, List.sum_cons] at hsum
    simp only [lastTxRequired]
    have hmod : (cur + block.nTx) % 4294967296 = cur + block.nTx :=
      Nat.mod_eq_of_lt (by omega)
    rw [hmod]
    by_cases hf : nFile = block.location.nFile
    · obtain ⟨v, hv, hge⟩ := ih (cur + block.nTx)
        ((block.location.nFile, cur + block.nTx) ::
          acc.filter (fun e => e.1 != block.location.nFile)) (cur + block.nTx) (by omega)
        (by rw [List.lookup_cons, hf]; simp) (le_refl _)
      exact ⟨v, hv, by omega⟩
    · have hbeq : (nFile == block.location.nFile) = false := by simpa using hf
      obtain ⟨v, hv, hge⟩ := ih (cur + block.nTx)
        ((block.location.nFile, cur + block.nTx) ::
          acc.filter (fun e => e.1 != block.location.nFile)) v0 (by omega)
        (by rw [List.lookup_cons, hbeq, lookup_filter_key_ne _ acc nFile hf]; exact h)
        (by omega)
      exact ⟨v, hv, hge⟩

theorem lastTxRequiredAt_ge_block_end :
    ∀ (before : List (BlockInfo FileLocation)) (block : BlockInfo FileLocation)
      (after : List (BlockInfo FileLocation)) (cur : Nat) (acc : List (Int × Nat)),
      cur + ((before ++ block :: after).map (fun b => b.nTx)).sum < 4294967296 →
      cur + ((before ++ [block]).map (fun b => b.nTx)).sum ≤
        lastTxRequiredAt (lastTxRequired cur (before ++ block :: after) acc)
          block.location.nFile := by
  intro before
  induction before with
  | nil =>
    intro block after cur acc hsum
    simp only [List.nil_append, List.map_cons, List.sum_cons, List.map_nil, List.sum_nil,
      Nat.add_zero] at hsum ⊢
    simp only [lastTxRequired, lastTxRequiredAt]
    have hmod : (cur + block.nTx) % 4294967296 = cur + block.nTx :=
      Nat.mod_eq_of_lt (by omega)
    rw [hmod]
    obtain ⟨v, hv, hge⟩ := lastTxRequired_ge block.location.nFile after (cur + block.nTx)
      ((block.location.nFile, cur + block.nTx) ::
        acc.filter (fun e => e.1 != block.location.nFile)) (cur + block.nTx) (by omega)
      (by rw [List.lookup_cons]; simp) (le_refl _)
    rw [hv]
    exact hge
  | cons first before ih =>
    intro block after cur acc hsum
    simp only [List.cons_append, List.map_cons, List.sum_cons] at hsum ⊢
    simp only [lastTxRequired]
    have hmod : (cur + first.nTx) % 4294967296 = cur + first.nTx :=
      Nat.mod_eq_of_lt (by omega)
    rw [hmod]
    have := ih block after (cur + first.nTx)
      ((first.location.nFile, cur + first.nTx) ::
        acc.filter (fun e => e.1 != first.location.nFile)) (by omega)
    omega

theorem popFinished_pops (st : BlockProcessor) :
    (popFinished st).finished_transaction_queue = st.finished_transaction_queue.tail ∧
      (popFinished st).files =
        match st.finished_transaction_queue with
        | some tx :: _ => closeFinishedFiles st.files tx.txNum
        | _ => st.files := by
  unfold popFinished
  cases hq : st.finished_transaction_queue with
  | nil => simp [hq]
  | cons first rest =>
    cases first with
    | none => simp
    | some tx => simp

theorem popFinished_keeps (st : BlockProcessor) (nFile : Int) (v : Nat)
    (h : st.files.lookup nFile = some v)
    (hpop : ∀ tx, st.finished_transaction_queue[0]? = some (some tx) → ¬ v < tx.txNum) :
    (popFinished st).files.lookup nFile = some v := by
  rw [(popFinished_pops st).2]
  split
  · rename_i tx rest heq
    have := hpop tx (by rw [heq]; simp)
    unfold closeFinishedFiles
    exact lookup_filter_of_pos _ st.files nFile v h (by simpa using this)
  · exact h

theorem emitTransaction_pops (st : BlockProcessor) (tx : RawTransaction) :
    (emitTransaction st tx).finished_transaction_queue = st.finished_transaction_queue.tail ∧
      ∀ (nFile : Int) (v : Nat), st.files.lookup nFile = some v →
        (∀ t, st.finished_transaction_queue[0]? = some (some t) → ¬ v < t.txNum) →
        (emitTransaction st tx).files.lookup nFile = some v := by
  constructor
  · simp only [emitTransaction, (popFinished_pops _).1]
    by_cases hn : hasNullInput tx = true <;> simp [hn]
  · intro nFile v h hpop
    simp only [emitTransaction]
    apply popFinished_keeps
    · by_cases hn : hasNullInput tx = true <;> simp [hn, h]
    · intro t ht
      apply hpop t
      by_cases hn : hasNullInput tx = true <;> simpa [hn] using ht

theorem readTransactions_keeps (src : BlockFiles) (nFile : Int) (blockHeight : Nat)
    (segwit : Bool) (file : Int) (v : Nat) (hv : v < 4294967296) :
    ∀ (count offset : Nat) (st st1 : BlockProcessor),
      readTransactions src nFile blockHeight segwit count offset st = some st1 →
      st.files.lookup file = some v → st.currentTxNum + count ≤ v →
      (∀ i t, i < count → st.finished_transaction_queue[i]? = some (some t) →
        t.txNum < st.currentTxNum + i + 1) →
      st1.files.lookup file = some v := by
  intro count
  induction count with
  | zero =>
    intro offset st st1 h hfile _ _
    simp only [readTransactions, Option.some.injEq] at h
    subst h
    exact hfile
  | succ count ih =>
    intro offset st st1 h hfile hbound hpops
    simp only [readTransactions] at h
    cases hp : src.parse nFile offset segwit with
    | none => simp [hp] at h
    | some r =>
      obtain ⟨parsed, offset1⟩ := r
      simp only [hp] at h
      obtain ⟨hq, hkeep⟩ :=
        emitTransaction_pops st (parsed.load st.currentTxNum blockHeight segwit)
      have hcur :=
        (emitTransaction_fields st (parsed.load st.currentTxNum blockHeight segwit)).1
      have hmod : (st.currentTxNum + 1) % 4294967296 = st.currentTxNum + 1 :=
        Nat.mod_eq_of_lt (by omega)
      rw [hmod] at hcur
      apply ih offset1 _ st1 h
      · apply hkeep file v hfile
        intro t ht
        have := hpops 0 t (by omega) ht
        omega
      · rw [hcur]
        omega
      · intro i t hi ht
        rw [hq] at ht
        rw [hcur]
        have := hpops (i + 1) t (by omega) (by
          rw [← ht]
          cases st.finished_transaction_queue <;> simp)
        omega

theorem readOpenedBlock_keeps (src : BlockFiles) (st st1 : BlockProcessor)
    (block : BlockInfo FileLocation) (v count firstTxOffset : Nat)
    (h : readOpenedBlock src st block = some st1)
    (hfile : st.files.lookup block.location.nFile = some v) (hv : v < 4294967296)
    (hread : src.readVariableLengthInteger block.location.nFile (block.location.nDataPos + 80) =
      some (count, firstTxOffset))
    (hbound : st.currentTxNum + count % 4294967296 ≤ v)
    (hpops : ∀ i t, i ≤ count % 4294967296 →
      st.finished_transaction_queue[i]? = some (some t) → t.txNum < st.currentTxNum + i) :
    st1.files.lookup block.location.nFile = some v := by
  unfold readOpenedBlock at h
  simp only [hread] at h
  cases hd : detectSegwit src block.location.nFile (count % 4294967296) firstTxOffset with
  | none => simp [hd] at h
  | some segwit =>
    simp only [hd] at h
    cases hr : readTransactions src block.location.nFile
        (block.height % 4294967296).toNat segwit (count % 4294967296) firstTxOffset
        (popFinished st) with
    | none => simp [hr] at h
    | some st3 =>
      simp only [hr, Option.some.injEq] at h
      subst h
      show st3.files.lookup block.location.nFile = some v
      have hcur := (popFinished_fields st).1
      apply readTransactions_keeps src _ _ _ block.location.nFile v hv _ _ _ st3 hr
      · apply popFinished_keeps st _ v hfile
        intro t ht
        have := hpops 0 t (by omega) ht
        omega
      · rw [hcur]
        exact hbound
      · intro i t hi ht
        rw [(popFinished_pops st).1] at ht
        rw [hcur]
        have := hpops (i + 1) t (by omega) (by
          rw [← ht]
          cases st.finished_transaction_queue <;> simp)
        omega

theorem readBlock_keeps (src : BlockFiles) (table : List (Int × Nat))
    (st st1 : BlockProcessor) (block : BlockInfo FileLocation) (count firstTxOffset : Nat)
    (h : readBlock src table st block = some (true, st1))
    (hv : (match st.files.lookup block.location.nFile with
      | some w => w
      | none => lastTxRequiredAt table block.location.nFile) < 4294967296)
    (hread : src.readVariableLengthInteger block.location.nFile (block.location.nDataPos + 80) =
      some (count, firstTxOffset))
    (hbound : st.currentTxNum + count % 4294967296 ≤
      match st.files.lookup block.location.nFile with
      | some w => w
      | none => lastTxRequiredAt table block.location.nFile)
    (hpops : ∀ i t, i ≤ count % 4294967296 →
      st.finished_transaction_queue[i]? = some (some t) → t.txNum < st.currentTxNum + i) :
    st1.files.lookup block.location.nFile =
      some (match st.files.lookup block.location.nFile with
        | some w => w
        | none => lastTxRequiredAt table block.location.nFile) := by
  unfold readBlock at h
  cases ho : openBlockFile src table st block with
  | none => simp [ho] at h
  | some st2 =>
    simp only [ho] at h
    cases hr : readOpenedBlock src st2 block with
    | none => simp [hr] at h
    | some st3 =>
      simp only [hr, Option.some.injEq, Prod.mk.injEq, true_and] at h
      subst h
      obtain ⟨h1, _, _⟩ := openBlockFile_fields src table st st2 block ho
      have hqueue : st2.finished_transaction_queue = st.finished_transaction_queue := by
        unfold openBlockFile at ho
        split at ho
        · simp only [Option.some.injEq] at ho
          subst ho
          rfl
        · split at ho
          · simp only [Option.some.injEq] at ho
            subst ho
            rfl
          · simp at ho
      have hopen : st2.files.lookup block.location.nFile =
          some (match st.files.lookup block.location.nFile with
            | some w => w
            | none => lastTxRequiredAt table block.location.nFile) := by
        unfold openBlockFile at ho
        cases hl : st.files.lookup block.location.nFile with
        | some w =>
          simp only [hl, Option.some.injEq] at ho
          subst ho
          exact hl
        | none =>
          simp only [hl] at ho
          split at ho
          · simp only [Option.some.injEq] at ho
            subst ho
            simp [List.lookup_append, hl]
          · simp at ho
      apply readOpenedBlock_keeps src st2 st3 block _ count firstTxOffset hr hopen hv hread
      · rw [h1]
        exact hbound
      · rw [h1, hqueue]
        exact hpops

theorem cumulativeAfter_eq_sum :
    ∀ (blocks : List (BlockInfo FileLocation)) (cur : Nat),
      cur + (blocks.map (fun b => b.nTx)).sum < 4294967296 →
      cumulativeAfter cur blocks = cur + (blocks.map (fun b => b.nTx)).sum := by
  intro blocks
  induction blocks with
  | nil =>
    intro cur _
    simp [cumulativeAfter]
  | cons block rest ih =>
    intro cur h
    simp only [List.map_cons, List.sum_cons] at h ⊢
    have hmod : (cur + block.nTx) % 4294967296 = cur + block.nTx :=
      Nat.mod_eq_of_lt (by omega)
    have := ih (cur + block.nTx) (by omega)
    simp only [cumulativeAfter, List.foldl_cons, hmod] at this ⊢
    omega

theorem mem_files_of_lookup (l : List (Int × Nat)) (k : Int) (v : Nat)
    (h : l.lookup k = some v) : (k, v) ∈ l := by
  induction l with
  | nil => simp at h
  | cons e rest ih =>
    obtain ⟨a, w⟩ := e
    rw [List.lookup_cons] at h
    by_cases hka : (k == a) = true
    · simp only [hka, Option.some.injEq] at h
      have : k = a := eq_of_beq hka
      subst this
      subst h
      exact List.mem_cons_self _ _
    · have hka2 : (k == a) = false := by simpa using hka
      simp only [hka2] at h
      exact List.mem_cons_of_mem _ (ih h)

theorem lastTxRequired_values_lt :
    ∀ (blocks : List (BlockInfo FileLocation)) (cur : Nat) (acc : List (Int × Nat)),
      (∀ e ∈ acc, e.2 < 4294967296) →
      ∀ e ∈ lastTxRequired cur blocks acc, e.2 < 4294967296 := by
  intro blocks
  induction blocks with
  | nil =>
    intro cur acc h
    exact h
  | cons block rest ih =>
    intro cur acc h
    simp only [lastTxRequired]
    apply ih
    intro e he
    rcases List.mem_cons.mp he with rfl | he
    · exact Nat.mod_lt _ (by norm_num)
    · exact h e (List.mem_of_mem_filter he)

theorem lastTxRequiredAt_lt (cur : Nat) (blocks : List (BlockInfo FileLocation)) (nFile : Int) :
    lastTxRequiredAt (lastTxRequired cur blocks []) nFile < 4294967296 := by
  unfold lastTxRequiredAt
  cases hl : (lastTxRequired cur blocks []).lookup nFile with
  | none => simp
  | some v =>
    exact lastTxRequired_values_lt blocks cur [] (by simp) _ (mem_files_of_lookup _ _ _ hl)

theorem popFinished_files_mem (st : BlockProcessor) (e : Int × Nat)
    (h : e ∈ (popFinished st).files) : e ∈ st.files := by
  rw [(popFinished_pops st).2] at h
  split at h
  · exact List.mem_of_mem_filter h
  · exact h

theorem emitTransaction_files_mem (st : BlockProcessor) (tx : RawTransaction) (e : Int × Nat)
    (h : e ∈ (emitTransaction st tx).files) : e ∈ st.files := by
  simp only [emitTransaction] at h
  have := popFinished_files_mem _ e h
  by_cases hn : hasNullInput tx = true <;> simpa [hn] using this

theorem readTransactions_files_queue (src : BlockFiles) (nFile : Int) (blockHeight : Nat)
    (segwit : Bool) :
    ∀ (count offset : Nat) (st st1 : BlockProcessor),
      readTransactions src nFile blockHeight segwit count offset st = some st1 →
      (∀ e ∈ st1.files, e ∈ st.files) ∧
        st1.finished_transaction_queue = st.finished_transaction_queue.drop count := by
  intro count
  induction count with
  | zero =>
    intro offset st st1 h
    simp only [readTransactions, Option.some.injEq] at h
    subst h
    exact ⟨fun e he => he, by simp⟩
  | succ count ih =>
    intro offset st st1 h
    simp only [readTransactions] at h
    cases hp : src.parse nFile offset segwit with
    | none => simp [hp] at h
    | some r =>
      obtain ⟨parsed, offset1⟩ := r
      simp only [hp] at h
      obtain ⟨h1, h2⟩ := ih offset1 _ st1 h
      refine ⟨fun e he => emitTransaction_files_mem _ _ e (h1 e he), ?_⟩
      rw [h2, (emitTransaction_pops _ _).1, List.drop_tail]

theorem readBlock_files_queue (src : BlockFiles) (table : List (Int × Nat))
    (st st1 : BlockProcessor) (block : BlockInfo FileLocation) (count firstTxOffset : Nat)
    (h : readBlock src table st block = some (true, st1))
    (hread : src.readVariableLengthInteger block.location.nFile (block.location.nDataPos + 80) =
      some (count, firstTxOffset)) :
    (∀ e ∈ st1.files, e ∈ st.files ∨
      e = (block.location.nFile, lastTxRequiredAt table block.location.nFile)) ∧
      st1.finished_transaction_queue =
        st.finished_transaction_queue.drop (count % 4294967296 + 1) := by
  unfold readBlock at h
  cases ho : openBlockFile src table st block with
  | none => simp [ho] at h
  | some st2 =>
    simp only [ho] at h
    cases hr : readOpenedBlock src st2 block with
    | none => simp [hr] at h
    | some st3 =>
      simp only [hr, Option.some.injEq, Prod.mk.injEq, true_and] at h
      subst h
      have hopen : (∀ e ∈ st2.files, e ∈ st.files ∨
          e = (block.location.nFile, lastTxRequiredAt table block.location.nFile)) ∧
          st2.finished_transaction_queue = st.finished_transaction_queue := by
        unfold openBlockFile at ho
        split at ho
        · simp only [Option.some.injEq] at ho
          subst ho
          exact ⟨fun e he => Or.inl he, rfl⟩
        · split at ho
          · simp only [Option.some.injEq] at ho
            subst ho
            refine ⟨?_, rfl⟩
            intro e he
            simp only [List.mem_append, List.mem_singleton] at he
            exact he
          · simp at ho
      unfold readOpenedBlock at hr
      simp only [hread] at hr
      cases hd : detectSegwit src block.location.nFile (count % 4294967296) firstTxOffset with
      | none => simp [hd] at hr
      | some segwit =>
        simp only [hd] at hr
        cases ht : readTransactions src block.location.nFile
            (block.height % 4294967296).toNat segwit (count % 4294967296) firstTxOffset
            (popFinished st2) with
        | none => simp [ht] at hr
        | some st4 =>
          simp only [ht, Option.some.injEq] at hr
          subst hr
          obtain ⟨h1, h2⟩ := readTransactions_files_queue src _ _ _ _ _ _ st4 ht
          constructor
          · intro e he
            exact hopen.1 e (popFinished_files_mem st2 e (h1 e he))
          · show st4.finished_transaction_queue = _
            rw [h2, (popFinished_pops st2).1, hopen.2, List.drop_tail]

theorem readBlock_of_fileExists (src : BlockFiles) (table : List (Int × Nat))
    (st st1 : BlockProcessor) (block : BlockInfo FileLocation) (flag : Bool)
    (hexists : src.fileExists block.location.nFile = true)
    (h : readBlock src table st block = some (flag, st1)) : flag = true := by
  unfold readBlock at h
  cases ho : openBlockFile src table st block with
  | none =>
    unfold openBlockFile at ho
    split at ho
    · simp at ho
    · simp [hexists] at ho
  | some st2 =>
    simp only [ho] at h
    cases hr : readOpenedBlock src st2 block with
    | none => simp [hr] at h
    | some st3 =>
      simp only [hr, Option.some.injEq, Prod.mk.injEq] at h
      exact h.1.symm

theorem popsBehind_cons (cur : Nat) (pops : List (Option RawTransaction))
    (block : BlockInfo FileLocation) (rest : List (BlockInfo FileLocation))
    (h : popsBehind cur pops (block :: rest) = true) :
    (∀ i t, i ≤ block.nTx → pops[i]? = some (some t) → t.txNum < cur + i) ∧
      popsBehind (cur + block.nTx) (pops.drop (block.nTx + 1)) rest = true := by
  simp only [popsBehind, Bool.and_eq_true, List.all_eq_true, List.mem_range] at h
  refine ⟨?_, h.2⟩
  intro i t hi ht
  have := h.1 i (by omega)
  simpa [ht] using this

theorem readBlock_step (src : BlockFiles) (table : List (Int × Nat))
    (st st1 : BlockProcessor) (block : BlockInfo FileLocation)
    (h : readBlock src table st block = some (true, st1))
    (hread : (src.readVariableLengthInteger block.location.nFile
      (block.location.nDataPos + 80)).map (fun r => r.1 % 4294967296) = some block.nTx)
    (hfiles : ∀ e ∈ st.files, e.2 = lastTxRequiredAt table e.1)
    (hbound : st.currentTxNum + block.nTx ≤ lastTxRequiredAt table block.location.nFile)
    (hlt : lastTxRequiredAt table block.location.nFile < 4294967296)
    (hpops : ∀ i t, i ≤ block.nTx → st.finished_transaction_queue[i]? = some (some t) →
      t.txNum < st.currentTxNum + i) :
    st1.files.lookup block.location.nFile =
        some (lastTxRequiredAt table block.location.nFile) ∧
      st1.currentTxNum = st.currentTxNum + block.nTx ∧
      st1.finished_transaction_queue = st.finished_transaction_queue.drop (block.nTx + 1) ∧
      ∀ e ∈ st1.files, e.2 = lastTxRequiredAt table e.1 := by
  cases hr : src.readVariableLengthInteger block.location.nFile
      (block.location.nDataPos + 80) with
  | none => simp [hr] at hread
  | some r =>
    obtain ⟨count, firstTxOffset⟩ := r
    simp only [hr, Option.map_some', Option.some.injEq] at hread
    have hrecorded : (match st.files.lookup block.location.nFile with
        | some w => w
        | none => lastTxRequiredAt table block.location.nFile) =
        lastTxRequiredAt table block.location.nFile := by
      cases hl : st.files.lookup block.location.nFile with
      | none => rfl
      | some w => exact hfiles _ (mem_files_of_lookup _ _ _ hl)
    have hkeep := readBlock_keeps src table st st1 block count firstTxOffset h
      (by rw [hrecorded]; exact hlt) hr (by rw [hrecorded, hread]; exact hbound)
      (by rw [hread]; exact hpops)
    rw [hrecorded] at hkeep
    obtain ⟨hmem, hqueue⟩ := readBlock_files_queue src table st st1 block count firstTxOffset h hr
    obtain ⟨b, group, _, _, hblock, hcur⟩ := readBlock_true src table st st1 block h (by omega)
    obtain ⟨_, _, _, _, _, _, count1, off1, hr1, hnum, _⟩ := hblock
    rw [hr] at hr1
    simp only [Option.some.injEq, Prod.mk.injEq] at hr1
    rw [← hr1.1, hread] at hnum
    refine ⟨hkeep, ?_, by rw [hqueue, hread], ?_⟩
    · rw [hcur, hnum]
      exact Nat.mod_eq_of_lt (by omega)
    · intro e he
      rcases hmem e he with h1 | h1
      · exact hfiles e h1
      · rw [h1]

theorem readBlocks_keeps_open (src : BlockFiles) (table : List (Int × Nat))
    (block : BlockInfo FileLocation) :
    ∀ (before : List (BlockInfo FileLocation)) (st stk st1 : BlockProcessor),
      (∀ e ∈ st.files, e.2 = lastTxRequiredAt table e.1) →
      (∀ b ∈ before ++ [block],
        (src.readVariableLengthInteger b.location.nFile (b.location.nDataPos + 80)).map
          (fun r => r.1 % 4294967296) = some b.nTx) →
      (∀ b ∈ before ++ [block], lastTxRequiredAt table b.location.nFile < 4294967296) →
      (∀ (pre : List (BlockInfo FileLocation)) (b : BlockInfo FileLocation)
        (post : List (BlockInfo FileLocation)), before ++ [block] = pre ++ b :: post →
        st.currentTxNum + ((pre ++ [b]).map (fun b => b.nTx)).sum ≤
          lastTxRequiredAt table b.location.nFile) →
      (∀ b ∈ before, src.fileExists b.location.nFile = true) →
      popsBehind st.currentTxNum st.finished_transaction_queue (before ++ [block]) = true →
      readBlocks src table st before = some stk →
      readBlock src table stk block = some (true, st1) →
      stk.currentTxNum = st.currentTxNum + (before.map (fun b => b.nTx)).sum ∧
        st1.files.lookup block.location.nFile =
          some (lastTxRequiredAt table block.location.nFile) := by
  intro before
  induction before with
  | nil =>
    intro st stk st1 hfiles hcount hlt hends _ hpops hrun hblock
    simp only [readBlocks, Option.some.injEq] at hrun
    subst hrun
    refine ⟨by simp, ?_⟩
    have hend := hends [] block [] rfl
    simp only [List.nil_append, List.map_cons, List.map_nil, List.sum_cons, List.sum_nil,
      Nat.add_zero] at hend
    exact (readBlock_step src table st st1 block hblock (hcount block (by simp)) hfiles hend
      (hlt block (by simp)) (popsBehind_cons _ _ _ _ hpops).1).1
  | cons first rest ih =>
    intro st stk st1 hfiles hcount hlt hends hexist hpops hrun hblock
    simp only [readBlocks] at hrun
    cases hb : readBlock src table st first with
    | none => simp [hb] at hrun
    | some r =>
      obtain ⟨flag, st2⟩ := r
      have hflag := readBlock_of_fileExists src table st st2 first flag
        (hexist first (List.mem_cons_self _ _)) hb
      subst hflag
      simp only [hb] at hrun
      have hend := hends [] first (rest ++ [block]) rfl
      simp only [List.nil_append, List.map_cons, List.map_nil, List.sum_cons, List.sum_nil,
        Nat.add_zero] at hend
      obtain ⟨hp1, hp2⟩ := popsBehind_cons _ _ _ _ hpops
      obtain ⟨_, hcur2, hqueue2, hfiles2⟩ := readBlock_step src table st st2 first hb
        (hcount first (by simp)) hfiles hend (hlt first (by simp)) hp1
      obtain ⟨h1, h2⟩ := ih st2 stk st1 hfiles2
        (fun b hb => hcount b (List.mem_cons_of_mem _ hb))
        (fun b hb => hlt b (List.mem_cons_of_mem _ hb))
        (fun pre b post heq => by
          have := hends (first :: pre) b post (by rw [List.cons_append, heq, List.cons_append])
          simp only [List.cons_append, List.map_cons, List.sum_cons] at this
          rw [hcur2]
          omega)
        (fun b hb => hexist b (List.mem_cons_of_mem _ hb))
        (by rw [hcur2, hqueue2]; exact hp2) hrun hblock
      refine ⟨?_, h2⟩
      rw [h1, hcur2]
      simp only [List.map_cons, List.sum_cons]
      omega

/-- C21 (as amended): `closeFinishedFiles(t)` erases exactly the entries whose recorded value is
less than `t` and leaves the other entries as they are, in their order. The value recorded for a
file when it is opened is the one `readNewBlocks` computed for it: the running 32-bit transaction
count after the last block of that file among the blocks to add, which, when nothing wraps, is
the count the run starts from plus the transactions of the blocks up to and including that
block, that is one more than the number of the last transaction the file contributes, and is at
least the count after any block of the file. When a block is read whose file is open with a
recorded value, below `2^32`, that is at least the count after the block, and every buffer
popped while the block is read carries the number of a transaction pushed before the pop, the
file of the block is still open, with the same value, when the block has been read. That is so
for every block of a run that starts with no file open and in which the count does not wrap (the
count at the start plus the transactions of the blocks to add is below `2^32`), the count read
for a block is the block's `nTx`, the block files exist, and every buffer popped carries the
number of a transaction pushed before the pop: when the blocks before a block have been read
and the block is read, the count is the count at the start plus the transactions of the blocks
before, and the file of the block is open, with the value recorded for it, when the block has
been read. -/
theorem closeFinishedFiles_closes_below_recorded_value :
    (∀ (files : List (Int × Nat)) (t : Nat),
      (closeFinishedFiles files t).Sublist files ∧
      ∀ e : Int × Nat, e ∈ closeFinishedFiles files t ↔ e ∈ files ∧ ¬ e.2 < t) ∧
    (∀ (cur : Nat) (before after : List (BlockInfo FileLocation))
      (block : BlockInfo FileLocation),
      (∀ b ∈ after, b.location.nFile ≠ block.location.nFile) →
      lastTxRequiredAt (lastTxRequired cur (before ++ block :: after) [])
          block.location.nFile = cumulativeAfter cur (before ++ [block]) ∧
      (cur + ((before ++ [block]).map (fun b => b.nTx)).sum < 4294967296 →
        lastTxRequiredAt (lastTxRequired cur (before ++ block :: after) [])
          block.location.nFile = cur + ((before ++ [block]).map (fun b => b.nTx)).sum)) ∧
    (∀ (cur : Nat) (before after : List (BlockInfo FileLocation))
      (block : BlockInfo FileLocation),
      cur + ((before ++ block :: after).map (fun b => b.nTx)).sum < 4294967296 →
      cur + ((before ++ [block]).map (fun b => b.nTx)).sum ≤
        lastTxRequiredAt (lastTxRequired cur (before ++ block :: after) [])
          block.location.nFile) ∧
    (∀ (src : BlockFiles) (table : List (Int × Nat)) (st st1 : BlockProcessor)
      (block : BlockInfo FileLocation) (count firstTxOffset recorded : Nat),
      readBlock src table st block = some (true, st1) →
      (match st.files.lookup block.location.nFile with
        | some w => w
        | none => lastTxRequiredAt table block.location.nFile) = recorded →
      recorded < 4294967296 →
      src.readVariableLengthInteger block.location.nFile (block.location.nDataPos + 80) =
        some (count, firstTxOffset) →
      st.currentTxNum + count % 4294967296 ≤ recorded →
      (∀ i t, i ≤ count % 4294967296 →
        st.finished_transaction_queue[i]? = some (some t) → t.txNum < st.currentTxNum + i) →
      st1.files.lookup block.location.nFile = some recorded) ∧
    ∀ (src : BlockFiles) (st stk st1 : BlockProcessor)
      (before after : List (BlockInfo FileLocation)) (block : BlockInfo FileLocation),
      st.files = [] →
      st.currentTxNum + ((before ++ block :: after).map (fun b => b.nTx)).sum < 4294967296 →
      (∀ b ∈ before ++ [block],
        (src.readVariableLengthInteger b.location.nFile (b.location.nDataPos + 80)).map
          (fun r => r.1 % 4294967296) = some b.nTx) →
      (∀ b ∈ before, src.fileExists b.location.nFile = true) →
      popsBehind st.currentTxNum st.finished_transaction_queue (before ++ [block]) = true →
      readBlocks src (lastTxRequired st.currentTxNum (before ++ block :: after) []) st before =
        some stk →
      readBlock src (lastTxRequired st.currentTxNum (before ++ block :: after) []) stk block =
        some (true, st1) →
      stk.currentTxNum = st.currentTxNum + (before.map (fun b => b.nTx)).sum ∧
        st1.files.lookup block.location.nFile =
          some (lastTxRequiredAt
            (lastTxRequired st.currentTxNum (before ++ block :: after) [])
            block.location.nFile) := by
  refine ⟨?_, ?_, ?_, ?_, ?_⟩
  · intro files t
    refine ⟨List.filter_sublist _, ?_⟩
    intro e
    simp [closeFinishedFiles, List.mem_filter]
  · intro cur before after block hlast
    have hval : lastTxRequiredAt (lastTxRequired cur (before ++ block :: after) [])
        block.location.nFile = cumulativeAfter cur (before ++ [block]) := by
      simp only [lastTxRequiredAt, lastTxRequired_of_last_block before block after cur [] hlast,
        Option.getD_some]
    refine ⟨hval, ?_⟩
    intro hsum
    rw [hval, cumulativeAfter_eq_sum _ _ hsum]
  · intro cur before after block hsum
    exact lastTxRequiredAt_ge_block_end before block after cur [] hsum
  · intro src table st st1 block count firstTxOffset recorded hrun hrec hv hread hbound hpops
    subst hrec
    exact readBlock_keeps src table st st1 block count firstTxOffset hrun hv hread hbound hpops
  · intro src st stk st1 before after block hfiles hsum hcount hexist hpops hrun hblock
    have hall : before ++ block :: after = (before ++ [block]) ++ after := by simp
    apply readBlocks_keeps_open src _ block before st stk st1 _ hcount _ _ hexist hpops hrun
      hblock
    · intro e he
      rw [hfiles] at he
      simp at he
    · intro b _
      exact lastTxRequiredAt_lt _ _ _
    · intro pre b post heq
      have hsplit : before ++ block :: after = pre ++ b :: (post ++ after) := by
        rw [hall, heq]
        simp
      rw [hsplit] at hsum ⊢
      exact lastTxRequiredAt_ge_block_end pre b (post ++ after) st.currentTxNum [] hsum

/-- C21, witness: two blocks of two transactions are to be added, the first in block file 0 and
the second in block file 1, from the count 0; the files are recorded with the values 2 and 4.
The buffer of transaction 1 comes back when the second block is begun and the buffer of
transaction 3 after transaction 3 has been pushed: file 0 is closed then, and file 1 is open,
with the value 4, when the second block has been read. -/
theorem closeFinishedFiles_closes_below_recorded_value_witness :
    ∃ stk st1,
      (BlockProcessor.new 0 4 2 [none, none, none, some (sampleTx 1 0 [] []), none,
        some (sampleTx 3 0 [] [])]).files = [] ∧
      readBlocks twoBlockFiles
        (lastTxRequired 0 ([sampleBlockIn 0 11 0 1] ++ sampleBlockIn 1 12 11 2 :: []) [])
        (BlockProcessor.new 0 4 2 [none, none, none, some (sampleTx 1 0 [] []), none,
          some (sampleTx 3 0 [] [])])
        [sampleBlockIn 0 11 0 1] = some stk ∧
      readBlock twoBlockFiles
        (lastTxRequired 0 ([sampleBlockIn 0 11 0 1] ++ sampleBlockIn 1 12 11 2 :: []) [])
        stk (sampleBlockIn 1 12 11 2) = some (true, st1) ∧
      lastTxRequired 0 [sampleBlockIn 0 11 0 1, sampleBlockIn 1 12 11 2] [] = [(1, 4), (0, 2)] ∧
      stk.files = [(0, 2)] ∧ st1.files = [(1, 4)] ∧
      stk.currentTxNum = 0 + ([sampleBlockIn 0 11 0 1].map (fun b => b.nTx)).sum ∧
      st1.files.lookup (sampleBlockIn 1 12 11 2).location.nFile =
        some (lastTxRequiredAt
          (lastTxRequired 0 ([sampleBlockIn 0 11 0 1] ++ sampleBlockIn 1 12 11 2 :: []) [])
          (sampleBlockIn 1 12 11 2).location.nFile) :=
  ⟨_, _, rfl, rfl, rfl, by decide, by decide, by decide,
    closeFinishedFiles_closes_below_recorded_value.2.2.2.2 twoBlockFiles
      (BlockProcessor.new 0 4 2 [none, none, none, some (sampleTx 1 0 [] []), none,
        some (sampleTx 3 0 [] [])]) _ _
      [sampleBlockIn 0 11 0 1] [] (sampleBlockIn 1 12 11 2) rfl (by decide) (by decide)
      (by decide) (by decide) rfl rfl⟩

/-- C21, counterexample to the claim as stated: the same two blocks are read in one run, and the
buffer of transaction 2 comes back right after transaction 2 has been pushed, so that
`closeFinishedFiles(2)` runs while block file 0 is open. The last transaction file 0 contributes
is transaction 1, which is less than 2, and the file is not closed: the value recorded for it is
2, the count after its block, and 2 is not less than 2. With the watermark 3 it is closed. -/
theorem closeFinishedFiles_keeps_file_whose_last_transaction_is_below :
    ∃ st1,
      readNewBlocks twoBlockFiles
        (BlockProcessor.new 0 4 2 [none, none, none, none, some (sampleTx 2 0 [] [])])
        [sampleBlockIn 0 11 0 1, sampleBlockIn 1 12 11 2] = some st1 ∧
      st1.hash_transaction_queue.map (fun tx => tx.txNum) = [0, 1, 2, 3] ∧
      st1.blockFile.map (fun b => (b.firstTxIndex, b.numTxes)) = [(0, 2), (2, 2)] ∧
      st1.files = [(0, 2), (1, 4)] ∧
      closeFinishedFiles [(0, 2), (1, 4)] 2 = [(0, 2), (1, 4)] ∧
      (1 : Nat) < 2 ∧
      closeFinishedFiles [(0, 2), (1, 4)] 3 = [(1, 4)] := by
  refine ⟨_, rfl, by decide, by decide, by decide, by decide, by decide, by decide⟩

/-- After a wrap of the 32-bit count the file of a block can be closed while the block is read:
from the count `2^32 - 1` a block of two transactions is recorded with the value 1, and the
buffer of transaction `2^32 - 1`, coming back after that transaction has been pushed, closes the
file, 1 being less than `2^32 - 1`. -/
theorem closeFinishedFiles_closes_file_being_read_after_wrap :
    ∃ st1,
      readBlock twoBlockFiles (lastTxRequired 4294967295 [sampleBlockIn 0 11 0 1] [])
        (BlockProcessor.new 4294967295 4 2 [none, some (sampleTx 4294967295 0 [] []), none])
        (sampleBlockIn 0 11 0 1) = some (true, st1) ∧
      lastTxRequired 4294967295 [sampleBlockIn 0 11 0 1] [] = [(0, 1)] ∧
      st1.hash_transaction_queue.map (fun tx => tx.txNum) = [4294967295, 0] ∧
      st1.files = [] := by
  refine ⟨_, rfl, by decide, by decide, by decide⟩

/-! ### The chain index: the counts of a scanned block -/

theorem sumCounts_eq (headers : List TransactionHeader) :
    ∀ counts : Nat × Nat,
      sumCounts headers counts =
        ((counts.1 + (headers.map (fun h => h.inputCount)).sum) % 4294967296,
          (counts.2 + (headers.map (fun h => h.outputCount)).sum) % 4294967296) ∨
      headers = [] := by
  induction headers with
  | nil =>
    intro counts
    exact Or.inr rfl
  | cons h rest ih =>
    intro counts
    left
    simp only [sumCounts, List.map_cons, List.sum_cons]
    rcases ih ((counts.1 + h.inputCount) % 4294967296,
      (counts.2 + h.outputCount) % 4294967296) with hrest | hnil
    · rw [hrest]
      simp only [Prod.mk.injEq]
      constructor <;> omega
    · subst hnil
      simp [sumCounts]

theorem sumCounts_zero (headers : List TransactionHeader) :
    sumCounts headers (0, 0) =
      ((headers.map (fun h => h.inputCount)).sum % 4294967296,
        (headers.map (fun h => h.outputCount)).sum % 4294967296) := by
  rcases sumCounts_eq headers (0, 0) with h | h
  · simpa using h
  · subst h
    rfl

/-- C22: for every block the scan of file mode goes through, whatever the reader yields for it,
the `inputCount` stored in its `BlockInfo` is the sum of the input counts of its transaction
headers less one, in 32-bit unsigned arithmetic, and the stored `outputCount` is the sum of the
output counts, in 32-bit unsigned arithmetic. Where the input counts total at least 1 and at most
`2^32`, the stored `inputCount` is that total less one, which is the number of inputs of the
transactions after the first when the first header has one input; where they total zero it is
`2^32 - 1`; where the output counts total less than `2^32` the stored `outputCount` is that
total. -/
theorem scanBlock_counts (workHashFunction : CBlockHeader → uint256) (fileNum : Int)
    (length blockStartOffset : Nat) (header : CBlockHeader) (numTxes : Nat)
    (headers : List TransactionHeader) :
    (scanBlock workHashFunction fileNum length blockStartOffset header numTxes
        headers).inputCount =
      ((headers.map (fun h => h.inputCount)).sum % 4294967296 + 4294967295) % 4294967296 ∧
    (scanBlock workHashFunction fileNum length blockStartOffset header numTxes
        headers).outputCount =
      (headers.map (fun h => h.outputCount)).sum % 4294967296 ∧
    (1 ≤ (headers.map (fun h => h.inputCount)).sum →
      (headers.map (fun h => h.inputCount)).sum ≤ 4294967296 →
      (scanBlock workHashFunction fileNum length blockStartOffset header numTxes
          headers).inputCount =
        (headers.map (fun h => h.inputCount)).sum - 1) ∧
    (∀ (coinbase : TransactionHeader) (others : List TransactionHeader),
      headers = coinbase :: others → coinbase.inputCount = 1 →
      (others.map (fun h => h.inputCount)).sum < 4294967296 →
      (scanBlock workHashFunction fileNum length blockStartOffset header numTxes
          headers).inputCount =
        (others.map (fun h => h.inputCount)).sum) ∧
    ((headers.map (fun h => h.inputCount)).sum = 0 →
      (scanBlock workHashFunction fileNum length blockStartOffset header numTxes
          headers).inputCount = 4294967295) ∧
    ((headers.map (fun h => h.outputCount)).sum < 4294967296 →
      (scanBlock workHashFunction fileNum length blockStartOffset header numTxes
          headers).outputCount =
        (headers.map (fun h => h.outputCount)).sum) := by
  have hin : (scanBlock workHashFunction fileNum length blockStartOffset header numTxes
      headers).inputCount =
      ((headers.map (fun h => h.inputCount)).sum % 4294967296 + 4294967295) % 4294967296 := by
    simp only [scanBlock, BlockInfo.new, sumCounts_zero]
  have hout : (scanBlock workHashFunction fileNum length blockStartOffset header numTxes
      headers).outputCount =
      (headers.map (fun h => h.outputCount)).sum % 4294967296 := by
    simp only [scanBlock, BlockInfo.new, sumCounts_zero]
  refine ⟨hin, hout, ?_, ?_, ?_, ?_⟩
  · intro h1 h2
    rw [hin]
    omega
  · intro coinbase others hh hc hsum
    rw [hin, hh]
    simp only [List.map_cons, List.sum_cons, hc]
    omega
  · intro h0
    rw [hin, h0]
  · intro h
    rw [hout]
    exact Nat.mod_eq_of_lt h

/-- C22, witness: a block of a coinbase with one input and two outputs and of a transaction with
three inputs and one output is stored with the input count 3 and the output count 3; a block
whose only header counts no input is stored with the input count `2^32 - 1`. -/
theorem scanBlock_counts_witness :
    (1 ≤ (([{ inputCount := 1, outputCount := 2 }, { inputCount := 3, outputCount := 1 }] :
        List TransactionHeader).map (fun h => h.inputCount)).sum ∧
      (([{ inputCount := 1, outputCount := 2 }, { inputCount := 3, outputCount := 1 }] :
        List TransactionHeader).map (fun h => h.inputCount)).sum ≤ 4294967296) ∧
      (scanBlock (fun _ => 11) 0 285 8 (sampleHeader 0) 2
        [{ inputCount := 1, outputCount := 2 }, { inputCount := 3, outputCount := 1 }]).inputCount
        = 3 ∧
      (scanBlock (fun _ => 11) 0 285 8 (sampleHeader 0) 2
        [{ inputCount := 1, outputCount := 2 }, { inputCount := 3, outputCount := 1 }]).outputCount
        = 3 ∧
      (scanBlock (fun _ => 11) 0 285 8 (sampleHeader 0) 1
        [{ inputCount := 0, outputCount := 1 }]).inputCount = 4294967295 ∧
      (scanBlock (fun _ => 11) 0 285 8 (sampleHeader 0) 2
        [{ inputCount := 1, outputCount := 2 }, { inputCount := 3, outputCount := 1 }]).inputCount
        = (([{ inputCount := 1, outputCount := 2 }, { inputCount := 3, outputCount := 1 }] :
          List TransactionHeader).map (fun h => h.inputCount)).sum - 1 :=
  ⟨⟨by decide, by decide⟩, by decide, by decide, by decide,
    (scanBlock_counts (fun _ => 11) 0 285 8 (sampleHeader 0) 2
      [{ inputCount := 1, outputCount := 2 }, { inputCount := 3, outputCount := 1 }]).2.2.1
      (by decide) (by decide)⟩

/-! ### Splitting the chain into segments -/

theorem lowerBound_bounds (chain : List Block) (key : Nat) :
    ∀ (fuel first len : Nat),
      first ≤ lowerBound chain key fuel first len ∧
        lowerBound chain key fuel first len ≤ first + len := by
  intro fuel
  induction fuel with
  | zero =>
    intro first len
    simp [lowerBound]
  | succ fuel ih =>
    intro first len
    simp only [lowerBound]
    by_cases hzero : len = 0
    · simp [hzero]
    · rw [if_neg hzero]
      have hhalf : len / 2 < len := Nat.div_lt_self (by omega) (by norm_num)
      cases hb : chain[first + len / 2]? with
      | none => simp
      | some b =>
        simp only
        by_cases hcmp : b.firstTxIndex < key
        · rw [if_pos hcmp]
          have := ih (first + len / 2 + 1) (len - len / 2 - 1)
          omega
        · rw [if_neg hcmp]
          have := ih first (len / 2)
          omega

theorem take_drop_append {α : Type} (l : List α) (a b c : Nat) (hab : a ≤ b) (hbc : b ≤ c) :
    (l.drop a).take (b - a) ++ (l.drop b).take (c - b) = (l.drop a).take (c - a) := by
  have hsplit : c - a = (b - a) + (c - b) := by omega
  rw [hsplit, List.take_add, List.drop_drop]
  congr 3
  omega

theorem segmentLoop_flatten (chain : List Block)
    (endBlock lastTx totalTxCount segmentCount : Nat) :
    ∀ (fuel it : Nat) (segments : List (List Block)) (r : Nat × List (List Block)),
      segmentLoop chain endBlock lastTx totalTxCount segmentCount fuel it segments = some r →
      it ≤ endBlock →
      it ≤ r.1 ∧ r.1 ≤ endBlock ∧
        r.2.flatten = segments.flatten ++ (chain.drop it).take (r.1 - it) := by
  intro fuel
  induction fuel with
  | zero =>
    intro it segments r h hle
    unfold segmentLoop at h
    cases hb : chain[it]? with
    | none => simp [hb] at h
    | some block =>
      simp only [hb] at h
      split at h
      · simp at h
      · simp only [Option.some.injEq] at h
        subst h
        simp [hle]
  | succ fuel ih =>
    intro it segments r h hle
    unfold segmentLoop at h
    cases hb : chain[it]? with
    | none => simp [hb] at h
    | some block =>
      simp only [hb] at h
      split at h
      · obtain ⟨h1, h2⟩ := lowerBound_bounds chain
          ((block.firstTxIndex + totalTxCount / segmentCount) % 4294967296)
          (endBlock - it) it (endBlock - it)
        obtain ⟨h3, h4, h5⟩ := ih _ _ r h (by omega)
        refine ⟨by omega, h4, ?_⟩
        rw [h5, List.flatten_append, List.append_assoc]
        congr 1
        simp only [List.flatten_cons, List.flatten_nil, List.append_nil]
        exact take_drop_append chain it _ r.1 h1 h3
      · simp only [Option.some.injEq] at h
        subst h
        simp [hle]

/-- C23: whenever `segmentChain` returns, on a chain, two positions `startBlock <= endBlock` and a
segment count, whatever the fuel the loop is given, the concatenation of the segments returned,
in order, is the list of the blocks at the positions `startBlock`, ..., `endBlock - 1` of the
chain, in chain order: `endBlock - startBlock` blocks, the one at index `k` being the block at
position `startBlock + k`. No block is dropped, repeated or moved. -/
theorem segmentChain_concatenation (chain : List Block)
    (startBlock endBlock segmentCount fuel : Nat) (segments : List (List Block))
    (hrun : segmentChain chain startBlock endBlock segmentCount fuel = some segments)
    (hle : startBlock ≤ endBlock) :
    segments.flatten = (chain.drop startBlock).take (endBlock - startBlock) ∧
      segments.flatten.length = endBlock - startBlock ∧
      ∀ k, k < endBlock - startBlock → segments.flatten[k]? = chain[startBlock + k]? := by
  unfold segmentChain at hrun
  by_cases hzero : endBlock = 0
  · simp [hzero] at hrun
  · rw [if_neg hzero] at hrun
    cases hlast : chain[endBlock - 1]? with
    | none => simp [hlast] at hrun
    | some last =>
      cases hfirst : chain[startBlock]? with
      | none => simp [hlast, hfirst] at hrun
      | some first =>
        simp only [hlast, hfirst] at hrun
        have hsize : endBlock ≤ chain.length := by
          have := (List.getElem?_eq_some_iff.mp hlast).1
          omega
        have hflat : segments.flatten =
            (chain.drop startBlock).take (endBlock - startBlock) := by
          cases hloop : segmentLoop chain endBlock last.endTxIndex
              ((last.endTxIndex + 4294967296 - first.firstTxIndex) % 4294967296) segmentCount
              fuel startBlock [] with
          | none => simp [hloop] at hrun
          | some r =>
            obtain ⟨it, done⟩ := r
            simp only [hloop] at hrun
            obtain ⟨h1, h2, h3⟩ := segmentLoop_flatten chain endBlock _ _ segmentCount fuel
              startBlock [] (it, done) hloop hle
            simp only [List.flatten_nil, List.nil_append] at h3
            split at hrun
            · cases hback : done.getLast? with
              | none => simp [hback] at hrun
              | some back =>
                simp only [hback, Option.some.injEq] at hrun
                subst hrun
                have hdone : done = done.dropLast ++ [back] := by
                  have hne : done ≠ [] := by
                    intro hnil
                    rw [hnil] at hback
                    simp at hback
                  rw [List.getLast?_eq_getLast _ hne, Option.some.injEq] at hback
                  rw [← hback]
                  exact (List.dropLast_append_getLast hne).symm
                have hflat : done.flatten = done.dropLast.flatten ++ back := by
                  conv_lhs => rw [hdone]
                  simp
                simp only [List.flatten_append, List.flatten_cons, List.flatten_nil,
                  List.append_nil]
                rw [← List.append_assoc, ← hflat, h3]
                exact take_drop_append chain startBlock it endBlock h1 h2
            · simp only [Option.some.injEq] at hrun
              subst hrun
              simp only [List.flatten_append, List.flatten_cons, List.flatten_nil,
                List.append_nil]
              rw [h3]
              exact take_drop_append chain startBlock it endBlock h1 h2
        refine ⟨hflat, ?_, ?_⟩
        · rw [hflat, List.length_take, List.length_drop]
          omega
        · intro k hk
          rw [hflat, List.getElem?_take_of_lt hk, List.getElem?_drop]

/-- C23, witness: the four sample blocks, with 1, 2, 3 and 1 transactions, are cut in two
segments of two blocks each, which together are the four blocks in order. -/
theorem segmentChain_concatenation_witness :
    ∃ segments, segmentChain sampleBlockFile 0 4 2 4 = some segments ∧ (0 : Nat) ≤ 4 ∧
      segments.map (fun segment => segment.map (fun b => b.firstTxIndex)) = [[0, 1], [3, 6]] ∧
      segments.flatten = (sampleBlockFile.drop 0).take (4 - 0) ∧
      segments.flatten.length = 4 - 0 ∧
      ∀ k, k < 4 - 0 → segments.flatten[k]? = sampleBlockFile[0 + k]? :=
  ⟨[[sampleRecord 0 1 0 0, sampleRecord 1 2 1 7], [sampleRecord 3 3 2 13, sampleRecord 6 1 3 17]],
    by decide!, by decide, by decide,
    segmentChain_concatenation sampleBlockFile 0 4 2 4
      [[sampleRecord 0 1 0 0, sampleRecord 1 2 1 7], [sampleRecord 3 3 2 13, sampleRecord 6 1 3 17]]
      (by decide!) (by decide)⟩

theorem segmentLoop_does_not_advance :
    ∀ (fuel : Nat) (segments : List (List Block)),
      segmentLoop [sampleRecord 0 1 0 0] 1 1 1 2 fuel 0 segments = none := by
  intro fuel
  induction fuel with
  | zero =>
    intro segments
    unfold segmentLoop
    simp [sampleRecord]
  | succ fuel ih =>
    intro segments
    unfold segmentLoop
    have hstay : lowerBound [sampleRecord 0 1 0 0] 0 1 0 1 = 0 := by decide
    simp only [sampleRecord] at hstay
    simp [sampleRecord, hstay]
    exact ih _

/-- C24, the code at failing inputs. On a chain of one block holding one transaction, cut in two
segments, the segment size is 1/2, the search key is the first transaction of the block again,
`lower_bound` returns the position it was given, and the loop test holds as before: the loop
pushes an empty segment and does not advance, so that no amount of fuel lets `segmentChain`
return. On five blocks of one transaction each, cut in three segments, it returns five segments.
On the first of two blocks, holding ten transactions, cut in two segments, it returns the block
followed by an empty segment. On the whole of a chain of two blocks with two and five
transactions, cut in two segments, the search reaches the end of the chain and the loop test then
reads the block behind the last one. -/
theorem segmentChain_fails_to_split :
    ((∀ fuel : Nat, segmentChain [sampleRecord 0 1 0 0] 0 1 2 fuel = none) ∧
      [sampleRecord 0 1 0 0][0]? = some (sampleRecord 0 1 0 0) ∧
      lowerBound [sampleRecord 0 1 0 0] ((0 + 1 / 2) % 4294967296) 1 0 1 = 0 ∧
      ((1 + 4294967296 - 0) % 4294967296) * 2 > 1) ∧
    (∃ segments, segmentChain (unitBlocks 5 0) 0 5 3 5 = some segments ∧
      segments.length = 5 ∧
      segments.map (fun segment => segment.map (fun b => b.firstTxIndex)) =
        [[0], [1], [2], [3], [4]]) ∧
    segmentChain [sampleRecord 0 10 0 0, sampleRecord 10 1 1 0] 0 1 2 1 =
      some [[sampleRecord 0 10 0 0], []] ∧
    ((∀ fuel : Nat,
        segmentChain [sampleRecord 0 2 0 0, sampleRecord 2 5 1 0] 0 2 2 fuel = none) ∧
      lowerBound [sampleRecord 0 2 0 0, sampleRecord 2 5 1 0] ((0 + 7 / 2) % 4294967296)
        2 0 2 = 2 ∧
      [sampleRecord 0 2 0 0, sampleRecord 2 5 1 0][2]? = none) := by
  refine ⟨⟨?_, by decide, by decide, by decide⟩, ?_, by decide!, ⟨?_, by decide, by decide⟩⟩
  · intro fuel
    have h := segmentLoop_does_not_advance fuel []
    simp only [sampleRecord] at h
    simp [segmentChain, Block.endTxIndex, sampleRecord, h]
  · exact ⟨[[sampleRecord 0 1 0 0], [sampleRecord 1 1 1 0], [sampleRecord 2 1 2 0],
      [sampleRecord 3 1 3 0], [sampleRecord 4 1 4 0]], by decide!, by decide, by decide⟩
  · intro fuel
    cases fuel with
    | zero => decide!
    | succ fuel =>
      have hend : lowerBound [sampleRecord 0 2 0 0, sampleRecord 2 5 1 0] 3 2 0 2 = 2 := by
        decide
      simp only [sampleRecord] at hend
      simp only [segmentChain, Block.endTxIndex, sampleRecord]
      unfold segmentLoop
      simp [hend]
      unfold segmentLoop
      simp

theorem lowerBound_ge (chain : List Block) (key n : Nat) (hn : n ≤ chain.length)
    (hmono : ∀ (a b : Nat) (ba bb : Block), a ≤ b → b < n → chain[a]? = some ba →
      chain[b]? = some bb → ba.firstTxIndex ≤ bb.firstTxIndex) :
    ∀ (fuel first len : Nat), len ≤ fuel → first + len ≤ n →
      (∀ (k : Nat) (b : Block), first + len ≤ k → k < n → chain[k]? = some b →
        key ≤ b.firstTxIndex) →
      ∀ (k : Nat) (b : Block), lowerBound chain key fuel first len ≤ k → k < n →
        chain[k]? = some b → key ≤ b.firstTxIndex := by
  intro fuel
  induction fuel with
  | zero =>
    intro first len hlen hbound hhigh k b hk
    have : len = 0 := by omega
    subst this
    simp only [lowerBound] at hk
    exact hhigh k b (by omega)
  | succ fuel ih =>
    intro first len hlen hbound hhigh k b
    simp only [lowerBound]
    by_cases hzero : len = 0
    · subst hzero
      simp only [if_true]
      intro hk
      exact hhigh k b (by omega)
    · rw [if_neg hzero]
      have hhalf : len / 2 < len := Nat.div_lt_self (by omega) (by norm_num)
      obtain ⟨mid, hmid⟩ := getElem?_of_lt_length chain (first + len / 2) (by omega)
      simp only [hmid]
      by_cases hcmp : mid.firstTxIndex < key
      · rw [if_pos hcmp]
        exact ih (first + len / 2 + 1) (len - len / 2 - 1) (by omega) (by omega)
          (fun k b hk => hhigh k b (by omega)) k b
      · rw [if_neg hcmp]
        exact ih first (len / 2) (by omega) (by omega)
          (fun k b hk hkn hb => by
            have := hmono (first + len / 2) k mid b (by omega) hkn hmid hb
            omega) k b

theorem segmentLoop_returns (chain : List Block) (endBlock lastTx totalTxCount segmentCount : Nat)
    (next : Block) (hsize : endBlock < chain.length)
    (hmono : ∀ (a b : Nat) (ba bb : Block), a ≤ b → b < endBlock → chain[a]? = some ba →
      chain[b]? = some bb → ba.firstTxIndex ≤ bb.firstTxIndex)
    (hbelow : ∀ (k : Nat) (b : Block), k < endBlock → chain[k]? = some b →
      b.firstTxIndex ≤ lastTx)
    (hlast : lastTx < 4294967296)
    (hnext : chain[endBlock]? = some next) (hcontig : next.firstTxIndex = lastTx)
    (hquot : 1 ≤ totalTxCount / segmentCount) :
    ∀ (fuel it : Nat) (segments : List (List Block)), it ≤ endBlock → endBlock - it ≤ fuel →
      ∃ r, segmentLoop chain endBlock lastTx totalTxCount segmentCount fuel it segments =
        some r := by
  intro fuel
  induction fuel with
  | zero =>
    intro it segments hle hfuel
    have hit : it = endBlock := by omega
    subst hit
    unfold segmentLoop
    simp only [hnext, hcontig]
    rw [if_neg (by
      have : (lastTx + 4294967296 - lastTx) % 4294967296 = 0 := by omega
      rw [this]
      omega)]
    exact ⟨_, rfl⟩
  | succ fuel ih =>
    intro it segments hle hfuel
    unfold segmentLoop
    obtain ⟨block, hblock⟩ := getElem?_of_lt_length chain it (by omega)
    simp only [hblock]
    split
    · rename_i htest
      have hnot : it ≠ endBlock := by
        intro hit
        subst hit
        rw [hnext] at hblock
        have := Option.some.inj hblock
        subst this
        rw [hcontig] at htest
        have : (lastTx + 4294967296 - lastTx) % 4294967296 = 0 := by omega
        rw [this] at htest
        omega
      have hfirst := hbelow it block (by omega) hblock
      have hdiff : (lastTx + 4294967296 - block.firstTxIndex) % 4294967296 =
          lastTx - block.firstTxIndex := by omega
      rw [hdiff] at htest
      have hlt : totalTxCount / segmentCount < lastTx - block.firstTxIndex := by
        apply Nat.div_lt_of_lt_mul
        rw [Nat.mul_comm]
        exact htest
      have hkey : (block.firstTxIndex + totalTxCount / segmentCount) % 4294967296 =
          block.firstTxIndex + totalTxCount / segmentCount := Nat.mod_eq_of_lt (by omega)
      obtain ⟨h1, h2⟩ := lowerBound_bounds chain
        ((block.firstTxIndex + totalTxCount / segmentCount) % 4294967296)
        (endBlock - it) it (endBlock - it)
      have hprog : it < lowerBound chain
          ((block.firstTxIndex + totalTxCount / segmentCount) % 4294967296)
          (endBlock - it) it (endBlock - it) := by
        by_contra hstuck
        have := lowerBound_ge chain
          ((block.firstTxIndex + totalTxCount / segmentCount) % 4294967296) endBlock
          (by omega) hmono (endBlock - it) it (endBlock - it) (le_refl _) (by omega)
          (fun k b hk hkn => absurd hkn (by omega)) it block (by omega) (by omega) hblock
        rw [hkey] at this
        omega
      exact ih _ _ (by omega) (by omega)
    · exact ⟨_, rfl⟩

/-- The loop of `segmentChain` ends, and `segmentChain` returns, within `endBlock - startBlock`
rounds when the blocks before `endBlock` have non-decreasing `firstTxIndex`, the last of them
ends below `2^32`, the chain goes on behind it with a block that starts where it ends, and the
segment count is at least 1 and at most the number of transactions of the range. -/
theorem segmentChain_returns (chain : List Block) (startBlock endBlock segmentCount fuel : Nat)
    (first last next : Block) (hstart : startBlock < endBlock)
    (hfirst : chain[startBlock]? = some first) (hlast : chain[endBlock - 1]? = some last)
    (hnext : chain[endBlock]? = some next)
    (hmono : ∀ (a b : Nat) (ba bb : Block), a ≤ b → b < endBlock → chain[a]? = some ba →
      chain[b]? = some bb → ba.firstTxIndex ≤ bb.firstTxIndex)
    (hnowrap : last.firstTxIndex + last.numTxes < 4294967296)
    (hcontig : next.firstTxIndex = last.firstTxIndex + last.numTxes)
    (hcount : 1 ≤ segmentCount)
    (htotal : segmentCount ≤ last.firstTxIndex + last.numTxes - first.firstTxIndex)
    (hfuel : endBlock - startBlock ≤ fuel) :
    ∃ segments, segmentChain chain startBlock endBlock segmentCount fuel = some segments := by
  have hend : last.endTxIndex = last.firstTxIndex + last.numTxes := by
    unfold Block.endTxIndex
    exact Nat.mod_eq_of_lt hnowrap
  have hsize : endBlock < chain.length := (List.getElem?_eq_some_iff.mp hnext).1
  have hle : first.firstTxIndex ≤ last.firstTxIndex :=
    hmono startBlock (endBlock - 1) first last (by omega) (by omega) hfirst hlast
  have htot : (last.endTxIndex + 4294967296 - first.firstTxIndex) % 4294967296 =
      last.firstTxIndex + last.numTxes - first.firstTxIndex := by
    rw [hend]
    omega
  obtain ⟨r, hr⟩ := segmentLoop_returns chain endBlock last.endTxIndex
    ((last.endTxIndex + 4294967296 - first.firstTxIndex) % 4294967296) segmentCount next hsize
    hmono
    (fun k b hk hb => by
      have := hmono k (endBlock - 1) b last (by omega) (by omega) hb hlast
      rw [hend]
      omega)
    (by rw [hend]; exact hnowrap) hnext (by rw [hend]; exact hcontig)
    (by
      rw [htot]
      exact (Nat.le_div_iff_mul_le (by omega)).mpr (by omega))
    fuel startBlock [] (by omega) hfuel
  obtain ⟨it, done⟩ := r
  unfold segmentChain
  rw [if_neg (by omega)]
  simp only [hlast, hfirst, hr]
  split
  · rename_i hlen
    cases hback : done.getLast? with
    | none =>
      have : done = [] := List.getLast?_eq_none_iff.mp hback
      rw [this] at hlen
      simp at hlen
      omega
    | some back => exact ⟨_, rfl⟩
  · exact ⟨_, rfl⟩

end BlockSci
